import Mathlib

/-!
Saga2 blitters: a shallow embedding of `engines/saga2/blitters.cpp`.

The pixel primitives of the Saga2 engine only ever *store* into the destination
pixel map; they never read it back.  Each primitive is therefore embedded as a
function that returns the list of byte stores it performs, in program order,
addressed relative to the destination's `data` pointer.  The destination after
the call is the prior memory with these stores replayed (`applyWrites`).

Encoded source streams are finite byte lists.  Reading past the end of a stream
is undefined behaviour in the C++ source; the embedding stops there and reports
`Status.srcOverrun`, keeping the stores made so far.
-/

namespace Saga2

/-! ## Machine data -/

/-- An 8-bit storage unit (`uint8` / `byte`). -/
abbrev Byte := Fin 256

/-- The byte holding the low eight bits of `n`. -/
def Byte.ofNat (n : Nat) : Byte := ⟨n % 256, Nat.mod_lt _ (by decide)⟩

/-- Value of a byte read through an `int8 *`. -/
def toInt8 (b : Byte) : Int := if b.val < 128 then (b.val : Int) else (b.val : Int) - 256

/-- Conversion of an `int` value to `int16` (two's complement wrap). -/
def toInt16 (n : Int) : Int := (n + 32768) % 65536 - 32768

/-- Result of 32-bit signed arithmetic (two's complement wrap). -/
def toInt32 (n : Int) : Int := (n + 2147483648) % 4294967296 - 2147483648

/-- Result of 32-bit unsigned arithmetic. -/
def toUInt32 (n : Nat) : Nat := n % 4294967296

/-- Byte-addressed memory, addresses relative to a base pointer. -/
abbrev Mem := Int → Byte

/-- One byte store: address (relative to the destination's `data`) and value. -/
abbrev Write := Int × Byte

/-- Memory after replaying a list of stores in order. -/
def applyWrites (m : Mem) : List Write → Mem
  | [] => m
  | w :: ws => applyWrites (fun i => if i = w.1 then w.2 else m i) ws

/-- Stores made by `memcpy(dst, src, n)` where `bytes` are the `n` source bytes. -/
def memcpy (dst : Int) : List Byte → List Write
  | [] => []
  | b :: bs => (dst, b) :: memcpy (dst + 1) bs

/-- Stores made by `memset(dst, v, n)`. -/
def memset (dst : Int) (v : Byte) (n : Nat) : List Write :=
  memcpy dst (List.replicate n v)

/-- The types `Extent16` / `Point16`: a pair of `int16` coordinates. -/
structure Extent16 where
  x : Int
  y : Int

/-- The type `gPixelMap`: dimensions and pixel storage.  The declaration lives in
`saga2/gdraw.h`; only the two members the blitters use are kept. -/
structure gPixelMap where
  size : Extent16
  data : Mem

/-- How a decoding loop ended. -/
inductive Status where
  | done
  | srcOverrun
  | outOfFuel
  deriving DecidableEq, Repr

/-- Outcome of a decoder: the stores performed, the final destination pointer,
the unread remainder of the source stream, and how the loop ended. -/
structure Decoded where
  writes : List Write
  dest : Int
  rest : List Byte
  status : Status

/-! ## `unpackSprite` -/

/-- The `while (true)` loop of `unpackSprite`.  `dst` and `bytes` are the C
variables of the same names, the list is the stream from `sprData` on.  Every
iteration reads at least one byte, so a fuel of `length + 1` is never spent. -/
def unpackSpriteLoop : Nat → Int → Int → List Byte → Decoded
  | 0, dst, _, s => ⟨[], dst, s, .outOfFuel⟩
  | fuel + 1, dst, bytes, s =>
    match s with
    | [] => ⟨[], dst, [], .srcOverrun⟩
    | trans_ :: s1 =>
      let w1 := memset dst 0 trans_.val
      let dst := dst + trans_.val
      let bytes := bytes - trans_.val
      if bytes < 0 then ⟨w1, dst, s1, .done⟩
      else
        match s1 with
        | [] => ⟨w1, dst, [], .srcOverrun⟩
        | fill :: s2 =>
          if s2.length < fill.val then
            ⟨w1 ++ memcpy dst s2, dst + s2.length, [], .srcOverrun⟩
          else
            let r := unpackSpriteLoop fuel (dst + fill.val) (bytes - fill.val) (s2.drop fill.val)
            ⟨w1 ++ memcpy dst (s2.take fill.val) ++ r.writes, r.dest, r.rest, r.status⟩

/-- The function `void unpackSprite(gPixelMap *map, uint8 *sprData)`. -/
def unpackSprite (map : gPixelMap) (sprData : List Byte) : Decoded :=
  unpackSpriteLoop (sprData.length + 1) 0 (map.size.x * map.size.y) sprData

/-! ## `unpackImage` -/

/-- The loop `for (int16 k = 0; k < bytecount;)` of `unpackImage`, decoding one
row.  `k` and `dest` are the C variables, the list is the stream from `srcData`
on.  Every iteration reads at least one byte, so a fuel of `length + 1` is
never spent. -/
def unpackImageRow (bytecount : Int) : Nat → Int → Int → List Byte → Decoded
  | 0, _, dest, s => ⟨[], dest, s, .outOfFuel⟩
  | fuel + 1, k, dest, s =>
    if k < bytecount then
      match s with
      | [] => ⟨[], dest, [], .srcOverrun⟩
      | c :: s1 =>
        let p := toInt8 c
        if p = -128 then unpackImageRow bytecount fuel k dest s1
        else if p ≥ 0 then
          let p := p + 1
          let k := toInt16 (k + p)
          if s1.length < p.toNat then
            ⟨memcpy dest s1, dest + s1.length, [], .srcOverrun⟩
          else
            let r := unpackImageRow bytecount fuel k (dest + p) (s1.drop p.toNat)
            ⟨memcpy dest (s1.take p.toNat) ++ r.writes, r.dest, r.rest, r.status⟩
        else
          let p := 1 - p
          let k := toInt16 (k + p)
          match s1 with
          | [] => ⟨[], dest, [], .srcOverrun⟩
          | v :: s2 =>
            let r := unpackImageRow bytecount fuel k (dest + p) s2
            ⟨memset dest v p.toNat ++ r.writes, r.dest, r.rest, r.status⟩
    else ⟨[], dest, s, .done⟩

/-- The loop `while (rowCount--)` of `unpackImage`; the first argument is the
number of iterations still to run. -/
def unpackImageRows (bytecount rowMod : Int) : Nat → Int → List Byte → Decoded
  | 0, dest, s => ⟨[], dest, s, .done⟩
  | n + 1, dest, s =>
    let r := unpackImageRow bytecount (s.length + 1) 0 dest s
    match r.status with
    | .done =>
      let s1 := if bytecount % 2 = 1 then r.rest.drop 1 else r.rest
      let r2 := unpackImageRows bytecount rowMod n (r.dest + rowMod) s1
      ⟨r.writes ++ r2.writes, r2.dest, r2.rest, r2.status⟩
    | _ => r

/-- The function `void unpackImage(gPixelMap &map, int16 width, int16 rowCount, int8 *srcData)`.
`bytecount` is `(width + 1) & ~1` stored in an `int16`; `while (rowCount--)` on
an `int16` runs `rowCount mod 2^16` times. -/
def unpackImage (map : gPixelMap) (width rowCount : Int) (srcData : List Byte) : Decoded :=
  let bytecount := toInt16 ((width + 1) - (width + 1) % 2)
  let rowMod := toInt16 (map.size.x - bytecount)
  unpackImageRows bytecount rowMod (rowCount % 65536).toNat 0 srcData

/-! ## `_BltPixelsT` -/

/-- The inner loop `for (uint x = 0; x < width; x++)` of `_BltPixelsT`; the
first argument is the number of iterations still to run. -/
def bltPixelsTRow (srcMem : Mem) : Nat → Int → Int → List Write
  | 0, _, _ => []
  | n + 1, src, dst =>
    let c := srcMem src
    (if c = 0 then [] else [(dst, c)]) ++ bltPixelsTRow srcMem n (src + 1) (dst + 1)

/-- The outer loop `for (uint y = 0; y < height; y++)` of `_BltPixelsT`; the
first numeric argument is the number of iterations still to run, `y` the loop
variable. -/
def bltPixelsTRows (srcMem : Mem) (srcMod dstMod width : Nat) : Nat → Nat → List Write
  | 0, _ => []
  | n + 1, y =>
    bltPixelsTRow srcMem width (toUInt32 (srcMod * y)) (toUInt32 (dstMod * y))
      ++ bltPixelsTRows srcMem srcMod dstMod width n (y + 1)

/-- The function `void _BltPixelsT(uint8 *srcPtr, uint32 srcMod, uint8 *dstPtr, uint32 dstMod,
uint32 width, uint32 height)`.  `srcMem` is the memory at `srcPtr`; the stores
are addressed relative to `dstPtr`. -/
def _BltPixelsT (srcMem : Mem) (srcMod dstMod width height : Nat) : List Write :=
  bltPixelsTRows srcMem srcMod dstMod width height 0

/-! ## `compositePixels` -/

/-- The inner loop `for (int16 x = 0; x < sprMap->size.x; x++)` of
`compositePixels`; the first numeric argument is the number of iterations still
to run. -/
def compositePixelsRow (sprData : Mem) (lookup : Byte → Byte) : Nat → Int → Int → List Write
  | 0, _, _ => []
  | n + 1, srcPtr, dstPtr =>
    let c := sprData srcPtr
    (if c = 0 then [] else [(dstPtr, lookup c)])
      ++ compositePixelsRow sprData lookup n (srcPtr + 1) (dstPtr + 1)

/-- The outer loop `for (int16 y = 0; y < sprMap->size.y; y++)` of
`compositePixels`; the first numeric argument is the number of iterations still
to run. -/
def compositePixelsRows (sprMap : gPixelMap) (lookup : Byte → Byte) (rowMod : Int) :
    Nat → Int → Int → List Write
  | 0, _, _ => []
  | n + 1, srcPtr, dstPtr =>
    compositePixelsRow sprMap.data lookup sprMap.size.x.toNat srcPtr dstPtr
      ++ compositePixelsRows sprMap lookup rowMod n
          (srcPtr + sprMap.size.x.toNat) (dstPtr + sprMap.size.x.toNat + rowMod)

/-- The function `void compositePixels(gPixelMap *compMap, gPixelMap *sprMap, int xpos, int ypos,
byte *lookup)`.  The `int` offset `xpos + ypos * compMap->size.x` is taken exactly
(signed overflow is undefined in the source and does not occur for 16-bit sizes
and placements). -/
def compositePixels (compMap sprMap : gPixelMap) (xpos ypos : Int) (lookup : Byte → Byte) :
    List Write :=
  let rowMod := toInt16 (compMap.size.x - sprMap.size.x)
  compositePixelsRows sprMap lookup rowMod sprMap.size.y.toNat 0
    (xpos + ypos * compMap.size.x)

/-! ## `drawTile` -/

/-- The value of `SAGA_ISOTILE_WIDTH`, the local constant of `drawTile`. -/
def SAGA_ISOTILE_WIDTH : Int := 64

/-- The dirty rectangle computed at the end of `drawTile`. -/
structure Rect where
  rectX : Int
  rectY : Int
  rectX2 : Int
  rectY2 : Int
  deriving DecidableEq, Repr

/-- Outcome of `drawTile`: stores, unread stream, how the walk ended, and the
dirty rectangle (`none` when the function returned before computing it). -/
structure TileResult where
  writes : List Write
  rest : List Byte
  status : Status
  rect : Option Rect

/-- Left clamp of a foreground run in `drawTile`: the value of `count` after
`colDiff = -col; if (colDiff > 0) { if (colDiff > fgRunCount) colDiff = fgRunCount;
count = colDiff; col += colDiff; }`. -/
def tileCount (col fgRunCount : Int) : Int :=
  let colDiff := -col
  if colDiff > 0 then (if colDiff > fgRunCount then fgRunCount else colDiff) else 0

/-- Left clamp of a foreground run in `drawTile`: the value of `col` after the
same statement. -/
def tileColLeft (col fgRunCount : Int) : Int :=
  let colDiff := -col
  if colDiff > 0 then col + (if colDiff > fgRunCount then fgRunCount else colDiff) else col

/-- Right clamp of a foreground run in `drawTile`: the number of bytes the
`memset` / `memcpy` stores, that is the final `colDiff` when both tests
`colDiff > 0` pass, and 0 when the store is skipped.  `col` and `count` are the
values after the left clamp. -/
def tileSpan (sizeX col fgRunCount count : Int) : Int :=
  let colDiff := sizeX - col
  if colDiff > 0 then
    let countDiff := fgRunCount - count
    let colDiff := if colDiff > countDiff then countDiff else colDiff
    if colDiff > 0 then colDiff else 0
  else 0

/-- The `for (;;)` loop of `drawTile` for a row with `row >= 0`.  `widthCount`,
`col` and `drawPointer` are the C variables, the list is the stream from
`readPointer` on, `sizeX` is `map->size.x`.  After a foreground run `col` is
`colL + n` (both `col += colDiff` statements), `drawPointer` and `readPointer`
advance by the whole run.  With `mask` the store reads no source byte; without
it the `memcpy` reads `n` bytes from `readPointer + count`.  Every iteration
reads at least one byte, so a fuel of `length + 1` is never spent. -/
def drawTileRun (sizeX : Int) (mask : Bool) : Nat → Int → Int → Int → List Byte → Decoded
  | 0, _, _, drawPointer, s => ⟨[], drawPointer, s, .outOfFuel⟩
  | fuel + 1, widthCount, col, drawPointer, s =>
    match s with
    | [] => ⟨[], drawPointer, [], .srcOverrun⟩
    | bgRunCount :: s1 =>
      if widthCount + bgRunCount.val ≥ SAGA_ISOTILE_WIDTH then ⟨[], drawPointer, s1, .done⟩
      else
        match s1 with
        | [] => ⟨[], drawPointer + bgRunCount.val, [], .srcOverrun⟩
        | fgRunCount :: s2 =>
          let count := tileCount (col + bgRunCount.val) fgRunCount.val
          let colL := tileColLeft (col + bgRunCount.val) fgRunCount.val
          let n := tileSpan sizeX colL fgRunCount.val count
          let dst := drawPointer + bgRunCount.val + count
          if mask then
            let r := drawTileRun sizeX mask fuel (widthCount + bgRunCount.val + fgRunCount.val)
              (colL + n) (drawPointer + bgRunCount.val + fgRunCount.val) (s2.drop fgRunCount.val)
            ⟨memset dst 0 n.toNat ++ r.writes, r.dest, r.rest, r.status⟩
          else if (s2.drop count.toNat).length < n.toNat then
            ⟨memcpy dst (s2.drop count.toNat), drawPointer + bgRunCount.val, [], .srcOverrun⟩
          else
            let r := drawTileRun sizeX mask fuel (widthCount + bgRunCount.val + fgRunCount.val)
              (colL + n) (drawPointer + bgRunCount.val + fgRunCount.val) (s2.drop fgRunCount.val)
            ⟨memcpy dst ((s2.drop count.toNat).take n.toNat) ++ r.writes, r.dest, r.rest,
              r.status⟩

/-- The `for (;;)` loop of `drawTile` for a row with `row < 0`: the encoding is
walked, nothing is stored. -/
def drawTileSkip : Nat → Int → List Byte → Decoded
  | 0, _, s => ⟨[], 0, s, .outOfFuel⟩
  | fuel + 1, widthCount, s =>
    match s with
    | [] => ⟨[], 0, [], .srcOverrun⟩
    | bgRunCount :: s1 =>
      if widthCount + bgRunCount.val ≥ SAGA_ISOTILE_WIDTH then ⟨[], 0, s1, .done⟩
      else
        match s1 with
        | [] => ⟨[], 0, [], .srcOverrun⟩
        | fgRunCount :: s2 =>
          drawTileSkip fuel (widthCount + bgRunCount.val + fgRunCount.val)
            (s2.drop fgRunCount.val)

/-- One iteration of `for (row = drawPoint.y; row < lowBound; row++)`. -/
def drawTileRow (map : gPixelMap) (drawPointX : Int) (mask : Bool) (row : Int)
    (s : List Byte) : Decoded :=
  if row ≥ 0 then
    drawTileRun map.size.x mask (s.length + 1) 0 drawPointX (drawPointX + row * map.size.x) s
  else drawTileSkip (s.length + 1) 0 s

/-- The loop `for (row = drawPoint.y; row < lowBound; row++)` of `drawTile`; the
first numeric argument is the number of iterations still to run. -/
def drawTileRows (map : gPixelMap) (drawPointX : Int) (mask : Bool) :
    Nat → Int → List Byte → Decoded
  | 0, _, s => ⟨[], 0, s, .done⟩
  | n + 1, row, s =>
    let r := drawTileRow map drawPointX mask row s
    match r.status with
    | .done =>
      let r2 := drawTileRows map drawPointX mask n (row + 1) r.rest
      ⟨r.writes ++ r2.writes, r2.dest, r2.rest, r2.status⟩
    | _ => r

/-- The function `void drawTile(gPixelMap *map, int32 x, int32 y, int32 height, uint8 *srcData,
bool mask)`.  `Point16 point(x, y)` narrows the anchor to 16 bits; `drawPoint` is
a `Point32`. -/
def drawTile (map : gPixelMap) (x y height : Int) (srcData : List Byte) (mask : Bool) :
    TileResult :=
  let pointX := toInt16 x
  let pointY := toInt16 y
  if pointX + SAGA_ISOTILE_WIDTH < 0 then ⟨[], srcData, .done, none⟩
  else if pointX - SAGA_ISOTILE_WIDTH ≥ map.size.x then ⟨[], srcData, .done, none⟩
  else
    let drawPointY := toInt32 (pointY - height)
    if drawPointY ≥ map.size.y then ⟨[], srcData, .done, none⟩
    else
      let lowBound := min (toInt32 (drawPointY + height)) map.size.y
      let r := drawTileRows map pointX mask (lowBound - drawPointY).toNat drawPointY srcData
      ⟨r.writes, r.rest, r.status,
        some ⟨max pointX 0, max drawPointY 0, min (pointX + SAGA_ISOTILE_WIDTH) map.size.x,
          lowBound⟩⟩

/-! ## Format B streams (specification side) -/

/-- One Format-B pair: the transparent run length and the literal bytes of the
opaque run that follows it. -/
structure SpritePair where
  transRun : Byte
  lits : List Byte
  deriving DecidableEq, Repr

/-- Bytes of one pair in the stream: transparent length, opaque length, then
the literal bytes. -/
def encodePair (p : SpritePair) : List Byte :=
  p.transRun :: Byte.ofNat p.lits.length :: p.lits

/-- Stream of a list of pairs. -/
def encodePairs : List SpritePair → List Byte
  | [] => []
  | p :: ps => encodePair p ++ encodePairs ps

/-- Pixels of one pair: `transRun` zero bytes, then the literal bytes. -/
def expandPair (p : SpritePair) : List Byte :=
  List.replicate p.transRun.val 0 ++ p.lits

/-- Pixels of a list of pairs, in order. -/
def expandPairs : List SpritePair → List Byte
  | [] => []
  | p :: ps => expandPair p ++ expandPairs ps

/-- The opaque run length of every pair fits its length byte. -/
def pairsValid (ps : List SpritePair) : Prop := ∀ p ∈ ps, p.lits.length ≤ 255

instance (ps : List SpritePair) : Decidable (pairsValid ps) := by
  unfold pairsValid; infer_instance

/-- The pairs that `unpackSprite` processes in full when `bytes` pixels remain:
after each transparent run the remaining count is still non-negative, so the
opaque run of the pair is read as well. -/
def pairsFit : Int → List SpritePair → Prop
  | _, [] => True
  | bytes, p :: ps =>
    (p.transRun.val : Int) ≤ bytes ∧
      pairsFit (bytes - p.transRun.val - p.lits.length) ps

instance pairsFit.decide : (bytes : Int) → (ps : List SpritePair) → Decidable (pairsFit bytes ps)
  | _, [] => isTrue trivial
  | bytes, p :: ps =>
    have := pairsFit.decide (bytes - p.transRun.val - p.lits.length) ps
    by unfold pairsFit; infer_instance

/-- Reference encoder for Format B: run-length encodes a flat pixel list,
working from the last pixel backwards; a zero pixel extends the transparent run
of the first pair (or opens a new pair when that run is full), any other pixel
extends the opaque run of a first pair that has no transparent run (or opens a
new pair). -/
def packSprite : List Byte → List SpritePair
  | [] => []
  | b :: rest =>
    match packSprite rest with
    | [] => if b = 0 then [⟨1, []⟩] else [⟨0, [b]⟩]
    | p :: ps =>
      if b = 0 then
        (if p.transRun.val < 255 then ⟨p.transRun + 1, p.lits⟩ :: ps else ⟨1, []⟩ :: p :: ps)
      else
        (if p.transRun = 0 ∧ p.lits.length < 255 then ⟨0, b :: p.lits⟩ :: ps
          else ⟨0, [b]⟩ :: p :: ps)

/-! ## Format A streams (specification side) -/

/-- One Format-A control group: `lit bs` is a control byte `p = bs.length - 1`
followed by the literal bytes `bs`; `rep v n` is a control byte `p = 1 - n`
followed by the byte `v` to repeat `n` times; `nop` is the control byte -128. -/
inductive CtlGroup where
  | lit (bs : List Byte)
  | rep (v : Byte) (n : Nat)
  | nop
  deriving DecidableEq, Repr

/-- The control byte of the group is in range: `p` in 0..127 for a literal
group, `p` in -127..-1 for a repeat group. -/
def CtlGroup.valid : CtlGroup → Prop
  | .lit bs => 1 ≤ bs.length ∧ bs.length ≤ 128
  | .rep _ n => 2 ≤ n ∧ n ≤ 128
  | .nop => True

instance (g : CtlGroup) : Decidable g.valid := by
  cases g <;> unfold CtlGroup.valid <;> infer_instance

/-- Bytes of a group in the stream. -/
def CtlGroup.encode : CtlGroup → List Byte
  | .lit bs => Byte.ofNat (bs.length - 1) :: bs
  | .rep v n => [Byte.ofNat (257 - n), v]
  | .nop => [128]

/-- Bytes a group expands to. -/
def CtlGroup.expand : CtlGroup → List Byte
  | .lit bs => bs
  | .rep v n => List.replicate n v
  | .nop => []

/-- Stream of a sequence of groups. -/
def encodeGroups : List CtlGroup → List Byte
  | [] => []
  | g :: gs => g.encode ++ encodeGroups gs

/-- Concatenated expansion of a sequence of groups. -/
def expandGroups : List CtlGroup → List Byte
  | [] => []
  | g :: gs => g.expand ++ expandGroups gs

/-- Stream of a sequence of rows, each a sequence of groups. -/
def encodeRows : List (List CtlGroup) → List Byte
  | [] => []
  | gs :: gss => encodeGroups gs ++ encodeRows gss

/-- A well-formed row for byte budget `B`: valid groups whose expansions total
exactly `B` bytes. -/
def rowWellFormed (B : Int) (gs : List CtlGroup) : Prop :=
  (∀ g ∈ gs, g.valid) ∧ ((expandGroups gs).length : Int) = B

instance (B : Int) (gs : List CtlGroup) : Decidable (rowWellFormed B gs) := by
  unfold rowWellFormed; infer_instance

/-- The stores of consecutive rows: row `i` of `rows` copied to `dest + i * stride`. -/
def rowsWrites (stride : Int) : Int → List (List Byte) → List Write
  | _, [] => []
  | dest, e :: es => memcpy dest e ++ rowsWrites stride (dest + stride) es

/-- Reference encoder for one Format-A row, working from the last byte
backwards: a byte equal to the repeat group in front extends it (up to 128), a
byte equal to the first byte of the literal group in front forms a repeat group
of two with it, any other byte extends the literal group in front (up to 128)
or opens a new literal group. -/
def packRow : List Byte → List CtlGroup
  | [] => []
  | b :: rest =>
    match packRow rest with
    | .rep v n :: gs =>
      if v = b ∧ n < 128 then .rep v (n + 1) :: gs else .lit [b] :: .rep v n :: gs
    | .lit [c] :: gs =>
      if c = b then .rep b 2 :: gs else .lit [b, c] :: gs
    | .lit (c :: d :: cs) :: gs =>
      if c = b then .rep b 2 :: .lit (d :: cs) :: gs
      else if cs.length + 2 < 128 then .lit (b :: c :: d :: cs) :: gs
      else .lit [b] :: .lit (c :: d :: cs) :: gs
    | gs => .lit [b] :: gs

/-- A row padded to even length, as the reference encoder does before grouping. -/
def padRow (row : List Byte) : List Byte :=
  if row.length % 2 = 1 then row ++ [0] else row

/-! ## `compositePixelsRvs` -/

/-- Modelled from the spec: `gPixelMap::bytes()` is declared in `saga2/gdraw.h`,
which is not among the sources; the spec has a pixel map's storage hold
`width * height` bytes, so `bytes()` is `size.x * size.y`. -/
def gPixelMap.bytes (m : gPixelMap) : Int := m.size.x * m.size.y

/-- The inner loop `for (int16 x = 0; x < sprMap->size.x; x++)` of
`compositePixelsRvs`, reading `c = *--srcPtr`; the first numeric argument is
the number of iterations still to run. -/
def compositePixelsRvsRow (sprData : Mem) (lookup : Byte → Byte) : Nat → Int → Int → List Write
  | 0, _, _ => []
  | n + 1, srcPtr, dstPtr =>
    let c := sprData (srcPtr - 1)
    (if c = 0 then [] else [(dstPtr, lookup c)])
      ++ compositePixelsRvsRow sprData lookup n (srcPtr - 1) (dstPtr + 1)

/-- The outer loop `for (int16 y = 0; y < sprMap->size.y; y++)` of
`compositePixelsRvs`: `dstPtr -= rowMod`, then one row; the first numeric
argument is the number of iterations still to run. -/
def compositePixelsRvsRows (sprMap : gPixelMap) (lookup : Byte → Byte) (rowMod : Int) :
    Nat → Int → Int → List Write
  | 0, _, _ => []
  | n + 1, srcPtr, dstPtr =>
    compositePixelsRvsRow sprMap.data lookup sprMap.size.x.toNat srcPtr (dstPtr - rowMod)
      ++ compositePixelsRvsRows sprMap lookup rowMod n
          (srcPtr - sprMap.size.x.toNat) (dstPtr - rowMod + sprMap.size.x.toNat)

/-- The function `void compositePixelsRvs(gPixelMap *compMap, gPixelMap *sprMap, int xpos,
int ypos, byte *lookup)`.  As in `compositePixels` the `int` offset is taken
exactly. -/
def compositePixelsRvs (compMap sprMap : gPixelMap) (xpos ypos : Int) (lookup : Byte → Byte) :
    List Write :=
  let rowMod := toInt16 (compMap.size.x + sprMap.size.x)
  compositePixelsRvsRows sprMap lookup rowMod sprMap.size.y.toNat sprMap.bytes
    (xpos + (ypos + sprMap.size.y) * compMap.size.x)

/-- Vertical mirror of a sprite, the pre-flipped copy the spec assumes: row
order reversed, column order preserved. -/
def vflip (s : gPixelMap) : gPixelMap :=
  ⟨s.size, fun i => s.data ((s.size.y - 1 - i / s.size.x) * s.size.x + i % s.size.x)⟩

/-- Horizontal mirror of a sprite: column order reversed, row order preserved. -/
def hflip (s : gPixelMap) : gPixelMap :=
  ⟨s.size, fun i => s.data ((i / s.size.x) * s.size.x + (s.size.x - 1 - i % s.size.x))⟩

/-! ## `_FillRect` and `_BltPixels` -/

/-- The loop `for (uint y = 0; y < height; y++)` of `_FillRect`: one `memset`,
then `dstPtr += dstMod`; the first numeric argument is the number of iterations
still to run.  `memset` stores the low eight bits of `color`. -/
def fillRectRows (dstMod width color : Nat) : Nat → Int → List Write
  | 0, _ => []
  | n + 1, dstPtr =>
    memset dstPtr (Byte.ofNat color) width ++ fillRectRows dstMod width color n (dstPtr + dstMod)

/-- The function `void _FillRect(uint8 *dstPtr, uint32 dstMod, uint32 width, uint32 height,
uint32 color)`; the stores are addressed relative to `dstPtr`. -/
def _FillRect (dstMod width height color : Nat) : List Write :=
  fillRectRows dstMod width color height 0

/-- The inner loop `for (uint x = 0; x < width; x++)` of `_BltPixels`; the first
argument is the number of iterations still to run. -/
def bltPixelsRow (srcMem : Mem) : Nat → Int → Int → List Write
  | 0, _, _ => []
  | n + 1, src, dst => (dst, srcMem src) :: bltPixelsRow srcMem n (src + 1) (dst + 1)

/-- The outer loop `for (uint y = 0; y < height; y++)` of `_BltPixels`; the first
numeric argument is the number of iterations still to run, `y` the loop
variable. -/
def bltPixelsRows (srcMem : Mem) (srcMod dstMod width : Nat) : Nat → Nat → List Write
  | 0, _ => []
  | n + 1, y =>
    bltPixelsRow srcMem width (toUInt32 (srcMod * y)) (toUInt32 (dstMod * y))
      ++ bltPixelsRows srcMem srcMod dstMod width n (y + 1)

/-- The function `void _BltPixels(uint8 *srcPtr, uint32 srcMod, uint8 *dstPtr, uint32 dstMod,
uint32 width, uint32 height)`.  `srcMem` is the memory at `srcPtr`; the stores
are addressed relative to `dstPtr`. -/
def _BltPixels (srcMem : Mem) (srcMod dstMod width height : Nat) : List Write :=
  bltPixelsRows srcMem srcMod dstMod width height 0

/-! ## `maskTile` -/

/-- The function `void maskTile(gPixelMap *map, int32 x, int32 y, int32 height,
uint8 *srcData)`. -/
def maskTile (map : gPixelMap) (x y height : Int) (srcData : List Byte) : TileResult :=
  drawTile map x y height srcData true

/-! ## Format C rows (specification side) -/

/-- One encoded tile row: the foreground runs, each with the length of the
background run before it and its literal bytes, then the closing background
run length. -/
structure TileRow where
  runs : List (Byte × List Byte)
  last : Byte
  deriving DecidableEq, Repr

/-- Bytes of the runs of a row: background length, foreground length, literals. -/
def encodeTileRuns : List (Byte × List Byte) → List Byte
  | [] => []
  | r :: rs => r.1 :: Byte.ofNat r.2.length :: (r.2 ++ encodeTileRuns rs)

/-- Bytes of one encoded row. -/
def encodeTileRow (t : TileRow) : List Byte := encodeTileRuns t.runs ++ [t.last]

/-- Bytes of consecutive encoded rows. -/
def encodeTileRows : List TileRow → List Byte
  | [] => []
  | t :: ts => encodeTileRow t ++ encodeTileRows ts

/-- The runs form one row for a walk that has accumulated `widthCount`: before
each foreground run the accumulated width is still below 64, every foreground
length fits its byte, and the closing background run brings the accumulated
width to 64 or more. -/
def tileRunsWalk : Int → List (Byte × List Byte) → Byte → Prop
  | widthCount, [], last => widthCount + last.val ≥ SAGA_ISOTILE_WIDTH
  | widthCount, r :: rs, last =>
    widthCount + r.1.val < SAGA_ISOTILE_WIDTH ∧ r.2.length ≤ 255 ∧
      tileRunsWalk (widthCount + r.1.val + r.2.length) rs last

instance tileRunsWalk.decide :
    (widthCount : Int) → (rs : List (Byte × List Byte)) → (last : Byte) →
      Decidable (tileRunsWalk widthCount rs last)
  | _, [], _ => by unfold tileRunsWalk; infer_instance
  | widthCount, r :: rs, last =>
    have := tileRunsWalk.decide (widthCount + r.1.val + r.2.length) rs last
    by unfold tileRunsWalk; infer_instance

/-- A well-formed encoded tile row. -/
def TileRow.wellFormed (t : TileRow) : Prop := tileRunsWalk 0 t.runs t.last

instance (t : TileRow) : Decidable t.wellFormed := by
  unfold TileRow.wellFormed; infer_instance

/-! ## `TBlit` -/

/-- Accesses of a source-to-destination blit: the source addresses read
(relative to the source map's `data`) and the destination stores, each in
program order. -/
structure BlitTrace where
  reads : List Int
  writes : List Write

/-- The inner loop `for (int16 x = 0; x < w; x++)` of `TBlit`: `c = *srcPtr++`,
stored to `*dstPtr++` when non-zero; the first numeric argument is the number of
iterations still to run. -/
def tBlitRow (srcData : Mem) : Nat → Int → Int → BlitTrace
  | 0, _, _ => ⟨[], []⟩
  | n + 1, srcPtr, dstPtr =>
    let c := srcData srcPtr
    let r := tBlitRow srcData n (srcPtr + 1) (dstPtr + 1)
    ⟨srcPtr :: r.reads, (if c = 0 then [] else [(dstPtr, c)]) ++ r.writes⟩

/-- The outer loop `for (int16 y = 0; y < h; y++)` of `TBlit`: one row of `w`
pixels, then `dstPtr += dstMod; srcPtr += srcMod`; the first numeric argument
after the moduli is the number of iterations still to run. -/
def tBlitRows (srcData : Mem) (w : Nat) (srcMod dstMod : Int) : Nat → Int → Int → BlitTrace
  | 0, _, _ => ⟨[], []⟩
  | n + 1, srcPtr, dstPtr =>
    let r1 := tBlitRow srcData w srcPtr dstPtr
    let r2 := tBlitRows srcData w srcMod dstMod n (srcPtr + w + srcMod) (dstPtr + w + dstMod)
    ⟨r1.reads ++ r2.reads, r1.writes ++ r2.writes⟩

/-- The function `void TBlit(gPixelMap *dstMap, gPixelMap *srcMap, int xpos, int ypos)`.
The `int16` variables `w`, `h`, `dstMod`, `srcMod` are narrowed on every
assignment; the `int` and `int32` values (`offset`, `xpos`, `ypos`, the pointer
offsets) are taken exactly. -/
def TBlit (dstMap srcMap : gPixelMap) (xpos ypos : Int) : BlitTrace :=
  let w0 := srcMap.size.x
  let h0 := srcMap.size.y
  -- if (ypos < 0) { h += ypos; offset -= (ypos * w); ypos = 0; }
  let h1 := if ypos < 0 then toInt16 (h0 + ypos) else h0
  let offset1 := if ypos < 0 then 0 - ypos * w0 else 0
  let ypos1 := if ypos < 0 then 0 else ypos
  -- if (xpos < 0) { w += xpos; offset -= xpos; xpos = 0; }
  let w1 := if xpos < 0 then toInt16 (w0 + xpos) else w0
  let offset2 := if xpos < 0 then offset1 - xpos else offset1
  let xpos1 := if xpos < 0 then 0 else xpos
  let w2 := if w1 > dstMap.size.x - xpos1 then toInt16 (dstMap.size.x - xpos1) else w1
  let h2 := if h1 > dstMap.size.y - ypos1 then toInt16 (dstMap.size.y - ypos1) else h1
  if w2 < 0 ∨ h2 < 0 then ⟨[], []⟩
  else
    let dstMod := toInt16 (dstMap.size.x - w2)
    let srcMod := toInt16 (srcMap.size.x - w2)
    tBlitRows srcMap.data w2.toNat srcMod dstMod h2.toNat offset2
      (xpos1 + ypos1 * dstMap.size.x)

/-! ## Visible part of a tile (specification side) -/

/-- Stores of one foreground run that starts at column `s` of a destination row
of width `W` whose first byte is at `base`: the columns `c` with
`max s 0 <= c < min (s + n) W`, each set to literal byte number `c - s`, or to 0
when `mask` is set. -/
def runVisible (W base : Int) (mask : Bool) (s : Int) (lits : List Byte) : List Write :=
  let lo := max s 0
  let hi := min (s + lits.length) W
  if mask then memset (base + lo) 0 (hi - lo).toNat
  else memcpy (base + lo) ((lits.drop (lo - s).toNat).take (hi - lo).toNat)

/-- Stores of the runs of one row, the first background run starting at column
`pos`: every foreground run starts after all the run lengths before it and its
own background run. -/
def rowVisible (W base : Int) (mask : Bool) : Int → List (Byte × List Byte) → List Write
  | _, [] => []
  | pos, r :: rs =>
    runVisible W base mask (pos + r.1.val) r.2
      ++ rowVisible W base mask (pos + r.1.val + r.2.length) rs

/-- Stores of consecutive encoded rows, the first on destination row `row`; a
row above the destination (`row < 0`) stores nothing. -/
def tileVisible (W : Int) (mask : Bool) (x : Int) : Int → List TileRow → List Write
  | _, [] => []
  | row, t :: ts =>
    (if row ≥ 0 then rowVisible W (row * W) mask x t.runs else [])
      ++ tileVisible W mask x (row + 1) ts

/-- No foreground run of the row extends past tile offset 64, for a walk that
has accumulated `widthCount`. -/
def tileRunsFit : Int → List (Byte × List Byte) → Prop
  | _, [] => True
  | widthCount, r :: rs =>
    widthCount + r.1.val + r.2.length ≤ SAGA_ISOTILE_WIDTH ∧
      tileRunsFit (widthCount + r.1.val + r.2.length) rs

instance tileRunsFit.decide :
    (widthCount : Int) → (rs : List (Byte × List Byte)) → Decidable (tileRunsFit widthCount rs)
  | _, [] => isTrue trivial
  | widthCount, r :: rs =>
    have := tileRunsFit.decide (widthCount + r.1.val + r.2.length) rs
    by unfold tileRunsFit; infer_instance

/-- Two encoded rows with the same run-length bytes: the same closing
background run and, run by run, the same background length and the same number
of literal bytes. -/
def sameRuns (t1 t2 : TileRow) : Prop :=
  t1.last = t2.last ∧
    List.Forall₂ (fun r1 r2 : Byte × List Byte => r1.1 = r2.1 ∧ r1.2.length = r2.2.length)
      t1.runs t2.runs


/-- Tile offset at which foreground run number `j` of a row starts: the sum of
all background and foreground run lengths before it, plus its own background
run. -/
def runStart : List (Byte × List Byte) → Nat → Int
  | [], _ => 0
  | r :: _, 0 => r.1.val
  | r :: rs, j + 1 => r.1.val + r.2.length + runStart rs j

/-! ## Stores and memory -/

theorem mem_memcpy {d : Int} {bs : List Byte} {w : Write} (h : w ∈ memcpy d bs) :
    d ≤ w.1 ∧ w.1 < d + bs.length := by
  induction bs generalizing d with
  | nil => simp [memcpy] at h
  | cons b bs ih =>
    simp only [memcpy, List.mem_cons] at h
    rcases h with h | h
    · subst h; simp only [List.length_cons]; push_cast; omega
    · have := ih h; simp only [List.length_cons]; push_cast; omega

theorem mem_memset {d : Int} {v : Byte} {n : Nat} {w : Write} (h : w ∈ memset d v n) :
    d ≤ w.1 ∧ w.1 < d + n := by
  have := mem_memcpy h
  simpa using this

theorem applyWrites_append (m : Mem) (ws1 ws2 : List Write) :
    applyWrites m (ws1 ++ ws2) = applyWrites (applyWrites m ws1) ws2 := by
  induction ws1 generalizing m with
  | nil => rfl
  | cons w ws ih => rw [List.cons_append]; simp only [applyWrites]; exact ih _

theorem applyWrites_of_not_mem (m : Mem) (ws : List Write) (a : Int)
    (h : ∀ w ∈ ws, w.1 ≠ a) : applyWrites m ws a = m a := by
  induction ws generalizing m with
  | nil => rfl
  | cons w ws ih =>
    simp only [applyWrites]
    rw [ih _ (fun w1 hw1 => h w1 (List.mem_cons_of_mem _ hw1))]
    have := h w (List.mem_cons_self _ _)
    simp [Ne.symm this]

theorem tile_clamp_bounds (sizeX base col dp fg : Int) (hfg : 0 ≤ fg)
    (hinv : sizeX ≤ col ∨ dp = base + col) :
    (0 < tileSpan sizeX (tileColLeft col fg) fg (tileCount col fg) →
      base ≤ dp + tileCount col fg ∧
      dp + tileCount col fg + tileSpan sizeX (tileColLeft col fg) fg (tileCount col fg)
        ≤ base + sizeX) ∧
    0 ≤ tileSpan sizeX (tileColLeft col fg) fg (tileCount col fg) ∧
    (sizeX ≤ tileColLeft col fg + tileSpan sizeX (tileColLeft col fg) fg (tileCount col fg) ∨
      dp + fg = base + (tileColLeft col fg
        + tileSpan sizeX (tileColLeft col fg) fg (tileCount col fg))) := by
  simp only [tileSpan, tileColLeft, tileCount]
  split_ifs <;> omega

theorem drawTileRun_writes (sizeX : Int) (mask : Bool) (base : Int) :
    ∀ (fuel : Nat) (widthCount col drawPointer : Int) (s : List Byte),
      (sizeX ≤ col ∨ drawPointer = base + col) →
      ∀ w ∈ (drawTileRun sizeX mask fuel widthCount col drawPointer s).writes,
        base ≤ w.1 ∧ w.1 < base + sizeX := by
  intro fuel
  induction fuel with
  | zero => intro _ _ _ _ _ w hw; simp [drawTileRun] at hw
  | succ fuel ih =>
    intro widthCount col drawPointer s hinv w hw
    unfold drawTileRun at hw
    split at hw
    · simp at hw
    · rename_i bg s1
      split at hw
      · simp at hw
      · split at hw
        · simp at hw
        · rename_i fgb s2
          have hb := tile_clamp_bounds sizeX base (col + bg.val) (drawPointer + bg.val) fgb.val
            (by omega) (by omega)
          obtain ⟨hb1, hb2, hb3⟩ := hb
          simp only at hw
          have hrec : ∀ w ∈ (drawTileRun sizeX mask fuel (widthCount + bg.val + fgb.val)
              (tileColLeft (col + bg.val) fgb.val
                + tileSpan sizeX (tileColLeft (col + bg.val) fgb.val) fgb.val
                    (tileCount (col + bg.val) fgb.val))
              (drawPointer + bg.val + fgb.val) (s2.drop fgb.val)).writes,
              base ≤ w.1 ∧ w.1 < base + sizeX := ih _ _ _ _ hb3
          split at hw
          · simp only [List.mem_append] at hw
            rcases hw with hw | hw
            · have := mem_memset hw
              omega
            · exact hrec w hw
          · split at hw
            · have := mem_memcpy hw
              simp only [List.length_drop] at *
              omega
            · simp only [List.mem_append] at hw
              rcases hw with hw | hw
              · have := mem_memcpy hw
                simp only [List.length_take, List.length_drop] at *
                omega
              · exact hrec w hw

theorem drawTileSkip_writes :
    ∀ (fuel : Nat) (widthCount : Int) (s : List Byte),
      (drawTileSkip fuel widthCount s).writes = [] := by
  intro fuel
  induction fuel with
  | zero => intro _ _; rfl
  | succ fuel ih =>
    intro widthCount s
    unfold drawTileSkip
    split
    · rfl
    · split
      · rfl
      · split
        · rfl
        · exact ih _ _

theorem drawTileRow_writes (map : gPixelMap) (drawPointX : Int) (mask : Bool) (row : Int)
    (s : List Byte) :
    ∀ w ∈ (drawTileRow map drawPointX mask row s).writes,
      0 ≤ row ∧ row * map.size.x ≤ w.1 ∧ w.1 < row * map.size.x + map.size.x := by
  intro w hw
  unfold drawTileRow at hw
  split at hw
  · rename_i hrow
    have := drawTileRun_writes map.size.x mask (row * map.size.x) _ _ _ _ s
      (Or.inr (by omega)) w hw
    omega
  · rw [drawTileSkip_writes] at hw
    simp at hw

theorem drawTileRows_writes (map : gPixelMap) (drawPointX : Int) (mask : Bool) :
    ∀ (n : Nat) (row : Int) (s : List Byte),
      ∀ w ∈ (drawTileRows map drawPointX mask n row s).writes,
        ∃ r : Int, 0 ≤ r ∧ row ≤ r ∧ r < row + n ∧
          r * map.size.x ≤ w.1 ∧ w.1 < r * map.size.x + map.size.x := by
  intro n
  induction n with
  | zero => intro _ _ w hw; simp [drawTileRows] at hw
  | succ n ih =>
    intro row s w hw
    unfold drawTileRows at hw
    simp only at hw
    split at hw
    · simp only [List.mem_append] at hw
      rcases hw with hw | hw
      · have := drawTileRow_writes map drawPointX mask row s w hw
        exact ⟨row, by omega, by omega, by push_cast; omega, this.2.1, this.2.2⟩
      · obtain ⟨r, h0, h1, h2, h3⟩ := ih _ _ w hw
        exact ⟨r, h0, by omega, by push_cast; omega, h3⟩
    · have := drawTileRow_writes map drawPointX mask row s w hw
      exact ⟨row, by omega, by omega, by push_cast; omega, this.2.1, this.2.2⟩

/-! ## C1: `drawTile` stores only inside the destination -/

/-- C1. Every byte `drawTile` stores lies at a row `r` and column `c` of the
destination with `0 <= r < H` and `0 <= c < W`, for every anchor, height, mask
flag and tile stream; the stores of the walk of destination row `row` all lie in
that row, columns `[0, W)`, so no pixel at a column `>= W` is written; and every
byte at an address that is not stored to keeps its prior value. -/
theorem drawTile_writes_in_bounds (map : gPixelMap) (x y height : Int) (srcData : List Byte)
    (mask : Bool) :
    (∀ w ∈ (drawTile map x y height srcData mask).writes,
      ∃ r c : Int, 0 ≤ r ∧ r < map.size.y ∧ 0 ≤ c ∧ c < map.size.x ∧
        w.1 = r * map.size.x + c) ∧
    (∀ (row : Int) (s : List Byte), ∀ w ∈ (drawTileRow map (toInt16 x) mask row s).writes,
      ∃ c : Int, 0 ≤ row ∧ 0 ≤ c ∧ c < map.size.x ∧ w.1 = row * map.size.x + c) ∧
    (∀ a : Int, (∀ w ∈ (drawTile map x y height srcData mask).writes, w.1 ≠ a) →
      applyWrites map.data (drawTile map x y height srcData mask).writes a = map.data a) := by
  refine ⟨?_, ?_, ?_⟩
  · intro w hw
    unfold drawTile at hw
    simp only at hw
    split at hw
    · simp at hw
    · split at hw
      · simp at hw
      · split at hw
        · simp at hw
        · simp only at hw
          obtain ⟨r, h0, h1, h2, h3, h4⟩ := drawTileRows_writes map _ mask _ _ _ w hw
          refine ⟨r, w.1 - r * map.size.x, h0, ?_, by omega, by omega, by omega⟩
          have : min (toInt32 (toInt32 (toInt16 y - height) + height)) map.size.y
              ≤ map.size.y := min_le_right _ _
          omega
  · intro row s w hw
    have := drawTileRow_writes map (toInt16 x) mask row s w hw
    exact ⟨w.1 - row * map.size.x, by omega, by omega, by omega, by omega⟩
  · intro a h
    exact applyWrites_of_not_mem _ _ _ h

theorem memcpy_append (d : Int) (as bs : List Byte) :
    memcpy d (as ++ bs) = memcpy d as ++ memcpy (d + as.length) bs := by
  induction as generalizing d with
  | nil => simp [memcpy]
  | cons a as ih =>
    have e : d + 1 + (as.length : Int) = d + ((as.length + 1 : Nat) : Int) := by
      push_cast; ring
    rw [List.cons_append]
    simp only [memcpy, List.length_cons]
    rw [ih, e, List.cons_append]

theorem applyWrites_memcpy (m : Mem) (d : Int) (bs : List Byte) (j : Nat) (v : Byte)
    (h : bs[j]? = some v) : applyWrites m (memcpy d bs) (d + j) = v := by
  induction bs generalizing d m j with
  | nil => simp at h
  | cons b bs ih =>
    simp only [memcpy, applyWrites]
    cases j with
    | zero =>
      simp only [List.getElem?_cons_zero, Option.some.injEq] at h
      rw [applyWrites_of_not_mem]
      · simp [h]
      · intro w hw; have := mem_memcpy hw; push_cast; omega
    | succ j =>
      simp only [List.getElem?_cons_succ] at h
      have := ih (fun i => if i = d then b else m i) (d + 1) j h
      rw [← this]; congr 1; push_cast; ring

theorem Byte.ofNat_val {n : Nat} (h : n ≤ 255) : (Byte.ofNat n).val = n := by
  simp only [Byte.ofNat]; omega

/-! ## `unpackSprite` -/

theorem unpackSpriteLoop_bounds :
    ∀ (fuel : Nat) (dst bytes : Int) (s : List Byte),
      ∀ w ∈ (unpackSpriteLoop fuel dst bytes s).writes,
        dst ≤ w.1 ∧ w.1 < (if 0 ≤ bytes then dst + bytes + 510 else dst + 255) := by
  intro fuel
  induction fuel with
  | zero => intro _ _ _ w hw; simp [unpackSpriteLoop] at hw
  | succ fuel ih =>
    intro dst bytes s w hw
    unfold unpackSpriteLoop at hw
    split at hw
    · simp at hw
    · rename_i t s1
      have ht := t.isLt
      simp only at hw
      split at hw
      · have := mem_memset hw
        split <;> omega
      · rename_i hb
        rw [if_pos (by omega)]
        split at hw
        · have := mem_memset hw
          omega
        · rename_i f s2
          have hf := f.isLt
          split at hw
          · rename_i hlen
            simp only [List.mem_append] at hw
            rcases hw with hw | hw
            · have := mem_memset hw; omega
            · have := mem_memcpy hw; omega
          · simp only [List.mem_append] at hw
            rcases hw with (hw | hw) | hw
            · have := mem_memset hw; omega
            · have := mem_memcpy hw
              simp only [List.length_take] at this
              omega
            · have := ih _ _ _ w hw
              split at this <;> omega

theorem unpackSpriteLoop_pair_step (fuel : Nat) (dst bytes : Int) (p : SpritePair)
    (rest : List Byte) (hp : p.lits.length ≤ 255) (ht : (p.transRun.val : Int) ≤ bytes) :
    unpackSpriteLoop (fuel + 1) dst bytes (encodePair p ++ rest) =
      ⟨memcpy dst (expandPair p)
          ++ (unpackSpriteLoop fuel (dst + (expandPair p).length)
                (bytes - (expandPair p).length) rest).writes,
        (unpackSpriteLoop fuel (dst + (expandPair p).length)
                (bytes - (expandPair p).length) rest).dest,
        (unpackSpriteLoop fuel (dst + (expandPair p).length)
                (bytes - (expandPair p).length) rest).rest,
        (unpackSpriteLoop fuel (dst + (expandPair p).length)
                (bytes - (expandPair p).length) rest).status⟩ := by
  have e1 : dst + (p.transRun.val : Int) + (p.lits.length : Int)
      = dst + ((expandPair p).length : Int) := by
    simp only [expandPair, List.length_append, List.length_replicate]; push_cast; ring
  have e2 : bytes - (p.transRun.val : Int) - (p.lits.length : Int)
      = bytes - ((expandPair p).length : Int) := by
    simp only [expandPair, List.length_append, List.length_replicate]; push_cast; ring
  simp only [encodePair, List.cons_append, unpackSpriteLoop, Byte.ofNat_val hp,
    List.length_append]
  rw [if_neg (by omega), if_neg (by omega), List.take_left, List.drop_left, e1, e2]
  simp only [expandPair, memcpy_append, memset, List.length_replicate, List.append_assoc]

theorem unpackSpriteLoop_pairs :
    ∀ (ps : List SpritePair) (fuel : Nat) (dst bytes : Int) (tail : List Byte),
      pairsValid ps → pairsFit bytes ps →
      unpackSpriteLoop (fuel + ps.length) dst bytes (encodePairs ps ++ tail) =
        ⟨memcpy dst (expandPairs ps)
            ++ (unpackSpriteLoop fuel (dst + (expandPairs ps).length)
                  (bytes - (expandPairs ps).length) tail).writes,
          (unpackSpriteLoop fuel (dst + (expandPairs ps).length)
                  (bytes - (expandPairs ps).length) tail).dest,
          (unpackSpriteLoop fuel (dst + (expandPairs ps).length)
                  (bytes - (expandPairs ps).length) tail).rest,
          (unpackSpriteLoop fuel (dst + (expandPairs ps).length)
                  (bytes - (expandPairs ps).length) tail).status⟩ := by
  intro ps
  induction ps with
  | nil => intro fuel dst bytes tail _ _; simp [encodePairs, expandPairs, memcpy]
  | cons p ps ih =>
    intro fuel dst bytes tail hv hfit
    have hp : p.lits.length ≤ 255 := hv p (List.mem_cons_self _ _)
    have hv2 : pairsValid ps := fun q hq => hv q (List.mem_cons_of_mem _ hq)
    obtain ⟨hfit1, hfit2⟩ := hfit
    have e3 : bytes - (p.transRun.val : Int) - (p.lits.length : Int)
        = bytes - ((expandPair p).length : Int) := by
      simp only [expandPair, List.length_append, List.length_replicate]; push_cast; ring
    rw [e3] at hfit2
    have hstep := ih fuel (dst + (expandPair p).length) (bytes - (expandPair p).length)
      tail hv2 hfit2
    have e1 : dst + ((expandPair p).length : Int) + ((expandPairs ps).length : Int)
        = dst + ((expandPairs (p :: ps)).length : Int) := by
      simp only [expandPairs, List.length_append]; push_cast; ring
    have e2 : bytes - ((expandPair p).length : Int) - ((expandPairs ps).length : Int)
        = bytes - ((expandPairs (p :: ps)).length : Int) := by
      simp only [expandPairs, List.length_append]; push_cast; ring
    rw [e1, e2] at hstep
    simp only [List.length_cons, encodePairs, List.append_assoc]
    rw [← Nat.add_assoc, unpackSpriteLoop_pair_step _ _ _ _ _ hp hfit1, hstep]
    simp only [expandPairs, memcpy_append, List.append_assoc]

theorem length_encodePairs_ge (ps : List SpritePair) : ps.length ≤ (encodePairs ps).length := by
  induction ps with
  | nil => simp [encodePairs]
  | cons p ps ih => simp only [encodePairs, encodePair, List.length_append, List.length_cons]; omega

theorem pairsFit_of_length_le :
    ∀ (ps : List SpritePair) (bytes : Int), ((expandPairs ps).length : Int) ≤ bytes →
      pairsFit bytes ps := by
  intro ps
  induction ps with
  | nil => intro _ _; trivial
  | cons p ps ih =>
    intro bytes h
    simp only [expandPairs, expandPair, List.length_append, List.length_replicate] at h
    push_cast at h
    exact ⟨by omega, ih _ (by omega)⟩

theorem packSprite_spec (px : List Byte) :
    pairsValid (packSprite px) ∧ expandPairs (packSprite px) = px := by
  induction px with
  | nil => exact ⟨fun _ h => by simp [packSprite] at h, rfl⟩
  | cons b rest ih =>
    obtain ⟨hv, he⟩ := ih
    unfold packSprite
    split
    · rename_i hnil
      rw [hnil] at he
      simp only [expandPairs] at he
      subst he
      split
      · rename_i hb
        subst hb
        refine ⟨fun p hp => ?_, ?_⟩
        · simp only [List.mem_singleton] at hp; subst hp; simp
        · simp [expandPairs, expandPair, List.replicate]
      · refine ⟨fun p hp => ?_, ?_⟩
        · simp only [List.mem_singleton] at hp; subst hp; simp
        · simp [expandPairs, expandPair]
    · rename_i p ps hcons
      rw [hcons] at he hv
      have hp := hv p (List.mem_cons_self _ _)
      have hps : ∀ q ∈ ps, q.lits.length ≤ 255 := fun q hq => hv q (List.mem_cons_of_mem _ hq)
      subst he
      split
      · rename_i hb
        subst hb
        split
        · rename_i ht
          refine ⟨fun q hq => ?_, ?_⟩
          · simp only [List.mem_cons] at hq
            rcases hq with hq | hq
            · subst hq; exact hp
            · exact hps q hq
          · have e : (p.transRun + 1).val = p.transRun.val + 1 := by
              rw [Fin.val_add]; simp only [Fin.val_one]; omega
            simp only [expandPairs, expandPair, e, List.replicate_succ, List.cons_append]
        · refine ⟨fun q hq => ?_, ?_⟩
          · simp only [List.mem_cons] at hq
            rcases hq with hq | hq
            · subst hq; simp
            · rcases hq with hq | hq
              · subst hq; exact hp
              · exact hps q hq
          · simp [expandPairs, expandPair, List.replicate]
      · split
        · rename_i hc
          refine ⟨fun q hq => ?_, ?_⟩
          · simp only [List.mem_cons] at hq
            rcases hq with hq | hq
            · subst hq; simp only [List.length_cons]; omega
            · exact hps q hq
          · simp [expandPairs, expandPair, hc.1]
        · refine ⟨fun q hq => ?_, ?_⟩
          · simp only [List.mem_cons] at hq
            rcases hq with hq | hq
            · subst hq; simp
            · rcases hq with hq | hq
              · subst hq; exact hp
              · exact hps q hq
          · simp [expandPairs, expandPair]

theorem getElem?_join_rows (w : Nat) :
    ∀ (rows : List (List Byte)) (r c : Nat) (row : List Byte) (v : Byte),
      (∀ x ∈ rows, x.length = w) → rows[r]? = some row → row[c]? = some v →
      rows.flatten[r * w + c]? = some v := by
  intro rows
  induction rows with
  | nil => intro r c row v _ h; simp at h
  | cons x rows ih =>
    intro r c row v hw hr hc
    have hx : x.length = w := hw x (List.mem_cons_self _ _)
    cases r with
    | zero =>
      simp only [List.getElem?_cons_zero, Option.some.injEq] at hr
      subst hr
      have hlt : c < x.length := by
        by_contra hge
        rw [List.getElem?_eq_none (by omega)] at hc
        exact Option.noConfusion hc
      simp only [List.flatten_cons, Nat.zero_mul, Nat.zero_add]
      rw [List.getElem?_append_left hlt]; exact hc
    | succ r =>
      simp only [List.getElem?_cons_succ] at hr
      have := ih r c row v (fun y hy => hw y (List.mem_cons_of_mem _ hy)) hr hc
      have e : (r + 1) * w + c = x.length + (r * w + c) := by rw [hx, Nat.succ_mul]; omega
      rw [List.flatten_cons, e, List.getElem?_append_right (by omega)]
      rw [← this]; congr 1; omega

/-! ## C2: `unpackSprite` does not clamp its runs -/

/-- C2, as stated, fails: on a 2 x 1 destination the stream `1, 2, 7, 8, 0`
(one transparent pixel, then an opaque run of two) makes `unpackSprite` store
at index 2, which is not below `width * height = 2`. -/
theorem unpackSprite_clamp_counterexample :
    ¬ (∀ w ∈ (unpackSprite ⟨⟨2, 1⟩, fun _ => 0⟩ [1, 2, 7, 8, 0]).writes, w.1 < 2 * 1) := by
  decide

/-- C2, amended. `unpackSprite` writes every run in full: for every destination
and every source stream, each byte it stores lies at an index `i` with
`0 <= i < max (width * height) 0 + 510` (a run starts at most 255 bytes past the
capacity and is at most 255 bytes long). -/
theorem unpackSprite_writes_bounded (map : gPixelMap) (sprData : List Byte) :
    ∀ w ∈ (unpackSprite map sprData).writes,
      0 ≤ w.1 ∧ w.1 < max (map.size.x * map.size.y) 0 + 510 := by
  intro w hw
  have := unpackSpriteLoop_bounds _ _ _ _ w hw
  split at this <;> omega

/-- C2 amended, witness: the store at index 2 of the counterexample run. -/
theorem unpackSprite_writes_bounded_witness :
    (0 : Int) ≤ ((2, 8) : Write).1 ∧
      ((2, 8) : Write).1 < max ((2 : Int) * 1) 0 + 510 :=
  unpackSprite_writes_bounded ⟨⟨2, 1⟩, fun _ => 0⟩ [1, 2, 7, 8, 0] (2, 8) (by decide)

theorem unpackSprite_pairs_mem (map : gPixelMap) (ps : List SpritePair) (tail : List Byte)
    (hv : pairsValid ps) (hfit : pairsFit (map.size.x * map.size.y) ps) :
    (∃ more : List Write,
      (unpackSprite map (encodePairs ps ++ tail)).writes = memcpy 0 (expandPairs ps) ++ more ∧
      ∀ w ∈ more, ((expandPairs ps).length : Int) ≤ w.1) ∧
    ∀ (m : Mem) (i : Nat) (v : Byte), (expandPairs ps)[i]? = some v →
      applyWrites m (unpackSprite map (encodePairs ps ++ tail)).writes i = v := by
  have hlen := length_encodePairs_ge ps
  obtain ⟨f, hf⟩ : ∃ f, (encodePairs ps ++ tail).length + 1 = f + ps.length :=
    ⟨(encodePairs ps ++ tail).length + 1 - ps.length, by
      simp only [List.length_append]; omega⟩
  have key := unpackSpriteLoop_pairs ps f 0 (map.size.x * map.size.y) tail hv hfit
  have hmore : ∀ w ∈ (unpackSpriteLoop f (0 + (expandPairs ps).length)
      (map.size.x * map.size.y - (expandPairs ps).length) tail).writes,
      ((expandPairs ps).length : Int) ≤ w.1 := by
    intro w hw
    have := (unpackSpriteLoop_bounds _ _ _ _ w hw).1
    omega
  have hwrites : (unpackSprite map (encodePairs ps ++ tail)).writes
      = memcpy 0 (expandPairs ps) ++ (unpackSpriteLoop f (0 + (expandPairs ps).length)
      (map.size.x * map.size.y - (expandPairs ps).length) tail).writes := by
    unfold unpackSprite
    rw [hf, key]
  refine ⟨⟨_, hwrites, hmore⟩, ?_⟩
  intro m i v hi
  rw [hwrites, applyWrites_append, applyWrites_of_not_mem]
  · have := applyWrites_memcpy m 0 (expandPairs ps) i v hi
    simpa using this
  · intro w hw
    have h1 := hmore w hw
    have h2 : i < (expandPairs ps).length := by
      by_contra hge
      rw [List.getElem?_eq_none (by omega)] at hi
      exact Option.noConfusion hi
    omega

/-! ## C5: output of the pairs `unpackSprite` processes -/

/-- C5. For a Format-B stream that starts with the pairs `ps`, all of which
`unpackSprite` processes, the bytes stored are in order, contiguously from index
0: for each pair its `transRun` zero bytes followed by its literal bytes.  They
are the first stores made, nothing stored later touches them, and they are what
the destination holds afterwards. -/
theorem unpackSprite_pairs_output (map : gPixelMap) (ps : List SpritePair) (tail : List Byte)
    (hv : pairsValid ps) (hfit : pairsFit (map.size.x * map.size.y) ps) :
    (∃ more : List Write,
      (unpackSprite map (encodePairs ps ++ tail)).writes = memcpy 0 (expandPairs ps) ++ more ∧
      ∀ w ∈ more, ((expandPairs ps).length : Int) ≤ w.1) ∧
    ∀ (m : Mem) (i : Nat) (v : Byte), (expandPairs ps)[i]? = some v →
      applyWrites m (unpackSprite map (encodePairs ps ++ tail)).writes i = v :=
  unpackSprite_pairs_mem map ps tail hv hfit

/-- C5, witness: two pairs on a 3 x 2 destination. -/
theorem unpackSprite_pairs_output_witness :
    (∃ more : List Write,
      (unpackSprite ⟨⟨3, 2⟩, fun _ => 9⟩
          (encodePairs [⟨1, [5, 6]⟩, ⟨2, [7]⟩] ++ [3, 0])).writes
        = memcpy 0 (expandPairs [⟨1, [5, 6]⟩, ⟨2, [7]⟩]) ++ more ∧
      ∀ w ∈ more, ((expandPairs [⟨1, [5, 6]⟩, ⟨2, [7]⟩]).length : Int) ≤ w.1) ∧
    ∀ (m : Mem) (i : Nat) (v : Byte), (expandPairs [⟨1, [5, 6]⟩, ⟨2, [7]⟩])[i]? = some v →
      applyWrites m (unpackSprite ⟨⟨3, 2⟩, fun _ => 9⟩
          (encodePairs [⟨1, [5, 6]⟩, ⟨2, [7]⟩] ++ [3, 0])).writes i = v :=
  unpackSprite_pairs_output ⟨⟨3, 2⟩, fun _ => 9⟩ [⟨1, [5, 6]⟩, ⟨2, [7]⟩] [3, 0]
    (by decide) (by decide)

/-! ## C7: Format-B round trip -/

/-- C7. Format-B round trip: for every pixel grid of width `w` and height `h`
and every encoding `ps` of it into pairs of a zero run and a literal run (length
bytes at most 255, the literal bytes following their length; `packSprite` is
one such encoder), decoding the stream with `unpackSprite` into a `w x h`
destination leaves pixel `(r, c)`, stored at index `r * w + c`, equal to the
grid's pixel, whatever follows the encoding in the stream. -/
theorem unpackSprite_round_trip (map : gPixelMap) (w h : Nat) (rows : List (List Byte))
    (ps : List SpritePair) (tail : List Byte)
    (hx : map.size.x = w) (hy : map.size.y = h)
    (hrows : rows.length = h) (hcols : ∀ row ∈ rows, row.length = w)
    (hv : pairsValid ps) (henc : expandPairs ps = rows.flatten) :
    ∀ (m : Mem) (r c : Nat) (row : List Byte) (v : Byte),
      rows[r]? = some row → row[c]? = some v →
      applyWrites m (unpackSprite map (encodePairs ps ++ tail)).writes
        ((r * w + c : Nat) : Int) = v := by
  intro m r c row v hr hc
  have hlen : (rows.flatten).length = h * w := by
    rw [← hrows]
    clear hr henc hrows
    induction rows with
    | nil => simp
    | cons x xs ih =>
      rw [List.flatten_cons, List.length_append, List.length_cons, Nat.succ_mul,
        ih (fun y hy => hcols y (List.mem_cons_of_mem _ hy)), hcols x (List.mem_cons_self _ _)]
      omega
  have hfit : pairsFit (map.size.x * map.size.y) ps := by
    apply pairsFit_of_length_le
    rw [henc, hlen, hx, hy]
    push_cast
    rw [Int.mul_comm]
  have hget := getElem?_join_rows w rows r c row v hcols hr hc
  rw [← henc] at hget
  exact (unpackSprite_pairs_mem map ps tail hv hfit).2 m (r * w + c) v hget

/-- C7, witness: a 3 x 2 grid encoded by `packSprite`; pixel (1, 2) reads back
as 7. -/
theorem unpackSprite_round_trip_witness :
    applyWrites (fun _ => 9) (unpackSprite ⟨⟨3, 2⟩, fun _ => 9⟩
        (encodePairs (packSprite [0, 5, 6, 0, 0, 7]) ++ [])).writes
        ((1 * 3 + 2 : Nat) : Int) = 7 :=
  unpackSprite_round_trip ⟨⟨3, 2⟩, fun _ => 9⟩ 3 2 [[0, 5, 6], [0, 0, 7]]
    (packSprite [0, 5, 6, 0, 0, 7]) [] rfl rfl rfl (by decide) (by decide) (by decide)
    (fun _ => 9) 1 2 [0, 0, 7] 7 rfl rfl

/-! ## C8: when `unpackSprite` stops -/

/-- C8, as stated, fails: on a 2 x 1 destination the runs `0, 2, 5, 6` total
exactly `width * height = 2` pixels, yet `unpackSprite` goes on to read the
following byte `1` and stores a further zero at index 2. -/
theorem unpackSprite_stop_counterexample :
    ¬ ((unpackSprite ⟨⟨2, 1⟩, fun _ => 0⟩ ([0, 2, 5, 6] ++ [1])).rest = [1] ∧
        (unpackSprite ⟨⟨2, 1⟩, fun _ => 0⟩ ([0, 2, 5, 6] ++ [1])).writes
          = [(0, 5), (1, 6)]) := by
  decide

/-- C8, amended. `unpackSprite` stops at the first transparent run after which
the cumulative number of pixels strictly exceeds `width * height`: for every
stream made of pairs it processes followed by such a transparent run length
`t`, it ends there, reads no source byte past `t`, and has stored exactly the
pixels of the pairs followed by `t` zero bytes. -/
theorem unpackSprite_stops_after_exceeding (map : gPixelMap) (ps : List SpritePair) (t : Byte)
    (tail : List Byte) (hv : pairsValid ps) (hfit : pairsFit (map.size.x * map.size.y) ps)
    (hexc : map.size.x * map.size.y < ((expandPairs ps).length : Int) + t.val) :
    (unpackSprite map (encodePairs ps ++ t :: tail)).status = Status.done ∧
    (unpackSprite map (encodePairs ps ++ t :: tail)).rest = tail ∧
    (unpackSprite map (encodePairs ps ++ t :: tail)).writes
      = memcpy 0 (expandPairs ps ++ List.replicate t.val 0) := by
  have hlen := length_encodePairs_ge ps
  obtain ⟨f, hf⟩ : ∃ f, (encodePairs ps ++ t :: tail).length + 1 = (f + 1) + ps.length :=
    ⟨(encodePairs ps ++ t :: tail).length - ps.length, by
      simp only [List.length_append, List.length_cons]; omega⟩
  have key := unpackSpriteLoop_pairs ps (f + 1) 0 (map.size.x * map.size.y) (t :: tail) hv hfit
  have hlast : unpackSpriteLoop (f + 1) (0 + (expandPairs ps).length)
      (map.size.x * map.size.y - (expandPairs ps).length) (t :: tail)
      = ⟨memset (0 + (expandPairs ps).length) 0 t.val, 0 + (expandPairs ps).length + t.val,
          tail, .done⟩ := by
    simp only [unpackSpriteLoop]
    rw [if_pos (by omega)]
  unfold unpackSprite
  rw [hf, key, hlast]
  refine ⟨rfl, rfl, ?_⟩
  simp only [memcpy_append, memset]

/-- C8 amended, witness: on a 2 x 1 destination, one pair of two pixels and
then a transparent run of 1. -/
theorem unpackSprite_stops_after_exceeding_witness :
    (unpackSprite ⟨⟨2, 1⟩, fun _ => 0⟩ (encodePairs [⟨0, [5, 6]⟩] ++ 1 :: [4])).status
      = Status.done ∧
    (unpackSprite ⟨⟨2, 1⟩, fun _ => 0⟩ (encodePairs [⟨0, [5, 6]⟩] ++ 1 :: [4])).rest = [4] ∧
    (unpackSprite ⟨⟨2, 1⟩, fun _ => 0⟩ (encodePairs [⟨0, [5, 6]⟩] ++ 1 :: [4])).writes
      = memcpy 0 (expandPairs [⟨0, [5, 6]⟩] ++ List.replicate (1 : Byte).val 0) :=
  unpackSprite_stops_after_exceeding ⟨⟨2, 1⟩, fun _ => 0⟩ [⟨0, [5, 6]⟩] 1 [4]
    (by decide) (by decide) (by decide)

/-! ## `unpackImage` -/

theorem encodeGroups_append (as bs : List CtlGroup) :
    encodeGroups (as ++ bs) = encodeGroups as ++ encodeGroups bs := by
  induction as with
  | nil => rfl
  | cons a as ih => rw [List.cons_append]; simp only [encodeGroups, ih, List.append_assoc]

theorem expandGroups_append (as bs : List CtlGroup) :
    expandGroups (as ++ bs) = expandGroups as ++ expandGroups bs := by
  induction as with
  | nil => rfl
  | cons a as ih => rw [List.cons_append]; simp only [expandGroups, ih, List.append_assoc]

theorem encodeGroups_nops (j : Nat) :
    encodeGroups (List.replicate j CtlGroup.nop) = List.replicate j (128 : Byte) := by
  induction j with
  | zero => rfl
  | succ j ih => simp only [List.replicate_succ, encodeGroups, CtlGroup.encode, ih,
      List.singleton_append]

theorem expandGroups_nops (j : Nat) : expandGroups (List.replicate j CtlGroup.nop) = [] := by
  induction j with
  | zero => rfl
  | succ j ih => simp only [List.replicate_succ, expandGroups, CtlGroup.expand, ih,
      List.append_nil]

theorem length_encodeGroups_ge (gs : List CtlGroup) : gs.length ≤ (encodeGroups gs).length := by
  induction gs with
  | nil => simp [encodeGroups]
  | cons g gs ih =>
    simp only [encodeGroups, List.length_append, List.length_cons]
    cases g <;> simp only [CtlGroup.encode, List.length_cons, List.length_nil] <;> omega

/-- Valid groups that expand to nothing are all no-ops. -/
theorem encodeGroups_of_expand_nil (gs : List CtlGroup) (hv : ∀ g ∈ gs, g.valid)
    (he : (expandGroups gs).length = 0) :
    encodeGroups gs = List.replicate gs.length (128 : Byte) := by
  induction gs with
  | nil => rfl
  | cons g gs ih =>
    simp only [expandGroups, List.length_append] at he
    have hg := hv g (List.mem_cons_self _ _)
    have ih2 := ih (fun x hx => hv x (List.mem_cons_of_mem _ hx)) (by omega)
    cases g with
    | lit bs => simp only [CtlGroup.valid, CtlGroup.expand] at hg he; omega
    | rep v n =>
      simp only [CtlGroup.valid, CtlGroup.expand, List.length_replicate] at hg he; omega
    | nop => simp only [encodeGroups, CtlGroup.encode, ih2, List.length_cons,
        List.replicate_succ, List.singleton_append]

theorem unpackImageRow_done (B : Int) (fuel : Nat) (k dest : Int) (s : List Byte)
    (hk : ¬ k < B) : unpackImageRow B (fuel + 1) k dest s = ⟨[], dest, s, .done⟩ := by
  simp only [unpackImageRow]
  rw [if_neg hk]

theorem unpackImageRow_nop (B : Int) (fuel : Nat) (k dest : Int) (rest : List Byte)
    (hk : k < B) :
    unpackImageRow B (fuel + 1) k dest (CtlGroup.nop.encode ++ rest)
      = unpackImageRow B fuel k dest rest := by
  simp only [CtlGroup.encode, List.singleton_append, unpackImageRow]
  rw [if_pos hk, if_pos (by decide)]

theorem unpackImageRow_lit (B : Int) (fuel : Nat) (k dest : Int) (bs rest : List Byte)
    (hv : (CtlGroup.lit bs).valid) (hk : k < B) (hk0 : 0 ≤ k) (hkB : k + bs.length ≤ 32767) :
    unpackImageRow B (fuel + 1) k dest ((CtlGroup.lit bs).encode ++ rest)
      = ⟨memcpy dest bs ++ (unpackImageRow B fuel (k + bs.length) (dest + bs.length) rest).writes,
          (unpackImageRow B fuel (k + bs.length) (dest + bs.length) rest).dest,
          (unpackImageRow B fuel (k + bs.length) (dest + bs.length) rest).rest,
          (unpackImageRow B fuel (k + bs.length) (dest + bs.length) rest).status⟩ := by
  simp only [CtlGroup.valid] at hv
  have hc : toInt8 (Byte.ofNat (bs.length - 1)) = (bs.length : Int) - 1 := by
    simp only [toInt8, Byte.ofNat_val (show bs.length - 1 ≤ 255 by omega)]
    rw [if_pos (by omega)]; omega
  have hp : (bs.length : Int) - 1 + 1 = bs.length := by ring
  simp only [CtlGroup.encode, List.cons_append, unpackImageRow, hc, hp, Int.toNat_ofNat,
    List.length_append]
  rw [if_pos hk, if_neg (by omega), if_pos (by omega), if_neg (by omega),
    List.take_left, List.drop_left]
  have hk16 : toInt16 (k + bs.length) = k + bs.length := by
    simp only [toInt16]; omega
  rw [hk16]

theorem unpackImageRow_rep (B : Int) (fuel : Nat) (k dest : Int) (v : Byte) (n : Nat)
    (rest : List Byte)
    (hv : (CtlGroup.rep v n).valid) (hk : k < B) (hk0 : 0 ≤ k) (hkB : k + n ≤ 32767) :
    unpackImageRow B (fuel + 1) k dest ((CtlGroup.rep v n).encode ++ rest)
      = ⟨memcpy dest (List.replicate n v)
            ++ (unpackImageRow B fuel (k + n) (dest + n) rest).writes,
          (unpackImageRow B fuel (k + n) (dest + n) rest).dest,
          (unpackImageRow B fuel (k + n) (dest + n) rest).rest,
          (unpackImageRow B fuel (k + n) (dest + n) rest).status⟩ := by
  simp only [CtlGroup.valid] at hv
  have hc : toInt8 (Byte.ofNat (257 - n)) = 1 - (n : Int) := by
    simp only [toInt8, Byte.ofNat_val (show 257 - n ≤ 255 by omega)]
    rw [if_neg (by omega)]; omega
  have hp : 1 - (1 - (n : Int)) = n := by ring
  simp only [CtlGroup.encode, List.cons_append, List.nil_append, unpackImageRow, hc, hp,
    Int.toNat_ofNat, memset]
  rw [if_pos hk, if_neg (by omega), if_neg (by omega)]
  have hk16 : toInt16 (k + n) = k + n := by
    simp only [toInt16]; omega
  rw [hk16]

theorem unpackImageRow_groups (B : Int) (hB : B ≤ 32767) :
    ∀ (gs : List CtlGroup) (fuel : Nat) (k dest : Int) (tail : List Byte),
      (∀ g ∈ gs, g.valid) → 0 ≤ k → k + (expandGroups gs).length = B → gs.length < fuel →
      ∃ j : Nat, unpackImageRow B fuel k dest (encodeGroups gs ++ tail)
        = ⟨memcpy dest (expandGroups gs), dest + (expandGroups gs).length,
            List.replicate j (128 : Byte) ++ tail, .done⟩ := by
  intro gs
  induction gs with
  | nil =>
    intro fuel k dest tail _ hk0 hk hf
    obtain ⟨f, rfl⟩ : ∃ f, fuel = f + 1 := ⟨fuel - 1, by simp at hf; omega⟩
    refine ⟨0, ?_⟩
    simp only [expandGroups, List.length_nil] at hk
    rw [encodeGroups, List.nil_append, unpackImageRow_done _ _ _ _ _ (by omega)]
    simp [expandGroups, memcpy]
  | cons g gs ih =>
    intro fuel k dest tail hv hk0 hk hf
    obtain ⟨f, rfl⟩ : ∃ f, fuel = f + 1 := ⟨fuel - 1, by simp at hf; omega⟩
    have hg := hv g (List.mem_cons_self _ _)
    have hvs : ∀ x ∈ gs, x.valid := fun x hx => hv x (List.mem_cons_of_mem _ hx)
    have hf2 : gs.length < f := by simp only [List.length_cons] at hf; omega
    by_cases hkB : k < B
    · simp only [expandGroups, List.length_append] at hk
      push_cast at hk
      simp only [encodeGroups, List.append_assoc]
      cases g with
      | nop =>
        simp only [CtlGroup.expand, List.length_nil] at hk
        obtain ⟨j, hj⟩ := ih f k dest tail hvs hk0 (by omega) hf2
        refine ⟨j, ?_⟩
        rw [unpackImageRow_nop _ _ _ _ _ hkB, hj]
        simp [expandGroups, CtlGroup.expand]
      | lit bs =>
        simp only [CtlGroup.expand] at hk
        obtain ⟨j, hj⟩ := ih f (k + bs.length) (dest + bs.length) tail hvs (by omega)
          (by omega) hf2
        refine ⟨j, ?_⟩
        rw [unpackImageRow_lit _ _ _ _ _ _ hg hkB hk0 (by omega), hj]
        simp only [expandGroups, CtlGroup.expand, memcpy_append, List.length_append]
        push_cast
        rw [Int.add_assoc]
      | rep v n =>
        simp only [CtlGroup.expand, List.length_replicate] at hk
        obtain ⟨j, hj⟩ := ih f (k + n) (dest + n) tail hvs (by omega) (by omega) hf2
        refine ⟨j, ?_⟩
        rw [unpackImageRow_rep _ _ _ _ _ _ _ hg hkB hk0 (by omega), hj]
        simp only [expandGroups, CtlGroup.expand, memcpy_append, List.length_append,
          List.length_replicate]
        push_cast
        rw [Int.add_assoc]
    · have he : (expandGroups (g :: gs)).length = 0 := by omega
      refine ⟨(g :: gs).length, ?_⟩
      rw [unpackImageRow_done _ _ _ _ _ hkB, encodeGroups_of_expand_nil _ hv he]
      rw [List.length_eq_zero.mp he]
      simp [memcpy]

theorem unpackImageRows_groups (B rowMod : Int) (hB : B ≤ 32767) (heven : B % 2 = 0) :
    ∀ (gss : List (List CtlGroup)) (j : Nat) (dest : Int) (tail : List Byte),
      (∀ gs ∈ gss, rowWellFormed B gs) →
      ∃ j2 : Nat, unpackImageRows B rowMod gss.length dest
          (List.replicate j (128 : Byte) ++ (encodeRows gss ++ tail))
        = ⟨rowsWrites (B + rowMod) dest (gss.map expandGroups),
            dest + gss.length * (B + rowMod), List.replicate j2 (128 : Byte) ++ tail, .done⟩ := by
  intro gss
  induction gss with
  | nil =>
    intro j dest tail _
    exact ⟨j, by simp [unpackImageRows, encodeRows, rowsWrites]⟩
  | cons gs gss ih =>
    intro j dest tail hwf
    obtain ⟨hv, hlen⟩ := hwf gs (List.mem_cons_self _ _)
    have hrest : ∀ x ∈ gss, rowWellFormed B x := fun x hx => hwf x (List.mem_cons_of_mem _ hx)
    have hstream : List.replicate j (128 : Byte) ++ (encodeRows (gs :: gss) ++ tail)
        = encodeGroups (List.replicate j CtlGroup.nop ++ gs) ++ (encodeRows gss ++ tail) := by
      simp only [encodeRows, encodeGroups_append, encodeGroups_nops, List.append_assoc]
    have hexp : expandGroups (List.replicate j CtlGroup.nop ++ gs) = expandGroups gs := by
      simp only [expandGroups_append, expandGroups_nops, List.nil_append]
    have hvalid : ∀ g ∈ List.replicate j CtlGroup.nop ++ gs, g.valid := by
      intro g hg
      rw [List.mem_append] at hg
      rcases hg with hg | hg
      · rw [(List.mem_replicate.mp hg).2]; trivial
      · exact hv g hg
    have hfuel : (List.replicate j CtlGroup.nop ++ gs).length
        < (encodeGroups (List.replicate j CtlGroup.nop ++ gs)
            ++ (encodeRows gss ++ tail)).length + 1 := by
      have := length_encodeGroups_ge (List.replicate j CtlGroup.nop ++ gs)
      simp only [List.length_append] at *
      omega
    obtain ⟨j1, hrow⟩ := unpackImageRow_groups B hB _ _ 0 dest (encodeRows gss ++ tail)
      hvalid (le_refl 0) (by rw [hexp]; omega) hfuel
    obtain ⟨j2, hrec⟩ := ih j1 (dest + (expandGroups gs).length + rowMod) tail hrest
    refine ⟨j2, ?_⟩
    rw [hstream]
    simp only [List.length_cons, unpackImageRows]
    rw [hrow]
    simp only [hexp]
    rw [if_neg (by omega), hrec]
    simp only [List.map_cons, rowsWrites]
    have e1 : dest + ((expandGroups gs).length : Int) + rowMod = dest + (B + rowMod) := by omega
    rw [e1]
    congr 1
    push_cast
    ring

theorem unpackImage_groups (map : gPixelMap) (width : Int) (gss : List (List CtlGroup))
    (tail : List Byte)
    (hw0 : 0 ≤ width) (hw : width ≤ 32766)
    (hs0 : 0 ≤ map.size.x) (hs : map.size.x ≤ 32767)
    (hn : gss.length ≤ 32767)
    (hwf : ∀ gs ∈ gss, rowWellFormed (width + width % 2) gs) :
    ∃ j : Nat, unpackImage map width gss.length (encodeRows gss ++ tail)
      = ⟨rowsWrites map.size.x 0 (gss.map expandGroups), gss.length * map.size.x,
          List.replicate j (128 : Byte) ++ tail, .done⟩ := by
  have hbc : toInt16 ((width + 1) - (width + 1) % 2) = width + width % 2 := by
    simp only [toInt16]; omega
  have hrm : toInt16 (map.size.x - (width + width % 2)) = map.size.x - (width + width % 2) := by
    simp only [toInt16]; omega
  have hcnt : ((gss.length : Int) % 65536).toNat = gss.length := by omega
  obtain ⟨j, hj⟩ := unpackImageRows_groups (width + width % 2)
    (map.size.x - (width + width % 2)) (by omega) (by omega) gss 0 0 tail hwf
  refine ⟨j, ?_⟩
  simp only [List.replicate_zero, List.nil_append] at hj
  simp only [unpackImage, hbc, hrm, hcnt]
  rw [hj]
  congr 1
  · congr 1; ring
  · ring

theorem rowsWrites_lower (S : Int) (hS : 0 ≤ S) :
    ∀ (es : List (List Byte)) (d : Int), ∀ w ∈ rowsWrites S d es, d ≤ w.1 := by
  intro es
  induction es with
  | nil => intro d w hw; simp [rowsWrites] at hw
  | cons e es ih =>
    intro d w hw
    simp only [rowsWrites, List.mem_append] at hw
    rcases hw with hw | hw
    · exact (mem_memcpy hw).1
    · have := ih _ w hw; omega

theorem rowsWrites_bounds (S B : Int) (hB : 0 ≤ B) (hBS : B ≤ S) :
    ∀ (es : List (List Byte)) (d : Int), (∀ e ∈ es, (e.length : Int) = B) →
      ∀ w ∈ rowsWrites S d es, d ≤ w.1 ∧ w.1 < d + S * es.length := by
  intro es
  induction es with
  | nil => intro d _ w hw; simp [rowsWrites] at hw
  | cons e es ih =>
    intro d hlen w hw
    have he := hlen e (List.mem_cons_self _ _)
    have hnn : 0 ≤ S * (es.length : Int) := mul_nonneg (by omega) (by omega)
    have hsucc : S * ((e :: es).length : Int) = S + S * (es.length : Int) := by
      simp only [List.length_cons]; push_cast; ring
    rw [hsucc]
    simp only [rowsWrites, List.mem_append] at hw
    rcases hw with hw | hw
    · have := mem_memcpy hw; omega
    · have := ih (d + S) (fun x hx => hlen x (List.mem_cons_of_mem _ hx)) w hw
      omega

theorem rowsWrites_length (S B : Int) :
    ∀ (es : List (List Byte)) (d : Int), (∀ e ∈ es, (e.length : Int) = B) →
      ((rowsWrites S d es).length : Int) = B * es.length := by
  intro es
  induction es with
  | nil => intro d _; simp [rowsWrites]
  | cons e es ih =>
    intro d hlen
    have he := hlen e (List.mem_cons_self _ _)
    have hm : ∀ (d : Int) (bs : List Byte), (memcpy d bs).length = bs.length := by
      intro d bs
      induction bs generalizing d with
      | nil => rfl
      | cons b bs ihb => simp only [memcpy, List.length_cons, ihb]
    simp only [rowsWrites, List.length_append, List.length_cons, hm]
    push_cast
    rw [ih (d + S) (fun x hx => hlen x (List.mem_cons_of_mem _ hx)), he]
    ring

theorem rowsWrites_apply (S : Int) (hS : 0 ≤ S) :
    ∀ (es : List (List Byte)) (d : Int) (m : Mem) (r j : Nat) (e : List Byte) (v : Byte),
      es[r]? = some e → e[j]? = some v → ((j : Int) < S ∨ r + 1 = es.length) →
      applyWrites m (rowsWrites S d es) (d + r * S + j) = v := by
  intro es
  induction es with
  | nil => intro d m r j e v h; simp at h
  | cons e0 es ih =>
    intro d m r j e v hr hj hc
    simp only [rowsWrites, applyWrites_append]
    cases r with
    | zero =>
      simp only [List.getElem?_cons_zero, Option.some.injEq] at hr
      subst hr
      have haddr : d + ((0 : Nat) : Int) * S + j = d + j := by push_cast; ring
      rw [haddr, applyWrites_of_not_mem]
      · exact applyWrites_memcpy m d e0 j v hj
      · intro w hw
        rcases hc with hc | hc
        · have := rowsWrites_lower S hS es (d + S) w hw
          omega
        · simp only [List.length_cons] at hc
          have : es = [] := List.length_eq_zero.mp (by omega)
          subst this
          simp [rowsWrites] at hw
    | succ r =>
      simp only [List.getElem?_cons_succ] at hr
      have haddr : d + ((r + 1 : Nat) : Int) * S + j = (d + S) + r * S + j := by
        push_cast; ring
      rw [haddr]
      apply ih (d + S) _ r j e v hr hj
      rcases hc with hc | hc
      · exact Or.inl hc
      · right; simp only [List.length_cons] at hc; omega

theorem forall₂_getElem? {α β : Type} (R : α → β → Prop) :
    ∀ (as : List α) (bs : List β), List.Forall₂ R as bs →
      ∀ (r : Nat) (a : α), as[r]? = some a → ∃ b, bs[r]? = some b ∧ R a b := by
  intro as bs h
  induction h with
  | nil => intro r a hr; simp at hr
  | cons hab _ ih =>
    intro r a hr
    cases r with
    | zero =>
      simp only [List.getElem?_cons_zero, Option.some.injEq] at hr
      subst hr
      exact ⟨_, by simp, hab⟩
    | succ r =>
      simp only [List.getElem?_cons_succ] at hr
      obtain ⟨b, hb, hR⟩ := ih r a hr
      exact ⟨b, by simpa using hb, hR⟩

theorem unpackImage_wellformed_mem (map : gPixelMap) (width : Int)
    (gss : List (List CtlGroup)) (tail : List Byte)
    (hw0 : 0 ≤ width) (hw : width ≤ 32766)
    (hs0 : 0 ≤ map.size.x) (hs : map.size.x ≤ 32767)
    (hn : gss.length ≤ 32767)
    (hwf : ∀ gs ∈ gss, rowWellFormed (width + width % 2) gs) :
    ∀ (m : Mem) (r j : Nat) (gs : List CtlGroup) (v : Byte),
      gss[r]? = some gs → (expandGroups gs)[j]? = some v →
      ((j : Int) < map.size.x ∨ r + 1 = gss.length) →
      applyWrites m (unpackImage map width gss.length (encodeRows gss ++ tail)).writes
        (r * map.size.x + j) = v := by
  intro m r j gs v hr hj hc
  obtain ⟨j0, h⟩ := unpackImage_groups map width gss tail hw0 hw hs0 hs hn hwf
  rw [h]
  have := rowsWrites_apply map.size.x hs0 (gss.map expandGroups) 0 m r j (expandGroups gs) v
    (by rw [List.getElem?_map, hr]; rfl) hj (by simpa using hc)
  simpa using this

theorem packRow_spec (px : List Byte) :
    (∀ g ∈ packRow px, g.valid ∧ g ≠ CtlGroup.nop) ∧ expandGroups (packRow px) = px := by
  induction px with
  | nil => exact ⟨fun _ h => by simp [packRow] at h, rfl⟩
  | cons b rest ih =>
    obtain ⟨hv, he⟩ := ih
    unfold packRow
    split
    · rename_i v n gs hrep
      rw [hrep] at hv he
      have h0 := (hv _ (List.mem_cons_self _ _)).1
      simp only [CtlGroup.valid] at h0
      have hgs : ∀ g ∈ gs, g.valid ∧ g ≠ CtlGroup.nop :=
        fun g hg => hv g (List.mem_cons_of_mem _ hg)
      subst he
      split
      · rename_i hc
        obtain ⟨rfl, hn⟩ := hc
        refine ⟨fun g hg => ?_, ?_⟩
        · simp only [List.mem_cons] at hg
          rcases hg with hg | hg
          · subst hg; simp only [CtlGroup.valid]; exact ⟨by omega, by simp⟩
          · exact hgs g hg
        · simp [expandGroups, CtlGroup.expand, List.replicate_succ]
      · refine ⟨fun g hg => ?_, ?_⟩
        · simp only [List.mem_cons] at hg
          rcases hg with hg | hg | hg
          · subst hg; simp [CtlGroup.valid]
          · subst hg; simp only [CtlGroup.valid]; exact ⟨by omega, by simp⟩
          · exact hgs g hg
        · simp [expandGroups, CtlGroup.expand]
    · rename_i c gs hlit
      rw [hlit] at hv he
      have hgs : ∀ g ∈ gs, g.valid ∧ g ≠ CtlGroup.nop :=
        fun g hg => hv g (List.mem_cons_of_mem _ hg)
      subst he
      split
      · rename_i hc
        subst hc
        refine ⟨fun g hg => ?_, ?_⟩
        · simp only [List.mem_cons] at hg
          rcases hg with hg | hg
          · subst hg; simp [CtlGroup.valid]
          · exact hgs g hg
        · simp [expandGroups, CtlGroup.expand, List.replicate]
      · refine ⟨fun g hg => ?_, ?_⟩
        · simp only [List.mem_cons] at hg
          rcases hg with hg | hg
          · subst hg; simp [CtlGroup.valid]
          · exact hgs g hg
        · simp [expandGroups, CtlGroup.expand]
    · rename_i c d cs gs hlit
      rw [hlit] at hv he
      have h0 := (hv _ (List.mem_cons_self _ _)).1
      simp only [CtlGroup.valid, List.length_cons] at h0
      have hgs : ∀ g ∈ gs, g.valid ∧ g ≠ CtlGroup.nop :=
        fun g hg => hv g (List.mem_cons_of_mem _ hg)
      subst he
      split
      · rename_i hc
        subst hc
        refine ⟨fun g hg => ?_, ?_⟩
        · simp only [List.mem_cons] at hg
          rcases hg with hg | hg | hg
          · subst hg; simp [CtlGroup.valid]
          · subst hg; simp only [CtlGroup.valid, List.length_cons]; exact ⟨by omega, by simp⟩
          · exact hgs g hg
        · simp [expandGroups, CtlGroup.expand, List.replicate]
      · split
        · refine ⟨fun g hg => ?_, ?_⟩
          · simp only [List.mem_cons] at hg
            rcases hg with hg | hg
            · subst hg; simp only [CtlGroup.valid, List.length_cons]; exact ⟨by omega, by simp⟩
            · exact hgs g hg
          · simp [expandGroups, CtlGroup.expand]
        · refine ⟨fun g hg => ?_, ?_⟩
          · simp only [List.mem_cons] at hg
            rcases hg with hg | hg | hg
            · subst hg; simp [CtlGroup.valid]
            · subst hg; simp only [CtlGroup.valid, List.length_cons]; exact ⟨by omega, by simp⟩
            · exact hgs g hg
          · simp [expandGroups, CtlGroup.expand]
    · rename_i gs _ _ _
      refine ⟨fun g hg => ?_, ?_⟩
      · simp only [List.mem_cons] at hg
        rcases hg with hg | hg
        · subst hg; simp [CtlGroup.valid]
        · exact hv g hg
      · simp [expandGroups, CtlGroup.expand, he]

/-! ## C3: `unpackImage` does not bound a run to the row budget -/

/-- C3, as stated, fails: with width 2 (row budget 2) on a 2 x 1 destination,
the stream `3, 7, 8, 9, 10` (a literal run of four) makes `unpackImage` emit
four bytes in the row and store at indices 2 and 3, outside the 2 x 1 region. -/
theorem unpackImage_budget_counterexample :
    ¬ ((unpackImage ⟨⟨2, 1⟩, fun _ => 0⟩ 2 1 [3, 7, 8, 9, 10]).writes.length ≤ 2 ∧
        ∀ w ∈ (unpackImage ⟨⟨2, 1⟩, fun _ => 0⟩ 2 1 [3, 7, 8, 9, 10]).writes,
          0 ≤ w.1 ∧ w.1 < 2 * 1) := by
  decide

/-- C3, amended. For every stream whose rows are well formed (no literal or
repeat run is longer than the bytes remaining in its row, so the expansions of a
row total exactly the row budget `B = (width + 1) & ~1`) and every destination
stride `S >= B`, `unpackImage` emits exactly `B` bytes per row, row `i` at
`[i * S, i * S + B)`, and never stores outside the `S x rowCount` region. -/
theorem unpackImage_wellformed_in_region (map : gPixelMap) (width : Int)
    (gss : List (List CtlGroup)) (tail : List Byte)
    (hw0 : 0 ≤ width) (hw : width ≤ 32766) (hs : map.size.x ≤ 32767)
    (hBS : width + width % 2 ≤ map.size.x)
    (hn : gss.length ≤ 32767)
    (hwf : ∀ gs ∈ gss, rowWellFormed (width + width % 2) gs) :
    (unpackImage map width gss.length (encodeRows gss ++ tail)).writes
      = rowsWrites map.size.x 0 (gss.map expandGroups) ∧
    (((unpackImage map width gss.length (encodeRows gss ++ tail)).writes.length : Int)
      = (width + width % 2) * gss.length) ∧
    ∀ w ∈ (unpackImage map width gss.length (encodeRows gss ++ tail)).writes,
      0 ≤ w.1 ∧ w.1 < map.size.x * gss.length := by
  obtain ⟨j0, h⟩ := unpackImage_groups map width gss tail hw0 hw (by omega) hs hn hwf
  have hlen : ∀ e ∈ gss.map expandGroups, (e.length : Int) = width + width % 2 := by
    intro e he
    obtain ⟨gs, hgs, rfl⟩ := List.mem_map.mp he
    exact (hwf gs hgs).2
  rw [h]
  refine ⟨rfl, ?_, ?_⟩
  · have := rowsWrites_length map.size.x (width + width % 2) (gss.map expandGroups) 0 hlen
    simpa using this
  · intro w hw1
    have := rowsWrites_bounds map.size.x (width + width % 2) (by omega) hBS
      (gss.map expandGroups) 0 hlen w hw1
    simpa using this

/-- C3 amended, witness: width 3 (budget 4), stride 5, two rows. -/
theorem unpackImage_wellformed_in_region_witness :
    (unpackImage ⟨⟨5, 2⟩, fun _ => 0⟩ 3 ([[.lit [1, 2], .rep 3 2], [.nop, .rep 4 4]] :
        List (List CtlGroup)).length
        (encodeRows [[.lit [1, 2], .rep 3 2], [.nop, .rep 4 4]] ++ [])).writes
      = rowsWrites 5 0 ([[.lit [1, 2], .rep 3 2], [.nop, .rep 4 4]].map expandGroups) ∧
    (((unpackImage ⟨⟨5, 2⟩, fun _ => 0⟩ 3 ([[.lit [1, 2], .rep 3 2], [.nop, .rep 4 4]] :
        List (List CtlGroup)).length
        (encodeRows [[.lit [1, 2], .rep 3 2], [.nop, .rep 4 4]] ++ [])).writes.length : Int)
      = (3 + 3 % 2) * ([[.lit [1, 2], .rep 3 2], [.nop, .rep 4 4]] :
        List (List CtlGroup)).length) ∧
    ∀ w ∈ (unpackImage ⟨⟨5, 2⟩, fun _ => 0⟩ 3 ([[.lit [1, 2], .rep 3 2], [.nop, .rep 4 4]] :
        List (List CtlGroup)).length
        (encodeRows [[.lit [1, 2], .rep 3 2], [.nop, .rep 4 4]] ++ [])).writes,
      0 ≤ w.1 ∧ w.1 < 5 * ([[.lit [1, 2], .rep 3 2], [.nop, .rep 4 4]] :
        List (List CtlGroup)).length :=
  unpackImage_wellformed_in_region ⟨⟨5, 2⟩, fun _ => 0⟩ 3
    [[.lit [1, 2], .rep 3 2], [.nop, .rep 4 4]] [] (by decide) (by decide) (by decide)
    (by decide) (by decide) (by decide)

/-! ## C4: what `unpackImage` leaves in each row -/

/-- C4, as stated, fails when the stride is smaller than the row budget: with
width 1 (budget 2) on a destination of stride 1 and two rows `7 8` and `9 10`,
byte 1 of row 0's range `[0, 2)` ends up as 9, the first byte of row 1, not 8. -/
theorem unpackImage_rows_counterexample :
    ¬ (applyWrites (fun _ => 0)
        (unpackImage ⟨⟨1, 2⟩, fun _ => 0⟩ 1 2
          (encodeRows [[.lit [7, 8]], [.lit [9, 10]]])).writes (0 * 1 + 1) = 8) := by
  decide

/-- C4, amended. For every width in `0..32766`, stride `S = map.size.x` in
`0..32767`, `rowCount <= 32767` and every well-formed Format-A stream, after
`unpackImage` destination byte `r * S + j` equals byte `j` of the concatenated
expansions of row `r`'s groups, for every `j < B` that is below the stride or
lies in the last row (with `S < B` the tail of a row is overwritten by the rows
after it); a control byte in 0..127 expands to the next `p + 1` stream bytes, one
in -127..-1 to the next byte repeated `1 - p` times, and -128 to nothing. -/
theorem unpackImage_wellformed_rows (map : gPixelMap) (width : Int)
    (gss : List (List CtlGroup)) (tail : List Byte)
    (hw0 : 0 ≤ width) (hw : width ≤ 32766)
    (hs0 : 0 ≤ map.size.x) (hs : map.size.x ≤ 32767)
    (hn : gss.length ≤ 32767)
    (hwf : ∀ gs ∈ gss, rowWellFormed (width + width % 2) gs) :
    ∀ (m : Mem) (r j : Nat) (gs : List CtlGroup) (v : Byte),
      gss[r]? = some gs → (expandGroups gs)[j]? = some v →
      ((j : Int) < map.size.x ∨ r + 1 = gss.length) →
      applyWrites m (unpackImage map width gss.length (encodeRows gss ++ tail)).writes
        (r * map.size.x + j) = v :=
  unpackImage_wellformed_mem map width gss tail hw0 hw hs0 hs hn hwf

/-- C4 amended, witness: width 3 (budget 4) on stride 3; byte 3 of the last row
(row 1) is the fourth byte of its expansion. -/
theorem unpackImage_wellformed_rows_witness :
    applyWrites (fun _ => 0)
      (unpackImage ⟨⟨3, 2⟩, fun _ => 0⟩ 3
        ([[.lit [1, 2], .rep 3 2], [.nop, .rep 4 3, .lit [5]]] : List (List CtlGroup)).length
        (encodeRows [[.lit [1, 2], .rep 3 2], [.nop, .rep 4 3, .lit [5]]] ++ [])).writes
      ((1 : Nat) * 3 + (3 : Nat)) = 5 :=
  unpackImage_wellformed_rows ⟨⟨3, 2⟩, fun _ => 0⟩ 3
    [[.lit [1, 2], .rep 3 2], [.nop, .rep 4 3, .lit [5]]] [] (by decide) (by decide)
    (by decide) (by decide) (by decide) (by decide) (fun _ => 0) 1 3
    [.nop, .rep 4 3, .lit [5]] 5 rfl rfl (Or.inr rfl)

/-! ## C6: Format-A round trip -/

/-- C6. Format-A round trip: for every pixel grid of width `w` and every
encoding of its rows into literal and repeat groups (each row padded to the even
budget `B`, literal groups of 1..128 bytes, repeat groups of 2..128; `packRow`
after `padRow` is one such encoder), decoding with `unpackImage` into a
destination of stride `S >= B` leaves pixel `(r, c)`, stored at `r * S + c`,
equal to the grid's pixel for every column `c < w`. -/
theorem unpackImage_round_trip (map : gPixelMap) (w : Nat) (rows : List (List Byte))
    (gss : List (List CtlGroup)) (tail : List Byte)
    (hs : map.size.x ≤ 32767) (hBS : ((w + w % 2 : Nat) : Int) ≤ map.size.x)
    (hn : rows.length ≤ 32767) (hcols : ∀ row ∈ rows, row.length = w)
    (henc : List.Forall₂
      (fun row gs => rowWellFormed ((w + w % 2 : Nat) : Int) gs ∧ row <+: expandGroups gs)
      rows gss) :
    ∀ (m : Mem) (r c : Nat) (row : List Byte) (v : Byte),
      rows[r]? = some row → row[c]? = some v →
      applyWrites m (unpackImage map w rows.length (encodeRows gss ++ tail)).writes
        (r * map.size.x + c) = v := by
  intro m r c row v hr hc
  have hlen : gss.length = rows.length := henc.length_eq.symm
  obtain ⟨gs, hgs, hwfr, hpre⟩ := forall₂_getElem? _ rows gss henc r row hr
  have hcw : c < w := by
    have hmem : row ∈ rows := List.getElem?_mem hr
    have := hcols row hmem
    by_contra hge
    rw [List.getElem?_eq_none (by omega)] at hc
    exact Option.noConfusion hc
  have hwf : ∀ gs ∈ gss, rowWellFormed ((w : Int) + (w : Int) % 2) gs := by
    intro gs1 hgs1
    obtain ⟨i, hi⟩ := List.mem_iff_getElem?.mp hgs1
    have hi2 : i < rows.length := by
      have := (List.getElem?_eq_some_iff.mp hi).1; omega
    obtain ⟨gs2, hgs2, hwf2, _⟩ := forall₂_getElem? _ rows gss henc i rows[i]
      (List.getElem?_eq_getElem hi2)
    rw [hi] at hgs2
    simp only [Option.some.injEq] at hgs2
    rw [hgs2]
    have e : ((w + w % 2 : Nat) : Int) = (w : Int) + (w : Int) % 2 := by push_cast; rfl
    rw [← e]; exact hwf2
  have hv : (expandGroups gs)[c]? = some v := by
    obtain ⟨t, ht⟩ := hpre
    rw [← ht, List.getElem?_append_left (by
      have := hcols row (List.getElem?_mem hr); omega)]
    exact hc
  rw [← hlen]
  exact unpackImage_wellformed_mem map w gss tail (by omega) (by omega) (by omega) hs
    (by omega) hwf m r c gs v hgs hv (Or.inl (by omega))

/-- C6, witness: a 3 x 2 grid, rows padded and encoded by `packRow`, decoded
into a destination of stride 4; pixel (1, 2) reads back as 6. -/
theorem unpackImage_round_trip_witness :
    applyWrites (fun _ => 9)
      (unpackImage ⟨⟨4, 2⟩, fun _ => 9⟩ (3 : Nat)
        ([[1, 1, 1], [4, 5, 6]] : List (List Byte)).length
        (encodeRows [packRow (padRow [1, 1, 1]), packRow (padRow [4, 5, 6])] ++ [])).writes
      ((1 : Nat) * 4 + (2 : Nat)) = 6 :=
  unpackImage_round_trip ⟨⟨4, 2⟩, fun _ => 9⟩ 3 [[1, 1, 1], [4, 5, 6]]
    [packRow (padRow [1, 1, 1]), packRow (padRow [4, 5, 6])] [] (by decide) (by decide)
    (by decide) (by decide)
    (List.Forall₂.cons ⟨by decide, ⟨[0], by decide⟩⟩
      (List.Forall₂.cons ⟨by decide, ⟨[0], by decide⟩⟩ List.Forall₂.nil))
    (fun _ => 9) 1 2 [4, 5, 6] 6 rfl rfl

/-! ## Keyed copies -/

theorem applyWrites_of_mem_unique (m : Mem) (ws : List Write) (a : Int) (v : Byte)
    (hmem : (a, v) ∈ ws) (huniq : ∀ w ∈ ws, w.1 = a → w.2 = v) :
    applyWrites m ws a = v := by
  induction ws generalizing m with
  | nil => simp at hmem
  | cons w ws ih =>
    simp only [applyWrites]
    by_cases hex : ∃ w1 ∈ ws, w1.1 = a
    · obtain ⟨w1, hw1, ha⟩ := hex
      have hv : w1.2 = v := huniq w1 (List.mem_cons_of_mem _ hw1) ha
      have hw1eq : w1 = (a, v) := Prod.ext ha hv
      exact ih _ (hw1eq ▸ hw1) (fun w2 hw2 => huniq w2 (List.mem_cons_of_mem _ hw2))
    · rw [applyWrites_of_not_mem _ _ _ (fun w1 hw1 h => hex ⟨w1, hw1, h⟩)]
      rcases List.mem_cons.mp hmem with h | h
      · rw [← h]; simp
      · exact absurd ⟨(a, v), h, rfl⟩ hex

theorem stride_addr_inj (S c c2 r r2 : Int) (hc0 : 0 ≤ c) (hc : c < S) (hc20 : 0 ≤ c2)
    (hc2 : c2 < S) (h : r * S + c = r2 * S + c2) : r = r2 ∧ c = c2 := by
  have hr : r = r2 := by
    rcases lt_trichotomy r r2 with hlt | heq | hgt
    · have : (r + 1) * S ≤ r2 * S := mul_le_mul_of_nonneg_right (by omega) (by omega)
      have e : (r + 1) * S = r * S + S := by ring
      omega
    · exact heq
    · have : (r2 + 1) * S ≤ r * S := mul_le_mul_of_nonneg_right (by omega) (by omega)
      have e : (r2 + 1) * S = r2 * S + S := by ring
      omega
  subst hr
  exact ⟨rfl, by omega⟩

theorem mem_bltPixelsTRow (srcMem : Mem) :
    ∀ (n : Nat) (src dst : Int) (w : Write),
      w ∈ bltPixelsTRow srcMem n src dst ↔
        ∃ i : Nat, i < n ∧ srcMem (src + i) ≠ 0 ∧ w = (dst + i, srcMem (src + i)) := by
  intro n
  induction n with
  | zero => intro src dst w; simp [bltPixelsTRow]
  | succ n ih =>
    intro src dst w
    simp only [bltPixelsTRow, List.mem_append, ih]
    constructor
    · rintro (h | ⟨i, hi, hne, hw⟩)
      · split at h
        · simp at h
        · rename_i hc
          simp only [List.mem_singleton] at h
          exact ⟨0, by omega, by simpa using hc, by simpa using h⟩
      · refine ⟨i + 1, by omega, ?_, ?_⟩
        · have e : src + ((i + 1 : Nat) : Int) = src + 1 + i := by push_cast; ring
          rw [e]; exact hne
        · have e : src + ((i + 1 : Nat) : Int) = src + 1 + i := by push_cast; ring
          have e2 : dst + ((i + 1 : Nat) : Int) = dst + 1 + i := by push_cast; ring
          rw [e, e2]; exact hw
    · rintro ⟨i, hi, hne, hw⟩
      cases i with
      | zero =>
        left
        simp only [Nat.cast_zero, Int.add_zero] at hne hw
        rw [if_neg hne, hw]
        simp
      | succ i =>
        right
        have e : src + ((i + 1 : Nat) : Int) = src + 1 + i := by push_cast; ring
        have e2 : dst + ((i + 1 : Nat) : Int) = dst + 1 + i := by push_cast; ring
        rw [e] at hne hw
        rw [e2] at hw
        exact ⟨i, by omega, hne, hw⟩

theorem mem_bltPixelsTRows (srcMem : Mem) (srcMod dstMod width : Nat) :
    ∀ (n y0 : Nat) (w : Write),
      w ∈ bltPixelsTRows srcMem srcMod dstMod width n y0 ↔
        ∃ y x : Nat, y0 ≤ y ∧ y < y0 + n ∧ x < width ∧
          srcMem ((toUInt32 (srcMod * y) : Nat) + x) ≠ 0 ∧
          w = (((toUInt32 (dstMod * y) : Nat) : Int) + x,
                srcMem ((toUInt32 (srcMod * y) : Nat) + x)) := by
  intro n
  induction n with
  | zero => intro y0 w; simp [bltPixelsTRows]; intro y x h1 h2; omega
  | succ n ih =>
    intro y0 w
    simp only [bltPixelsTRows, List.mem_append, ih, mem_bltPixelsTRow]
    constructor
    · rintro (⟨x, hx, hne, hw⟩ | ⟨y, x, h1, h2, hx, hne, hw⟩)
      · exact ⟨y0, x, le_refl _, by omega, hx, hne, hw⟩
      · exact ⟨y, x, by omega, by omega, hx, hne, hw⟩
    · rintro ⟨y, x, h1, h2, hx, hne, hw⟩
      by_cases hy : y = y0
      · subst hy; exact Or.inl ⟨x, hx, hne, hw⟩
      · exact Or.inr ⟨y, x, by omega, by omega, hx, hne, hw⟩

/-! ## C9: `_BltPixelsT` -/

/-- C9. For source and destination regions of `width x height` pixels with
independent strides that fit (destination rows do not overlap, `width <= dstMod`,
and the row offsets fit 32 bits), `_BltPixelsT` leaves destination pixel
`(x, y)` at its prior value where source pixel `(x, y)` is 0 and sets it to the
source pixel where that is non-zero; every destination byte outside the
`width x height` region, stride padding included, is unchanged. -/
theorem bltPixelsT_keyed_copy (srcMem dstMem : Mem) (srcMod dstMod width height : Nat)
    (hw : width ≤ dstMod) (hs : srcMod * height < 4294967296)
    (hd : dstMod * height < 4294967296) :
    (∀ x y : Nat, x < width → y < height →
      applyWrites dstMem (_BltPixelsT srcMem srcMod dstMod width height)
          (((dstMod * y + x : Nat) : Int))
        = if srcMem ((srcMod * y + x : Nat) : Int) = 0
            then dstMem ((dstMod * y + x : Nat) : Int)
            else srcMem ((srcMod * y + x : Nat) : Int)) ∧
    (∀ a : Int, (¬ ∃ x y : Nat, x < width ∧ y < height ∧ a = ((dstMod * y + x : Nat) : Int)) →
      applyWrites dstMem (_BltPixelsT srcMem srcMod dstMod width height) a = dstMem a) := by
  have hwrap : ∀ (M y : Nat), y < height → M * height < 4294967296 →
      toUInt32 (M * y) = M * y := by
    intro M y hy hM
    have : M * y ≤ M * height := Nat.mul_le_mul_left _ (by omega)
    simp only [toUInt32]; omega
  have hchar : ∀ w : Write, w ∈ _BltPixelsT srcMem srcMod dstMod width height ↔
      ∃ y x : Nat, y < height ∧ x < width ∧ srcMem ((srcMod * y + x : Nat) : Int) ≠ 0 ∧
        w = (((dstMod * y + x : Nat) : Int), srcMem ((srcMod * y + x : Nat) : Int)) := by
    intro w
    unfold _BltPixelsT
    rw [mem_bltPixelsTRows]
    constructor
    · rintro ⟨y, x, _, hy, hx, hne, hw1⟩
      rw [hwrap srcMod y (by omega) hs] at hne hw1
      rw [hwrap dstMod y (by omega) hd] at hw1
      refine ⟨y, x, by omega, hx, ?_, ?_⟩
      · push_cast; exact hne
      · push_cast; exact hw1
    · rintro ⟨y, x, hy, hx, hne, hw1⟩
      refine ⟨y, x, by omega, by omega, hx, ?_, ?_⟩
      · rw [hwrap srcMod y hy hs]; push_cast at hne; exact hne
      · rw [hwrap srcMod y hy hs, hwrap dstMod y hy hd]; push_cast at hw1; exact hw1
  have hinj : ∀ x y x2 y2 : Nat, x < width → x2 < width →
      ((dstMod * y2 + x2 : Nat) : Int) = ((dstMod * y + x : Nat) : Int) → y2 = y ∧ x2 = x := by
    intro x y x2 y2 hx hx2 h
    have := stride_addr_inj dstMod x2 x y2 y (by omega) (by omega) (by omega) (by omega)
      (by push_cast at h; linarith)
    omega
  refine ⟨?_, ?_⟩
  · intro x y hx hy
    by_cases hsrc : srcMem ((srcMod * y + x : Nat) : Int) = 0
    · rw [if_pos hsrc]
      apply applyWrites_of_not_mem
      intro w hw1 ha
      obtain ⟨y2, x2, hy2, hx2, hne, rfl⟩ := (hchar w).mp hw1
      obtain ⟨rfl, rfl⟩ := hinj x y x2 y2 hx hx2 ha
      exact hne hsrc
    · rw [if_neg hsrc]
      apply applyWrites_of_mem_unique
      · exact (hchar _).mpr ⟨y, x, hy, hx, hsrc, rfl⟩
      · intro w hw1 ha
        obtain ⟨y2, x2, hy2, hx2, hne, rfl⟩ := (hchar w).mp hw1
        obtain ⟨rfl, rfl⟩ := hinj x y x2 y2 hx hx2 ha
        rfl
  · intro a hout
    apply applyWrites_of_not_mem
    intro w hw1 ha
    obtain ⟨y2, x2, hy2, hx2, hne, rfl⟩ := (hchar w).mp hw1
    exact hout ⟨x2, y2, hx2, hy2, ha.symm⟩

/-- C9, witness: a 2 x 2 region, source stride 3, destination stride 4, sentinel
9; source pixel (1, 0) is 0 and leaves the sentinel at index 1, source pixel
(0, 1) is 4 and is copied to index 4. -/
theorem bltPixelsT_keyed_copy_witness :
    applyWrites (fun _ => 9)
        (_BltPixelsT (fun i => [1, 0, 3, 4, 0, 6].getD i.toNat 0) 3 4 2 2) 1 = 9 ∧
    applyWrites (fun _ => 9)
        (_BltPixelsT (fun i => [1, 0, 3, 4, 0, 6].getD i.toNat 0) 3 4 2 2) 4 = 4 :=
  ⟨(bltPixelsT_keyed_copy (fun i => [1, 0, 3, 4, 0, 6].getD i.toNat 0) (fun _ => 9) 3 4 2 2
      (by decide) (by decide) (by decide)).1 1 0 (by decide) (by decide),
   (bltPixelsT_keyed_copy (fun i => [1, 0, 3, 4, 0, 6].getD i.toNat 0) (fun _ => 9) 3 4 2 2
      (by decide) (by decide) (by decide)).1 0 1 (by decide) (by decide)⟩

/-! ## C10: `compositePixels` -/

theorem mem_compositePixelsRow (sprData : Mem) (lookup : Byte → Byte) :
    ∀ (n : Nat) (srcPtr dstPtr : Int) (w : Write),
      w ∈ compositePixelsRow sprData lookup n srcPtr dstPtr ↔
        ∃ i : Nat, i < n ∧ sprData (srcPtr + i) ≠ 0 ∧
          w = (dstPtr + i, lookup (sprData (srcPtr + i))) := by
  intro n
  induction n with
  | zero => intro srcPtr dstPtr w; simp [compositePixelsRow]
  | succ n ih =>
    intro srcPtr dstPtr w
    simp only [compositePixelsRow, List.mem_append, ih]
    have e : ∀ i : Nat, srcPtr + ((i + 1 : Nat) : Int) = srcPtr + 1 + i := by
      intro i; push_cast; ring
    have e2 : ∀ i : Nat, dstPtr + ((i + 1 : Nat) : Int) = dstPtr + 1 + i := by
      intro i; push_cast; ring
    constructor
    · rintro (h | ⟨i, hi, hne, hw⟩)
      · split at h
        · simp at h
        · rename_i hc
          simp only [List.mem_singleton] at h
          exact ⟨0, by omega, by simpa using hc, by simpa using h⟩
      · exact ⟨i + 1, by omega, by rw [e]; exact hne, by rw [e, e2]; exact hw⟩
    · rintro ⟨i, hi, hne, hw⟩
      cases i with
      | zero =>
        left
        simp only [Nat.cast_zero, Int.add_zero] at hne hw
        rw [if_neg hne, hw]
        simp
      | succ i =>
        right
        rw [e] at hne hw
        rw [e2] at hw
        exact ⟨i, by omega, hne, hw⟩

theorem mem_compositePixelsRows (sprMap : gPixelMap) (lookup : Byte → Byte) (rowMod : Int) :
    ∀ (n : Nat) (srcPtr dstPtr : Int) (w : Write),
      w ∈ compositePixelsRows sprMap lookup rowMod n srcPtr dstPtr ↔
        ∃ r c : Nat, r < n ∧ c < sprMap.size.x.toNat ∧
          sprMap.data (srcPtr + r * sprMap.size.x.toNat + c) ≠ 0 ∧
          w = (dstPtr + r * (sprMap.size.x.toNat + rowMod) + c,
                lookup (sprMap.data (srcPtr + r * sprMap.size.x.toNat + c))) := by
  intro n
  induction n with
  | zero => intro srcPtr dstPtr w; simp [compositePixelsRows]
  | succ n ih =>
    intro srcPtr dstPtr w
    simp only [compositePixelsRows, List.mem_append, ih, mem_compositePixelsRow]
    have e : ∀ r : Nat, srcPtr + ((r + 1 : Nat) : Int) * (sprMap.size.x.toNat : Int)
        = srcPtr + sprMap.size.x.toNat + r * sprMap.size.x.toNat := by
      intro r; push_cast; ring
    have e2 : ∀ r : Nat, dstPtr + ((r + 1 : Nat) : Int) * ((sprMap.size.x.toNat : Int) + rowMod)
        = dstPtr + sprMap.size.x.toNat + rowMod + r * (sprMap.size.x.toNat + rowMod) := by
      intro r; push_cast; ring
    constructor
    · rintro (⟨c, hc, hne, hw⟩ | ⟨r, c, hr, hc, hne, hw⟩)
      · refine ⟨0, c, by omega, hc, ?_, ?_⟩
        · simpa using hne
        · simpa using hw
      · exact ⟨r + 1, c, by omega, hc, by rw [e]; exact hne, by rw [e, e2]; exact hw⟩
    · rintro ⟨r, c, hr, hc, hne, hw⟩
      cases r with
      | zero =>
        left
        refine ⟨c, hc, ?_, ?_⟩
        · simpa using hne
        · simpa using hw
      | succ r =>
        right
        rw [e] at hne hw
        rw [e2] at hw
        exact ⟨r, c, by omega, hc, hne, hw⟩

/-- C10. For every destination of width `dw`, sprite of size `sw x sh` with
`0 <= sw <= dw`, lookup table and placement `(x, y)`, `compositePixels` sets
destination pixel `(x + c, y + r)` to `lookup[s]` for every sprite pixel `s` at
`(c, r)` with `s != 0`, leaves it unchanged where `s == 0`, and leaves every
destination byte outside the `sw x sh` footprint unchanged. -/
theorem compositePixels_footprint (compMap sprMap : gPixelMap) (xpos ypos : Int)
    (lookup : Byte → Byte)
    (hsw : 0 ≤ sprMap.size.x) (hfit : sprMap.size.x ≤ compMap.size.x)
    (hdw : compMap.size.x ≤ 32767) :
    (∀ r c : Nat, (r : Int) < sprMap.size.y → (c : Int) < sprMap.size.x →
      applyWrites compMap.data (compositePixels compMap sprMap xpos ypos lookup)
          ((ypos + r) * compMap.size.x + (xpos + c))
        = if sprMap.data (r * sprMap.size.x + c) = 0
            then compMap.data ((ypos + r) * compMap.size.x + (xpos + c))
            else lookup (sprMap.data (r * sprMap.size.x + c))) ∧
    (∀ a : Int,
      (¬ ∃ r c : Nat, (r : Int) < sprMap.size.y ∧ (c : Int) < sprMap.size.x ∧
        a = (ypos + r) * compMap.size.x + (xpos + c)) →
      applyWrites compMap.data (compositePixels compMap sprMap xpos ypos lookup) a
        = compMap.data a) := by
  have hsx : (sprMap.size.x.toNat : Int) = sprMap.size.x := Int.toNat_of_nonneg hsw
  have hrm : toInt16 (compMap.size.x - sprMap.size.x) = compMap.size.x - sprMap.size.x := by
    simp only [toInt16]; omega
  have hchar : ∀ w : Write, w ∈ compositePixels compMap sprMap xpos ypos lookup ↔
      ∃ r c : Nat, (r : Int) < sprMap.size.y ∧ (c : Int) < sprMap.size.x ∧
        sprMap.data (r * sprMap.size.x + c) ≠ 0 ∧
        w = ((ypos + r) * compMap.size.x + (xpos + c),
              lookup (sprMap.data (r * sprMap.size.x + c))) := by
    intro w
    unfold compositePixels
    simp only [hrm]
    rw [mem_compositePixelsRows]
    simp only [hsx]
    have ea : ∀ r c : Nat, xpos + ypos * compMap.size.x
          + (r : Int) * (sprMap.size.x + (compMap.size.x - sprMap.size.x)) + c
        = (ypos + r) * compMap.size.x + (xpos + c) := by
      intro r c; ring
    have es : ∀ r c : Nat, (0 : Int) + (r : Int) * sprMap.size.x + c
        = r * sprMap.size.x + c := by
      intro r c; ring
    simp only [ea, es]
    constructor
    · rintro ⟨r, c, hr, hc, hne, hw⟩
      exact ⟨r, c, by omega, by omega, hne, hw⟩
    · rintro ⟨r, c, hr, hc, hne, hw⟩
      exact ⟨r, c, by omega, by omega, hne, hw⟩
  have hinj : ∀ r c r2 c2 : Nat, (c : Int) < sprMap.size.x → (c2 : Int) < sprMap.size.x →
      (ypos + r2) * compMap.size.x + (xpos + c2) = (ypos + r) * compMap.size.x + (xpos + c) →
      r2 = r ∧ c2 = c := by
    intro r c r2 c2 hc hc2 h
    have := stride_addr_inj compMap.size.x c2 c (ypos + r2) (ypos + r) (by omega) (by omega)
      (by omega) (by omega) (by linarith)
    omega
  refine ⟨?_, ?_⟩
  · intro r c hr hc
    by_cases hsrc : sprMap.data (r * sprMap.size.x + c) = 0
    · rw [if_pos hsrc]
      apply applyWrites_of_not_mem
      intro w hw1 ha
      obtain ⟨r2, c2, hr2, hc2, hne, rfl⟩ := (hchar w).mp hw1
      obtain ⟨rfl, rfl⟩ := hinj r c r2 c2 hc hc2 ha
      exact hne hsrc
    · rw [if_neg hsrc]
      apply applyWrites_of_mem_unique
      · exact (hchar _).mpr ⟨r, c, hr, hc, hsrc, rfl⟩
      · intro w hw1 ha
        obtain ⟨r2, c2, hr2, hc2, hne, rfl⟩ := (hchar w).mp hw1
        obtain ⟨rfl, rfl⟩ := hinj r c r2 c2 hc hc2 ha
        rfl
  · intro a hout
    apply applyWrites_of_not_mem
    intro w hw1 ha
    obtain ⟨r2, c2, hr2, hc2, hne, rfl⟩ := (hchar w).mp hw1
    exact hout ⟨r2, c2, hr2, hc2, ha.symm⟩

/-- C10, witness: a 2 x 2 sprite `1 0 / 3 4` placed at (1, 1) on a 4 x 4
destination filled with 9, lookup `b + 10`; sprite pixel (0, 1) is 3 and lands
as 13 at destination pixel (1, 2), index 9; sprite pixel (1, 0) is 0 and leaves
the 9 at destination pixel (2, 1), index 6. -/
theorem compositePixels_footprint_witness :
    applyWrites (fun _ => 9)
        (compositePixels ⟨⟨4, 4⟩, fun _ => 9⟩
          ⟨⟨2, 2⟩, fun i => [1, 0, 3, 4].getD i.toNat 0⟩ 1 1 (fun b => b + 10)) 9 = 13 ∧
    applyWrites (fun _ => 9)
        (compositePixels ⟨⟨4, 4⟩, fun _ => 9⟩
          ⟨⟨2, 2⟩, fun i => [1, 0, 3, 4].getD i.toNat 0⟩ 1 1 (fun b => b + 10)) 6 = 9 :=
  ⟨(compositePixels_footprint ⟨⟨4, 4⟩, fun _ => 9⟩
      ⟨⟨2, 2⟩, fun i => [1, 0, 3, 4].getD i.toNat 0⟩ 1 1 (fun b => b + 10)
      (by decide) (by decide) (by decide)).1 1 0 (by decide) (by decide),
   (compositePixels_footprint ⟨⟨4, 4⟩, fun _ => 9⟩
      ⟨⟨2, 2⟩, fun i => [1, 0, 3, 4].getD i.toNat 0⟩ 1 1 (fun b => b + 10)
      (by decide) (by decide) (by decide)).1 0 1 (by decide) (by decide)⟩

/-! ## Fills and opaque copies -/

theorem mem_memcpy_iff {d : Int} {bs : List Byte} {w : Write} :
    w ∈ memcpy d bs ↔ ∃ i : Nat, bs[i]? = some w.2 ∧ w.1 = d + i := by
  induction bs generalizing d with
  | nil => simp [memcpy]
  | cons b bs ih =>
    simp only [memcpy, List.mem_cons, ih]
    constructor
    · rintro (h | ⟨i, hi, hw⟩)
      · exact ⟨0, by simp [h], by simp [h]⟩
      · exact ⟨i + 1, by simpa using hi, by rw [hw]; push_cast; ring⟩
    · rintro ⟨i, hi, hw⟩
      cases i with
      | zero =>
        left
        simp only [List.getElem?_cons_zero, Option.some.injEq] at hi
        exact Prod.ext (by simpa using hw) hi.symm
      | succ i =>
        right
        exact ⟨i, by simpa using hi, by rw [hw]; push_cast; ring⟩

theorem mem_memset_iff {d : Int} {v : Byte} {n : Nat} {w : Write} :
    w ∈ memset d v n ↔ ∃ i : Nat, i < n ∧ w = (d + i, v) := by
  unfold memset
  rw [mem_memcpy_iff]
  constructor
  · rintro ⟨i, hi, hw⟩
    have hlt : i < n := by
      by_contra hge
      rw [List.getElem?_eq_none (by simp; omega)] at hi
      exact Option.noConfusion hi
    rw [List.getElem?_replicate, if_pos hlt] at hi
    exact ⟨i, hlt, Prod.ext hw (Option.some.inj hi).symm⟩
  · rintro ⟨i, hi, rfl⟩
    exact ⟨i, by rw [List.getElem?_replicate, if_pos hi], rfl⟩

theorem mem_fillRectRows (dstMod width color : Nat) :
    ∀ (n : Nat) (dstPtr : Int) (w : Write),
      w ∈ fillRectRows dstMod width color n dstPtr ↔
        ∃ y x : Nat, y < n ∧ x < width ∧
          w = (dstPtr + dstMod * y + x, Byte.ofNat color) := by
  intro n
  induction n with
  | zero => intro dstPtr w; simp [fillRectRows]
  | succ n ih =>
    intro dstPtr w
    simp only [fillRectRows, List.mem_append, ih, mem_memset_iff]
    have e : ∀ y : Nat, dstPtr + (dstMod : Int) * ((y + 1 : Nat) : Int)
        = dstPtr + dstMod + dstMod * y := by
      intro y; push_cast; ring
    constructor
    · rintro (⟨x, hx, hw⟩ | ⟨y, x, hy, hx, hw⟩)
      · exact ⟨0, x, by omega, hx, by simpa using hw⟩
      · exact ⟨y + 1, x, by omega, hx, by rw [e]; exact hw⟩
    · rintro ⟨y, x, hy, hx, hw⟩
      cases y with
      | zero => exact Or.inl ⟨x, hx, by simpa using hw⟩
      | succ y =>
        rw [e] at hw
        exact Or.inr ⟨y, x, by omega, hx, hw⟩

/-! ## C13: `_FillRect` -/

/-- C13. After `_FillRect` every pixel `(x, y)` with `x < width` and
`y < height` reads back as the colour (its low eight bits), for every stride;
every byte that is no such pixel keeps its pre-fill value, in particular the
stride padding (columns `width .. dstMod - 1` of any row) and every byte beyond
the last row. -/
theorem fillRect_fills_exactly (dstMem : Mem) (dstMod width height color : Nat) :
    (∀ x y : Nat, x < width → y < height →
      applyWrites dstMem (_FillRect dstMod width height color) ((dstMod * y + x : Nat) : Int)
        = Byte.ofNat color) ∧
    (∀ a : Int, (¬ ∃ x y : Nat, x < width ∧ y < height ∧ a = ((dstMod * y + x : Nat) : Int)) →
      applyWrites dstMem (_FillRect dstMod width height color) a = dstMem a) ∧
    (∀ x y : Nat, width ≤ x → x < dstMod →
      applyWrites dstMem (_FillRect dstMod width height color) ((dstMod * y + x : Nat) : Int)
        = dstMem ((dstMod * y + x : Nat) : Int)) ∧
    (∀ a : Int, ((dstMod * height : Nat) : Int) ≤ a → width ≤ dstMod →
      applyWrites dstMem (_FillRect dstMod width height color) a = dstMem a) := by
  have hchar : ∀ w : Write, w ∈ _FillRect dstMod width height color ↔
      ∃ y x : Nat, y < height ∧ x < width ∧
        w = (((dstMod * y + x : Nat) : Int), Byte.ofNat color) := by
    intro w
    unfold _FillRect
    rw [mem_fillRectRows]
    constructor
    · rintro ⟨y, x, hy, hx, hw⟩
      exact ⟨y, x, hy, hx, by rw [hw]; push_cast; simp⟩
    · rintro ⟨y, x, hy, hx, hw⟩
      exact ⟨y, x, hy, hx, by rw [hw]; push_cast; simp⟩
  have hframe : ∀ a : Int,
      (¬ ∃ x y : Nat, x < width ∧ y < height ∧ a = ((dstMod * y + x : Nat) : Int)) →
      applyWrites dstMem (_FillRect dstMod width height color) a = dstMem a := by
    intro a hout
    apply applyWrites_of_not_mem
    intro w hw ha
    obtain ⟨y, x, hy, hx, rfl⟩ := (hchar w).mp hw
    exact hout ⟨x, y, hx, hy, ha.symm⟩
  refine ⟨?_, hframe, ?_, ?_⟩
  · intro x y hx hy
    apply applyWrites_of_mem_unique
    · exact (hchar _).mpr ⟨y, x, hy, hx, rfl⟩
    · intro w hw _
      obtain ⟨y2, x2, _, _, rfl⟩ := (hchar w).mp hw
      rfl
  · intro x y hwx hxd
    apply hframe
    rintro ⟨x2, y2, hx2, _, h⟩
    have := stride_addr_inj dstMod x x2 y y2 (by omega) (by omega) (by omega) (by omega)
      (by push_cast at h; linarith)
    omega
  · intro a ha hwd
    apply hframe
    rintro ⟨x2, y2, hx2, hy2, h⟩
    have h1 : dstMod * (y2 + 1) ≤ dstMod * height := Nat.mul_le_mul_left _ (by omega)
    have h2 : dstMod * (y2 + 1) = dstMod * y2 + dstMod := by ring
    have h3 : ((dstMod * height : Nat) : Int) ≤ ((dstMod * y2 + x2 : Nat) : Int) := by
      rw [← h]; exact ha
    have h4 : dstMod * height ≤ dstMod * y2 + x2 := by exact_mod_cast h3
    omega

/-- C13, the spec's instance: stride 12, width 10, height 5, colour 7 on a
destination filled with 9; pixel (9, 4) reads 7, the padding byte at column 10
of row 4 and the byte after the last row still read 9. -/
theorem fillRect_fills_exactly_witness :
    applyWrites (fun _ => 9) (_FillRect 12 10 5 7) ((12 * 4 + 9 : Nat) : Int) = Byte.ofNat 7 ∧
    applyWrites (fun _ => 9) (_FillRect 12 10 5 7) ((12 * 4 + 10 : Nat) : Int) = 9 ∧
    applyWrites (fun _ => 9) (_FillRect 12 10 5 7) 60 = 9 :=
  ⟨(fillRect_fills_exactly (fun _ => 9) 12 10 5 7).1 9 4 (by decide) (by decide),
   (fillRect_fills_exactly (fun _ => 9) 12 10 5 7).2.2.1 10 4 (by decide) (by decide),
   (fillRect_fills_exactly (fun _ => 9) 12 10 5 7).2.2.2 60 (by decide) (by decide)⟩

theorem mem_bltPixelsRow (srcMem : Mem) :
    ∀ (n : Nat) (src dst : Int) (w : Write),
      w ∈ bltPixelsRow srcMem n src dst ↔
        ∃ i : Nat, i < n ∧ w = (dst + i, srcMem (src + i)) := by
  intro n
  induction n with
  | zero => intro src dst w; simp [bltPixelsRow]
  | succ n ih =>
    intro src dst w
    simp only [bltPixelsRow, List.mem_cons, ih]
    have e : ∀ i : Nat, src + ((i + 1 : Nat) : Int) = src + 1 + i := by
      intro i; push_cast; ring
    have e2 : ∀ i : Nat, dst + ((i + 1 : Nat) : Int) = dst + 1 + i := by
      intro i; push_cast; ring
    constructor
    · rintro (h | ⟨i, hi, hw⟩)
      · exact ⟨0, by omega, by simpa using h⟩
      · exact ⟨i + 1, by omega, by rw [e, e2]; exact hw⟩
    · rintro ⟨i, hi, hw⟩
      cases i with
      | zero => left; simpa using hw
      | succ i =>
        right
        rw [e, e2] at hw
        exact ⟨i, by omega, hw⟩

theorem mem_bltPixelsRows (srcMem : Mem) (srcMod dstMod width : Nat) :
    ∀ (n y0 : Nat) (w : Write),
      w ∈ bltPixelsRows srcMem srcMod dstMod width n y0 ↔
        ∃ y x : Nat, y0 ≤ y ∧ y < y0 + n ∧ x < width ∧
          w = (((toUInt32 (dstMod * y) : Nat) : Int) + x,
                srcMem ((toUInt32 (srcMod * y) : Nat) + x)) := by
  intro n
  induction n with
  | zero => intro y0 w; simp [bltPixelsRows]; intro y x h1 h2; omega
  | succ n ih =>
    intro y0 w
    simp only [bltPixelsRows, List.mem_append, ih, mem_bltPixelsRow]
    constructor
    · rintro (⟨x, hx, hw⟩ | ⟨y, x, h1, h2, hx, hw⟩)
      · exact ⟨y0, x, le_refl _, by omega, hx, hw⟩
      · exact ⟨y, x, by omega, by omega, hx, hw⟩
    · rintro ⟨y, x, h1, h2, hx, hw⟩
      by_cases hy : y = y0
      · subst hy; exact Or.inl ⟨x, hx, hw⟩
      · exact Or.inr ⟨y, x, by omega, by omega, hx, hw⟩

/-! ## C14: `_BltPixels` -/

/-- C14. For source and destination regions of `width x height` pixels with
independent strides that fit (destination rows do not overlap, `width <= dstMod`,
and the row offsets fit 32 bits), after `_BltPixels` destination byte
`dstMod * y + x` equals source byte `srcMod * y + x` for all `x < width`,
`y < height`, zero source bytes included, and every other destination byte is
unchanged. -/
theorem bltPixels_opaque_copy (srcMem dstMem : Mem) (srcMod dstMod width height : Nat)
    (hw : width ≤ dstMod) (hs : srcMod * height < 4294967296)
    (hd : dstMod * height < 4294967296) :
    (∀ x y : Nat, x < width → y < height →
      applyWrites dstMem (_BltPixels srcMem srcMod dstMod width height)
          (((dstMod * y + x : Nat) : Int))
        = srcMem ((srcMod * y + x : Nat) : Int)) ∧
    (∀ a : Int, (¬ ∃ x y : Nat, x < width ∧ y < height ∧ a = ((dstMod * y + x : Nat) : Int)) →
      applyWrites dstMem (_BltPixels srcMem srcMod dstMod width height) a = dstMem a) := by
  have hwrap : ∀ (M y : Nat), y < height → M * height < 4294967296 →
      toUInt32 (M * y) = M * y := by
    intro M y hy hM
    have : M * y ≤ M * height := Nat.mul_le_mul_left _ (by omega)
    simp only [toUInt32]; omega
  have hchar : ∀ w : Write, w ∈ _BltPixels srcMem srcMod dstMod width height ↔
      ∃ y x : Nat, y < height ∧ x < width ∧
        w = (((dstMod * y + x : Nat) : Int), srcMem ((srcMod * y + x : Nat) : Int)) := by
    intro w
    unfold _BltPixels
    rw [mem_bltPixelsRows]
    constructor
    · rintro ⟨y, x, _, hy, hx, hw1⟩
      rw [hwrap srcMod y (by omega) hs, hwrap dstMod y (by omega) hd] at hw1
      exact ⟨y, x, by omega, hx, by push_cast; exact hw1⟩
    · rintro ⟨y, x, hy, hx, hw1⟩
      refine ⟨y, x, by omega, by omega, hx, ?_⟩
      rw [hwrap srcMod y hy hs, hwrap dstMod y hy hd]; push_cast at hw1; exact hw1
  have hinj : ∀ x y x2 y2 : Nat, x < width → x2 < width →
      ((dstMod * y2 + x2 : Nat) : Int) = ((dstMod * y + x : Nat) : Int) → y2 = y ∧ x2 = x := by
    intro x y x2 y2 hx hx2 h
    have := stride_addr_inj dstMod x2 x y2 y (by omega) (by omega) (by omega) (by omega)
      (by push_cast at h; linarith)
    omega
  refine ⟨?_, ?_⟩
  · intro x y hx hy
    apply applyWrites_of_mem_unique
    · exact (hchar _).mpr ⟨y, x, hy, hx, rfl⟩
    · intro w hw1 ha
      obtain ⟨y2, x2, hy2, hx2, rfl⟩ := (hchar w).mp hw1
      obtain ⟨rfl, rfl⟩ := hinj x y x2 y2 hx hx2 ha
      rfl
  · intro a hout
    apply applyWrites_of_not_mem
    intro w hw1 ha
    obtain ⟨y2, x2, hy2, hx2, rfl⟩ := (hchar w).mp hw1
    exact hout ⟨x2, y2, hx2, hy2, ha.symm⟩

/-- C14, witness: a 2 x 2 region, source stride 3, destination stride 4 on a
destination filled with 9; the zero source pixel (1, 0) is copied to index 1
and source pixel (0, 1) = 4 to index 4. -/
theorem bltPixels_opaque_copy_witness :
    applyWrites (fun _ => 9)
        (_BltPixels (fun i => [1, 0, 3, 4, 0, 6].getD i.toNat 0) 3 4 2 2) 1 = 0 ∧
    applyWrites (fun _ => 9)
        (_BltPixels (fun i => [1, 0, 3, 4, 0, 6].getD i.toNat 0) 3 4 2 2) 4 = 4 :=
  ⟨(bltPixels_opaque_copy (fun i => [1, 0, 3, 4, 0, 6].getD i.toNat 0) (fun _ => 9) 3 4 2 2
      (by decide) (by decide) (by decide)).1 1 0 (by decide) (by decide),
   (bltPixels_opaque_copy (fun i => [1, 0, 3, 4, 0, 6].getD i.toNat 0) (fun _ => 9) 3 4 2 2
      (by decide) (by decide) (by decide)).1 0 1 (by decide) (by decide)⟩

/-! ## Composites -/

theorem applyWrites_eq_of_same_mem (m : Mem) (ws1 ws2 : List Write)
    (hsame : ∀ w : Write, w ∈ ws1 ↔ w ∈ ws2)
    (hfun : ∀ w1 ∈ ws1, ∀ w2 ∈ ws1, w1.1 = w2.1 → w1.2 = w2.2) :
    ∀ a : Int, applyWrites m ws1 a = applyWrites m ws2 a := by
  intro a
  by_cases hex : ∃ w ∈ ws1, w.1 = a
  · obtain ⟨w, hw, ha⟩ := hex
    have hmem : (a, w.2) ∈ ws1 := by rw [← ha]; exact hw
    rw [applyWrites_of_mem_unique m ws1 a w.2 hmem
        (fun w2 hw2 h2 => hfun w2 hw2 w hw (by rw [h2, ha])),
      applyWrites_of_mem_unique m ws2 a w.2 ((hsame _).mp hmem)
        (fun w2 hw2 h2 => hfun w2 ((hsame _).mpr hw2) w hw (by rw [h2, ha]))]
  · rw [applyWrites_of_not_mem m ws1 a (fun w hw h => hex ⟨w, hw, h⟩),
      applyWrites_of_not_mem m ws2 a (fun w hw h => hex ⟨w, (hsame _).mpr hw, h⟩)]

theorem mem_compositePixels (compMap sprMap : gPixelMap) (xpos ypos : Int)
    (lookup : Byte → Byte) (hsw : 0 ≤ sprMap.size.x)
    (hrm : toInt16 (compMap.size.x - sprMap.size.x) = compMap.size.x - sprMap.size.x) :
    ∀ w : Write, w ∈ compositePixels compMap sprMap xpos ypos lookup ↔
      ∃ r c : Nat, (r : Int) < sprMap.size.y ∧ (c : Int) < sprMap.size.x ∧
        sprMap.data (r * sprMap.size.x + c) ≠ 0 ∧
        w = ((ypos + r) * compMap.size.x + (xpos + c),
              lookup (sprMap.data (r * sprMap.size.x + c))) := by
  have hsx : (sprMap.size.x.toNat : Int) = sprMap.size.x := Int.toNat_of_nonneg hsw
  intro w
  unfold compositePixels
  simp only [hrm]
  rw [mem_compositePixelsRows]
  simp only [hsx]
  have ea : ∀ r c : Nat, xpos + ypos * compMap.size.x
        + (r : Int) * (sprMap.size.x + (compMap.size.x - sprMap.size.x)) + c
      = (ypos + r) * compMap.size.x + (xpos + c) := by
    intro r c; ring
  have es : ∀ r c : Nat, (0 : Int) + (r : Int) * sprMap.size.x + c
      = r * sprMap.size.x + c := by
    intro r c; ring
  simp only [ea, es]
  constructor
  · rintro ⟨r, c, hr, hc, hne, hw⟩
    exact ⟨r, c, by omega, by omega, hne, hw⟩
  · rintro ⟨r, c, hr, hc, hne, hw⟩
    exact ⟨r, c, by omega, by omega, hne, hw⟩

theorem mem_compositePixelsRvsRow (sprData : Mem) (lookup : Byte → Byte) :
    ∀ (n : Nat) (srcPtr dstPtr : Int) (w : Write),
      w ∈ compositePixelsRvsRow sprData lookup n srcPtr dstPtr ↔
        ∃ i : Nat, i < n ∧ sprData (srcPtr - 1 - i) ≠ 0 ∧
          w = (dstPtr + i, lookup (sprData (srcPtr - 1 - i))) := by
  intro n
  induction n with
  | zero => intro srcPtr dstPtr w; simp [compositePixelsRvsRow]
  | succ n ih =>
    intro srcPtr dstPtr w
    simp only [compositePixelsRvsRow, List.mem_append, ih]
    have e : ∀ i : Nat, srcPtr - 1 - ((i + 1 : Nat) : Int) = srcPtr - 1 - 1 - i := by
      intro i; push_cast; ring
    have e2 : ∀ i : Nat, dstPtr + ((i + 1 : Nat) : Int) = dstPtr + 1 + i := by
      intro i; push_cast; ring
    constructor
    · rintro (h | ⟨i, hi, hne, hw⟩)
      · split at h
        · simp at h
        · rename_i hc
          simp only [List.mem_singleton] at h
          exact ⟨0, by omega, by simpa using hc, by simpa using h⟩
      · exact ⟨i + 1, by omega, by rw [e]; exact hne, by rw [e, e2]; exact hw⟩
    · rintro ⟨i, hi, hne, hw⟩
      cases i with
      | zero =>
        left
        simp only [Nat.cast_zero, Int.sub_zero, Int.add_zero] at hne hw
        rw [if_neg hne, hw]
        simp
      | succ i =>
        right
        rw [e] at hne hw
        rw [e2] at hw
        exact ⟨i, by omega, hne, hw⟩

theorem mem_compositePixelsRvsRows (sprMap : gPixelMap) (lookup : Byte → Byte) (rowMod : Int) :
    ∀ (n : Nat) (srcPtr dstPtr : Int) (w : Write),
      w ∈ compositePixelsRvsRows sprMap lookup rowMod n srcPtr dstPtr ↔
        ∃ r c : Nat, r < n ∧ c < sprMap.size.x.toNat ∧
          sprMap.data (srcPtr - r * sprMap.size.x.toNat - 1 - c) ≠ 0 ∧
          w = (dstPtr - rowMod - r * (rowMod - sprMap.size.x.toNat) + c,
                lookup (sprMap.data (srcPtr - r * sprMap.size.x.toNat - 1 - c))) := by
  intro n
  induction n with
  | zero => intro srcPtr dstPtr w; simp [compositePixelsRvsRows]
  | succ n ih =>
    intro srcPtr dstPtr w
    simp only [compositePixelsRvsRows, List.mem_append, ih, mem_compositePixelsRvsRow]
    have e : ∀ r : Nat, srcPtr - ((r + 1 : Nat) : Int) * (sprMap.size.x.toNat : Int)
        = srcPtr - sprMap.size.x.toNat - r * sprMap.size.x.toNat := by
      intro r; push_cast; ring
    have e2 : ∀ r : Nat,
        dstPtr - rowMod - ((r + 1 : Nat) : Int) * (rowMod - (sprMap.size.x.toNat : Int))
        = dstPtr - rowMod + sprMap.size.x.toNat - rowMod
            - r * (rowMod - sprMap.size.x.toNat) := by
      intro r; push_cast; ring
    constructor
    · rintro (⟨c, hc, hne, hw⟩ | ⟨r, c, hr, hc, hne, hw⟩)
      · refine ⟨0, c, by omega, hc, ?_, ?_⟩
        · simpa using hne
        · simpa using hw
      · exact ⟨r + 1, c, by omega, hc, by rw [e]; exact hne, by rw [e, e2]; exact hw⟩
    · rintro ⟨r, c, hr, hc, hne, hw⟩
      cases r with
      | zero =>
        left
        refine ⟨c, hc, ?_, ?_⟩
        · simpa using hne
        · simpa using hw
      | succ r =>
        right
        rw [e] at hne hw
        rw [e2] at hw
        exact ⟨r, c, by omega, hc, hne, hw⟩

/-- The stores of `compositePixelsRvs`: sprite pixel `(row r, column sw - 1 - c)`,
when non-zero, goes through the lookup to destination row `ypos + r`, column
`xpos - sw + c`. -/
theorem mem_compositePixelsRvs (compMap sprMap : gPixelMap) (xpos ypos : Int)
    (lookup : Byte → Byte) (hsw : 0 ≤ sprMap.size.x)
    (hrm : toInt16 (compMap.size.x + sprMap.size.x) = compMap.size.x + sprMap.size.x) :
    ∀ w : Write, w ∈ compositePixelsRvs compMap sprMap xpos ypos lookup ↔
      ∃ r c : Nat, (r : Int) < sprMap.size.y ∧ (c : Int) < sprMap.size.x ∧
        sprMap.data (r * sprMap.size.x + (sprMap.size.x - 1 - c)) ≠ 0 ∧
        w = ((ypos + r) * compMap.size.x + (xpos - sprMap.size.x + c),
              lookup (sprMap.data (r * sprMap.size.x + (sprMap.size.x - 1 - c)))) := by
  have hsx : (sprMap.size.x.toNat : Int) = sprMap.size.x := Int.toNat_of_nonneg hsw
  intro w
  unfold compositePixelsRvs
  simp only [hrm, gPixelMap.bytes]
  rw [mem_compositePixelsRvsRows]
  simp only [hsx]
  constructor
  · rintro ⟨r, c, hr, hc, hne, hw⟩
    have hr2 : (r : Int) < sprMap.size.y := by omega
    obtain ⟨q, hq⟩ : ∃ q : Nat, (q : Int) = sprMap.size.y - 1 - r :=
      ⟨(sprMap.size.y - 1 - r).toNat, by omega⟩
    have es : sprMap.size.x * sprMap.size.y - (r : Int) * sprMap.size.x - 1 - c
        = q * sprMap.size.x + (sprMap.size.x - 1 - c) := by rw [hq]; ring
    have ea : xpos + (ypos + sprMap.size.y) * compMap.size.x
          - (compMap.size.x + sprMap.size.x)
          - (r : Int) * (compMap.size.x + sprMap.size.x - sprMap.size.x) + c
        = (ypos + q) * compMap.size.x + (xpos - sprMap.size.x + c) := by rw [hq]; ring
    rw [es] at hne hw
    rw [ea] at hw
    exact ⟨q, c, by omega, by omega, hne, hw⟩
  · rintro ⟨q, c, hq, hc, hne, hw⟩
    obtain ⟨r, hr⟩ : ∃ r : Nat, (r : Int) = sprMap.size.y - 1 - q :=
      ⟨(sprMap.size.y - 1 - q).toNat, by omega⟩
    have es : sprMap.size.x * sprMap.size.y - (r : Int) * sprMap.size.x - 1 - c
        = q * sprMap.size.x + (sprMap.size.x - 1 - c) := by rw [hr]; ring
    have ea : xpos + (ypos + sprMap.size.y) * compMap.size.x
          - (compMap.size.x + sprMap.size.x)
          - (r : Int) * (compMap.size.x + sprMap.size.x - sprMap.size.x) + c
        = (ypos + q) * compMap.size.x + (xpos - sprMap.size.x + c) := by rw [hr]; ring
    refine ⟨r, c, by omega, by omega, ?_, ?_⟩
    · rw [es]; exact hne
    · rw [es, ea]; exact hw

theorem hflip_data (s : gPixelMap) (r c : Nat) (hc : (c : Int) < s.size.x) :
    (hflip s).data (r * s.size.x + (s.size.x - 1 - c)) = s.data (r * s.size.x + c) := by
  have hpos : 0 < s.size.x := by omega
  have h1 : ((r : Int) * s.size.x + (s.size.x - 1 - c)) / s.size.x = r := by
    rw [Int.add_comm, Int.add_mul_ediv_right _ _ (by omega),
      Int.ediv_eq_zero_of_lt (by omega) (by omega)]
    simp
  have h2 : ((r : Int) * s.size.x + (s.size.x - 1 - c)) % s.size.x = s.size.x - 1 - c := by
    rw [Int.add_comm, Int.add_mul_emod_self, Int.emod_eq_of_lt (by omega) (by omega)]
  simp only [hflip, h1, h2]
  congr 1
  ring

/-! ## C11: `compositePixels` against `compositePixelsRvs` -/

/-- C11, as stated, fails: a 2 x 2 sprite `1 2 / 3 4` at placement (2, 1) on a
4 x 4 destination filled with 9, identity lookup.  `compositePixels` sets
destination pixel (2, 1), index 6, to 1; `compositePixelsRvs` on the vertically
pre-flipped copy leaves it at 9 (it stores in columns 0..1). -/
theorem compositePixelsRvs_vflip_counterexample :
    ¬ (applyWrites (fun _ => 9)
          (compositePixels ⟨⟨4, 4⟩, fun _ => 9⟩
            ⟨⟨2, 2⟩, fun i => [1, 2, 3, 4].getD i.toNat 0⟩ 2 1 (fun b => b)) 6
        = applyWrites (fun _ => 9)
          (compositePixelsRvs ⟨⟨4, 4⟩, fun _ => 9⟩
            (vflip ⟨⟨2, 2⟩, fun i => [1, 2, 3, 4].getD i.toNat 0⟩) 2 1 (fun b => b)) 6) := by
  decide

/-- C11, amended. For every destination of width `dw`, sprite `S` of width `sw`
with `0 <= sw <= dw` and `dw + sw <= 32767`, lookup table and placement
`(x, y)`, `compositePixels` applied to `S` at `(x - sw, y)` and
`compositePixelsRvs` applied at `(x, y)` to the horizontally pre-flipped copy of
`S` (column order reversed, row order preserved) produce identical destination
buffers. -/
theorem compositePixelsRvs_hflip (compMap sprMap : gPixelMap) (xpos ypos : Int)
    (lookup : Byte → Byte)
    (hsw : 0 ≤ sprMap.size.x) (hfit : sprMap.size.x ≤ compMap.size.x)
    (hdw : compMap.size.x + sprMap.size.x ≤ 32767) :
    ∀ a : Int,
      applyWrites compMap.data
          (compositePixels compMap sprMap (xpos - sprMap.size.x) ypos lookup) a
        = applyWrites compMap.data
          (compositePixelsRvs compMap (hflip sprMap) xpos ypos lookup) a := by
  have hrm1 : toInt16 (compMap.size.x - sprMap.size.x) = compMap.size.x - sprMap.size.x := by
    simp only [toInt16]; omega
  have hrm2 : toInt16 (compMap.size.x + sprMap.size.x) = compMap.size.x + sprMap.size.x := by
    simp only [toInt16]; omega
  have hfwd := mem_compositePixels compMap sprMap (xpos - sprMap.size.x) ypos lookup hsw hrm1
  have hrvs := mem_compositePixelsRvs compMap (hflip sprMap) xpos ypos lookup hsw hrm2
  apply applyWrites_eq_of_same_mem
  · intro w
    rw [hfwd, hrvs]
    constructor
    · rintro ⟨r, c, hr, hc, hne, hw⟩
      refine ⟨r, c, hr, hc, ?_, ?_⟩
      · show (hflip sprMap).data (r * sprMap.size.x + (sprMap.size.x - 1 - c)) ≠ 0
        rw [hflip_data sprMap r c hc]; exact hne
      · show w = ((ypos + r) * compMap.size.x + (xpos - sprMap.size.x + c),
          lookup ((hflip sprMap).data (r * sprMap.size.x + (sprMap.size.x - 1 - c))))
        rw [hflip_data sprMap r c hc]; exact hw
    · rintro ⟨r, c, hr, hc, hne, hw⟩
      have hne2 : (hflip sprMap).data (r * sprMap.size.x + (sprMap.size.x - 1 - c)) ≠ 0 := hne
      have hw2 : w = ((ypos + r) * compMap.size.x + (xpos - sprMap.size.x + c),
          lookup ((hflip sprMap).data (r * sprMap.size.x + (sprMap.size.x - 1 - c)))) := hw
      rw [hflip_data sprMap r c hc] at hne2 hw2
      exact ⟨r, c, hr, hc, hne2, hw2⟩
  · intro w1 hw1 w2 hw2 h
    obtain ⟨r1, c1, _, hc1, _, rfl⟩ := (hfwd w1).mp hw1
    obtain ⟨r2, c2, _, hc2, _, rfl⟩ := (hfwd w2).mp hw2
    have := stride_addr_inj compMap.size.x c1 c2 (ypos + r1) (ypos + r2) (by omega) (by omega)
      (by omega) (by omega) (by simp only at h; linarith)
    obtain ⟨h1, h2⟩ := this
    have hr : r1 = r2 := by omega
    have hc : c1 = c2 := by omega
    subst hr; subst hc; rfl

/-- C11 amended, witness: the 2 x 2 sprite `1 2 / 3 4` on a 4 x 4 destination
filled with 9, identity lookup: `compositePixels` at (0, 1) and
`compositePixelsRvs` of the horizontally flipped copy at (2, 1) agree at
index 4, destination pixel (0, 1). -/
theorem compositePixelsRvs_hflip_witness :
    applyWrites (fun _ => 9)
        (compositePixels ⟨⟨4, 4⟩, fun _ => 9⟩
          ⟨⟨2, 2⟩, fun i => [1, 2, 3, 4].getD i.toNat 0⟩ (2 - 2) 1 (fun b => b)) 4
      = applyWrites (fun _ => 9)
        (compositePixelsRvs ⟨⟨4, 4⟩, fun _ => 9⟩
          (hflip ⟨⟨2, 2⟩, fun i => [1, 2, 3, 4].getD i.toNat 0⟩) 2 1 (fun b => b)) 4 :=
  compositePixelsRvs_hflip ⟨⟨4, 4⟩, fun _ => 9⟩
    ⟨⟨2, 2⟩, fun i => [1, 2, 3, 4].getD i.toNat 0⟩ 2 1 (fun b => b)
    (by decide) (by decide) (by decide) 4

/-! ## C12: footprint of `compositePixelsRvs` -/

/-- C12, as stated, fails: the 2 x 2 sprite `1 2 / 3 4` at placement (2, 1) on
a 4 x 4 destination filled with 9, identity lookup.  Destination pixel (0, 1),
index 4, lies outside columns `[2, 4)` and yet is changed. -/
theorem compositePixelsRvs_footprint_counterexample :
    ¬ (applyWrites (fun _ => 9)
          (compositePixelsRvs ⟨⟨4, 4⟩, fun _ => 9⟩
            ⟨⟨2, 2⟩, fun i => [1, 2, 3, 4].getD i.toNat 0⟩ 2 1 (fun b => b)) 4
        = (fun _ : Int => (9 : Byte)) 4) := by
  decide

/-- C12, amended. For every sprite of size `sw x sh` (`0 <= sw`,
`0 <= dw`, `dw + sw <= 32767`) and placement `(x, y)`, `compositePixelsRvs`
modifies only destination pixels in columns `[x - sw, x)` and rows
`[y, y + sh)`: every store lies there, and every destination byte outside that
rectangle is unchanged. -/
theorem compositePixelsRvs_footprint (compMap sprMap : gPixelMap) (xpos ypos : Int)
    (lookup : Byte → Byte)
    (hsw : 0 ≤ sprMap.size.x) (hdw0 : 0 ≤ compMap.size.x)
    (hdw : compMap.size.x + sprMap.size.x ≤ 32767) :
    (∀ w ∈ compositePixelsRvs compMap sprMap xpos ypos lookup,
      ∃ r c : Nat, (r : Int) < sprMap.size.y ∧ (c : Int) < sprMap.size.x ∧
        w.1 = (ypos + r) * compMap.size.x + (xpos - sprMap.size.x + c)) ∧
    (∀ a : Int,
      (¬ ∃ r c : Nat, (r : Int) < sprMap.size.y ∧ (c : Int) < sprMap.size.x ∧
        a = (ypos + r) * compMap.size.x + (xpos - sprMap.size.x + c)) →
      applyWrites compMap.data (compositePixelsRvs compMap sprMap xpos ypos lookup) a
        = compMap.data a) := by
  have hrm2 : toInt16 (compMap.size.x + sprMap.size.x) = compMap.size.x + sprMap.size.x := by
    simp only [toInt16]; omega
  have hrvs := mem_compositePixelsRvs compMap sprMap xpos ypos lookup hsw hrm2
  refine ⟨?_, ?_⟩
  · intro w hw
    obtain ⟨r, c, hr, hc, _, rfl⟩ := (hrvs w).mp hw
    exact ⟨r, c, hr, hc, rfl⟩
  · intro a hout
    apply applyWrites_of_not_mem
    intro w hw ha
    obtain ⟨r, c, hr, hc, _, rfl⟩ := (hrvs w).mp hw
    exact hout ⟨r, c, hr, hc, ha.symm⟩

/-- C12 amended, witness: the same sprite and placement; destination pixel
(2, 1), index 6, lies outside columns `[0, 2)` and keeps its 9. -/
theorem compositePixelsRvs_footprint_witness :
    applyWrites (fun _ => 9)
        (compositePixelsRvs ⟨⟨4, 4⟩, fun _ => 9⟩
          ⟨⟨2, 2⟩, fun i => [1, 2, 3, 4].getD i.toNat 0⟩ 2 1 (fun b => b)) 6
      = (fun _ : Int => (9 : Byte)) 6 :=
  (compositePixelsRvs_footprint ⟨⟨4, 4⟩, fun _ => 9⟩
    ⟨⟨2, 2⟩, fun i => [1, 2, 3, 4].getD i.toNat 0⟩ 2 1 (fun b => b)
    (by decide) (by decide) (by decide)).2 6 (by
      rintro ⟨r, c, hr, hc, h⟩
      simp only at hr hc h
      omega)

/-! ## C17: right edge of the dirty rectangle -/

/-- C17. For every call of `drawTile` that is not skipped by the bounding test
(it computes a dirty rectangle) and whose destination width `W` is not larger
than the tile's rightmost extent `x + 64` (in particular when it is narrower,
by one pixel or more), the dirty rectangle has `rectX2 = W`. -/
theorem drawTile_rect_maxX (map : gPixelMap) (x y height : Int) (srcData : List Byte)
    (mask : Bool) (hW : map.size.x ≤ toInt16 x + SAGA_ISOTILE_WIDTH) :
    ∀ rc : Rect, (drawTile map x y height srcData mask).rect = some rc →
      rc.rectX2 = map.size.x := by
  intro rc hrc
  unfold drawTile at hrc
  simp only at hrc
  split at hrc
  · exact Option.noConfusion hrc
  · split at hrc
    · exact Option.noConfusion hrc
    · split at hrc
      · exact Option.noConfusion hrc
      · simp only [Option.some.injEq] at hrc
        rw [← hrc]
        exact min_eq_right hW

/-- C17, witness: a 6 x 4 destination and a tile at `x = -57`, whose rightmost
extent 7 is one more than the width. -/
theorem drawTile_rect_maxX_witness :
    (⟨0, 0, 6, 2⟩ : Rect).rectX2 = (⟨⟨6, 4⟩, fun _ => 0⟩ : gPixelMap).size.x :=
  drawTile_rect_maxX ⟨⟨6, 4⟩, fun _ => 0⟩ (-57) 2 2 [64, 64] false (by decide)
    ⟨0, 0, 6, 2⟩ (by decide)

/-! ## C19: the horizontal bounding test -/

/-- C19, as stated, fails: on a 30 x 1 destination filled with 9, a tile at
`x = -40` has columns `x - 32 .. x + 32` = `-72 .. -8` entirely left of the
destination, yet `drawTile` walks the row `40, 2, 7, 8, 22` and stores 7 at
index 0. -/
theorem drawTile_half_width_counterexample :
    ¬ (applyWrites (fun _ => 9)
          (drawTile ⟨⟨30, 1⟩, fun _ => 9⟩ (-40) 1 1 [40, 2, 7, 8, 22] false).writes 0
        = (fun _ : Int => (9 : Byte)) 0) := by
  decide

/-- C19, amended. If the span of the full 64-pixel tile width on each side of
`x` lies entirely outside `[0, W)`, that is `x + 64 < 0` or `x - 64 >= W`,
`drawTile` skips all work: it stores nothing, reads no source byte, computes no
rectangle, and the destination is unchanged. -/
theorem drawTile_skipped_outside (map : gPixelMap) (x y height : Int) (srcData : List Byte)
    (mask : Bool)
    (hout : toInt16 x + SAGA_ISOTILE_WIDTH < 0 ∨ toInt16 x - SAGA_ISOTILE_WIDTH ≥ map.size.x) :
    (drawTile map x y height srcData mask).writes = [] ∧
    (drawTile map x y height srcData mask).rest = srcData ∧
    (drawTile map x y height srcData mask).rect = none ∧
    ∀ a : Int, applyWrites map.data (drawTile map x y height srcData mask).writes a
      = map.data a := by
  have h : drawTile map x y height srcData mask = ⟨[], srcData, .done, none⟩ := by
    unfold drawTile
    simp only
    rcases hout with h1 | h2
    · rw [if_pos h1]
    · rw [if_pos h2]
      split <;> rfl
  rw [h]
  exact ⟨rfl, rfl, rfl, fun _ => rfl⟩

/-- C19 amended, witness: a 30 x 1 destination and a tile at `x = 94`. -/
theorem drawTile_skipped_outside_witness :
    (drawTile ⟨⟨30, 1⟩, fun _ => 9⟩ 94 1 1 [40, 2, 7, 8, 22] false).writes = [] ∧
    (drawTile ⟨⟨30, 1⟩, fun _ => 9⟩ 94 1 1 [40, 2, 7, 8, 22] false).rest
      = [40, 2, 7, 8, 22] ∧
    (drawTile ⟨⟨30, 1⟩, fun _ => 9⟩ 94 1 1 [40, 2, 7, 8, 22] false).rect = none ∧
    ∀ a : Int,
      applyWrites (fun _ => 9)
        (drawTile ⟨⟨30, 1⟩, fun _ => 9⟩ 94 1 1 [40, 2, 7, 8, 22] false).writes a
      = (fun _ : Int => (9 : Byte)) a :=
  drawTile_skipped_outside ⟨⟨30, 1⟩, fun _ => 9⟩ 94 1 1 [40, 2, 7, 8, 22] false
    (Or.inr (by decide))

/-! ## C20: vertically out-of-range placement -/

theorem toInt32_sub_add (a h : Int) (ha : -32768 ≤ a) (ha2 : a ≤ 32767) :
    toInt32 (toInt32 (a - h) + h) = a := by
  simp only [toInt32]; omega

theorem toInt16_range (x : Int) : -32768 ≤ toInt16 x ∧ toInt16 x ≤ 32767 := by
  simp only [toInt16]; omega

theorem drawTileRows_no_writes (map : gPixelMap) (drawPointX : Int) (mask : Bool)
    (n : Nat) (row : Int) (s : List Byte)
    (h : ∀ r : Int, row ≤ r → r < row + n → r < 0) :
    (drawTileRows map drawPointX mask n row s).writes = [] := by
  apply List.eq_nil_iff_forall_not_mem.mpr
  intro w hw
  obtain ⟨r, h0, h1, h2, _⟩ := drawTileRows_writes map drawPointX mask n row s w hw
  have := h r h1 h2
  omega

/-- C20. If the tile's row range `[y - height, y)` does not meet `[0, H)`
because its top row `y - height` is at or beyond `H`, or because `y <= 0`, then
`drawTile` stores nothing and every destination byte is unchanged, for every
`x`, tile stream and mask flag.  (`y` is the anchor narrowed to 16 bits,
`y - height` the 32-bit difference.) -/
theorem drawTile_vertically_outside (map : gPixelMap) (x y height : Int)
    (srcData : List Byte) (mask : Bool)
    (hout : map.size.y ≤ toInt32 (toInt16 y - height) ∨ toInt16 y ≤ 0) :
    (drawTile map x y height srcData mask).writes = [] ∧
    ∀ a : Int, applyWrites map.data (drawTile map x y height srcData mask).writes a
      = map.data a := by
  have h : (drawTile map x y height srcData mask).writes = [] := by
    unfold drawTile
    simp only
    split
    · rfl
    · split
      · rfl
      · split
        · rfl
        · rename_i hlt
          simp only
          apply drawTileRows_no_writes
          intro r hr1 hr2
          rcases hout with h1 | h2
          · omega
          · have e := toInt32_sub_add (toInt16 y) height (toInt16_range y).1 (toInt16_range y).2
            have hm : min (toInt32 (toInt32 (toInt16 y - height) + height)) map.size.y
                ≤ toInt32 (toInt32 (toInt16 y - height) + height) := min_le_left _ _
            omega
  rw [h]
  exact ⟨rfl, fun _ => rfl⟩

/-- C20, witness: a 6 x 4 destination, a tile of height 2 with `y = 0` (rows
-2 and -1), and the same tile with `y = 7` (top row 5). -/
theorem drawTile_vertically_outside_witness :
    ((drawTile ⟨⟨6, 4⟩, fun _ => 9⟩ 2 0 2 [1, 3, 7, 8, 9, 60, 0, 9] false).writes = [] ∧
      ∀ a : Int, applyWrites (fun _ => 9)
        (drawTile ⟨⟨6, 4⟩, fun _ => 9⟩ 2 0 2 [1, 3, 7, 8, 9, 60, 0, 9] false).writes a
        = (fun _ : Int => (9 : Byte)) a) ∧
    ((drawTile ⟨⟨6, 4⟩, fun _ => 9⟩ 2 7 2 [1, 3, 7, 8, 9, 60, 0, 9] false).writes = [] ∧
      ∀ a : Int, applyWrites (fun _ => 9)
        (drawTile ⟨⟨6, 4⟩, fun _ => 9⟩ 2 7 2 [1, 3, 7, 8, 9, 60, 0, 9] false).writes a
        = (fun _ : Int => (9 : Byte)) a) :=
  ⟨drawTile_vertically_outside ⟨⟨6, 4⟩, fun _ => 9⟩ 2 0 2 [1, 3, 7, 8, 9, 60, 0, 9] false
      (Or.inr (by decide)),
   drawTile_vertically_outside ⟨⟨6, 4⟩, fun _ => 9⟩ 2 7 2 [1, 3, 7, 8, 9, 60, 0, 9] false
      (Or.inl (by decide))⟩

/-! ## C15: `maskTile` -/

theorem map_memcpy_zero (d : Int) (bs : List Byte) :
    (memcpy d bs).map (fun w => (w.1, (0 : Byte))) = memset d 0 bs.length := by
  induction bs generalizing d with
  | nil => rfl
  | cons b bs ih =>
    simp only [memcpy, List.map_cons, List.length_cons, memset, List.replicate_succ]
    rw [ih]
    rfl

theorem drawTileRun_mask (sizeX : Int) :
    ∀ (fuel : Nat) (widthCount col drawPointer : Int) (s : List Byte),
      (drawTileRun sizeX false fuel widthCount col drawPointer s).status = Status.done →
      drawTileRun sizeX true fuel widthCount col drawPointer s
        = ⟨(drawTileRun sizeX false fuel widthCount col drawPointer s).writes.map
              (fun w => (w.1, (0 : Byte))),
            (drawTileRun sizeX false fuel widthCount col drawPointer s).dest,
            (drawTileRun sizeX false fuel widthCount col drawPointer s).rest, Status.done⟩ := by
  intro fuel
  induction fuel with
  | zero => intro _ _ _ _ h; simp [drawTileRun] at h
  | succ fuel ih =>
    intro widthCount col drawPointer s h
    cases s with
    | nil => simp [drawTileRun] at h
    | cons bg s1 =>
      simp only [drawTileRun] at h ⊢
      by_cases hwc : widthCount + (bg.val : Int) ≥ SAGA_ISOTILE_WIDTH
      · simp only [if_pos hwc, List.map_nil]
      · simp only [if_neg hwc] at h ⊢
        cases s1 with
        | nil => simp at h
        | cons fgb s2 =>
          simp only [Bool.false_eq_true, if_false, if_true] at h ⊢
          split at h
          · simp at h
          · rename_i hlen
            simp only at h
            have hrec := ih _ _ _ _ h
            rw [if_neg hlen, hrec]
            simp only [List.map_append, map_memcpy_zero, List.length_take, List.length_drop]
            congr 2
            congr 1
            simp only [List.length_drop] at hlen
            omega

theorem drawTileRow_mask (map : gPixelMap) (drawPointX : Int) (row : Int) (s : List Byte)
    (h : (drawTileRow map drawPointX false row s).status = Status.done) :
    drawTileRow map drawPointX true row s
      = ⟨(drawTileRow map drawPointX false row s).writes.map (fun w => (w.1, (0 : Byte))),
          (drawTileRow map drawPointX false row s).dest,
          (drawTileRow map drawPointX false row s).rest, Status.done⟩ := by
  unfold drawTileRow at h ⊢
  split
  · rename_i hrow
    rw [if_pos hrow] at h
    exact drawTileRun_mask _ _ _ _ _ _ h
  · rename_i hrow
    rw [if_neg hrow] at h
    rw [drawTileSkip_writes, List.map_nil, ← drawTileSkip_writes (s.length + 1) 0 s, ← h]

theorem drawTileRows_mask (map : gPixelMap) (drawPointX : Int) :
    ∀ (n : Nat) (row : Int) (s : List Byte),
      (drawTileRows map drawPointX false n row s).status = Status.done →
      (drawTileRows map drawPointX true n row s).writes
          = (drawTileRows map drawPointX false n row s).writes.map (fun w => (w.1, (0 : Byte))) ∧
        (drawTileRows map drawPointX true n row s).rest
          = (drawTileRows map drawPointX false n row s).rest ∧
        (drawTileRows map drawPointX true n row s).status = Status.done := by
  intro n
  induction n with
  | zero => intro row s _; simp [drawTileRows]
  | succ n ih =>
    intro row s h
    have hrow : (drawTileRow map drawPointX false row s).status = Status.done := by
      by_contra hne
      unfold drawTileRows at h
      simp only at h
      exact hne h
    have hm := drawTileRow_mask map drawPointX row s hrow
    unfold drawTileRows at h ⊢
    simp only at h ⊢
    rw [hm]
    simp only
    rw [hrow] at h
    simp only at h
    obtain ⟨h1, h2, h3⟩ := ih (row + 1) _ h
    rw [hrow]
    simp only
    exact ⟨by rw [h1, List.map_append], h2, h3⟩

theorem applyWrites_const_zero (s : Byte) (ws : List Write) (a : Int) :
    applyWrites (fun _ => s) (ws.map (fun w => (w.1, (0 : Byte)))) a
      = if a ∈ ws.map Prod.fst then 0 else s := by
  by_cases hmem : a ∈ ws.map Prod.fst
  · rw [if_pos hmem]
    obtain ⟨w, hw, rfl⟩ := List.mem_map.mp hmem
    apply applyWrites_of_mem_unique
    · exact List.mem_map.mpr ⟨w, hw, rfl⟩
    · intro w2 hw2 _
      obtain ⟨w3, _, rfl⟩ := List.mem_map.mp hw2
      rfl
  · rw [if_neg hmem]
    apply applyWrites_of_not_mem
    intro w2 hw2 ha
    obtain ⟨w3, hw3, rfl⟩ := List.mem_map.mp hw2
    exact hmem (List.mem_map.mpr ⟨w3, hw3, ha⟩)

/-- C15. For every destination pre-filled with a non-zero sentinel `s` and
every `x`, `y`, `height` and tile stream on which `drawTile` with `mask = false`
runs to completion (the stream holds every byte the walk reads), `maskTile`
stores 0 at the addresses the unmasked call stores a foreground pixel to, in the
same order, so the destination afterwards is 0 at exactly those positions and
still the sentinel at every other position. -/
theorem maskTile_zero_where_drawn (map : gPixelMap) (x y height : Int) (srcData : List Byte)
    (s : Byte) (hs : s ≠ 0)
    (hdone : (drawTile map x y height srcData false).status = Status.done) :
    (maskTile map x y height srcData).writes
      = (drawTile map x y height srcData false).writes.map (fun w => (w.1, (0 : Byte))) ∧
    ∀ a : Int,
      (applyWrites (fun _ => s) (maskTile map x y height srcData).writes a = 0 ↔
        a ∈ (drawTile map x y height srcData false).writes.map Prod.fst) ∧
      (a ∉ (drawTile map x y height srcData false).writes.map Prod.fst →
        applyWrites (fun _ => s) (maskTile map x y height srcData).writes a = s) := by
  have hw : (maskTile map x y height srcData).writes
      = (drawTile map x y height srcData false).writes.map (fun w => (w.1, (0 : Byte))) := by
    unfold maskTile
    unfold drawTile at hdone ⊢
    simp only at hdone ⊢
    split
    · rfl
    · split
      · rfl
      · split
        · rfl
        · rename_i h1 h2 h3
          rw [if_neg h1, if_neg h2, if_neg h3] at hdone
          simp only at hdone ⊢
          exact (drawTileRows_mask map _ _ _ _ hdone).1
  refine ⟨hw, fun a => ?_⟩
  rw [hw, applyWrites_const_zero]
  constructor
  · constructor
    · intro h
      by_contra hmem
      rw [if_neg hmem] at h
      exact hs h
    · intro hmem
      rw [if_pos hmem]
  · intro hmem
    rw [if_neg hmem]

/-- C15, witness: a 6 x 4 destination filled with 9 and a two-row tile at
(2, 2); the masked and unmasked stores hit the same seven addresses. -/
theorem maskTile_zero_where_drawn_witness :
    (maskTile ⟨⟨6, 4⟩, fun _ => 9⟩ 2 2 2
        [1, 3, 7, 8, 9, 60, 0, 9, 1, 2, 3, 4, 5, 6, 7, 8, 9, 64]).writes
      = (drawTile ⟨⟨6, 4⟩, fun _ => 9⟩ 2 2 2
          [1, 3, 7, 8, 9, 60, 0, 9, 1, 2, 3, 4, 5, 6, 7, 8, 9, 64] false).writes.map
          (fun w => (w.1, (0 : Byte))) ∧
    ∀ a : Int,
      (applyWrites (fun _ => 9) (maskTile ⟨⟨6, 4⟩, fun _ => 9⟩ 2 2 2
          [1, 3, 7, 8, 9, 60, 0, 9, 1, 2, 3, 4, 5, 6, 7, 8, 9, 64]).writes a = 0 ↔
        a ∈ (drawTile ⟨⟨6, 4⟩, fun _ => 9⟩ 2 2 2
          [1, 3, 7, 8, 9, 60, 0, 9, 1, 2, 3, 4, 5, 6, 7, 8, 9, 64] false).writes.map
          Prod.fst) ∧
      (a ∉ (drawTile ⟨⟨6, 4⟩, fun _ => 9⟩ 2 2 2
          [1, 3, 7, 8, 9, 60, 0, 9, 1, 2, 3, 4, 5, 6, 7, 8, 9, 64] false).writes.map
          Prod.fst →
        applyWrites (fun _ => 9) (maskTile ⟨⟨6, 4⟩, fun _ => 9⟩ 2 2 2
          [1, 3, 7, 8, 9, 60, 0, 9, 1, 2, 3, 4, 5, 6, 7, 8, 9, 64]).writes a = 9) :=
  maskTile_zero_where_drawn ⟨⟨6, 4⟩, fun _ => 9⟩ 2 2 2
    [1, 3, 7, 8, 9, 60, 0, 9, 1, 2, 3, 4, 5, 6, 7, 8, 9, 64] 9 (by decide) (by decide)

/-! ## Rows above the destination -/

theorem length_encodeTileRuns_ge (rs : List (Byte × List Byte)) :
    rs.length ≤ (encodeTileRuns rs).length := by
  induction rs with
  | nil => simp [encodeTileRuns]
  | cons r rs ih =>
    simp only [encodeTileRuns, List.length_cons, List.length_append]; omega

theorem drawTileSkip_runs :
    ∀ (rs : List (Byte × List Byte)) (fuel : Nat) (widthCount : Int) (last : Byte)
      (rest : List Byte),
      tileRunsWalk widthCount rs last → rs.length < fuel →
      drawTileSkip fuel widthCount (encodeTileRuns rs ++ last :: rest)
        = ⟨[], 0, rest, Status.done⟩ := by
  intro rs
  induction rs with
  | nil =>
    intro fuel widthCount last rest hwalk hf
    obtain ⟨f, rfl⟩ : ∃ f, fuel = f + 1 := ⟨fuel - 1, by simp at hf; omega⟩
    simp only [tileRunsWalk] at hwalk
    simp only [encodeTileRuns, List.nil_append, drawTileSkip]
    rw [if_pos hwalk]
  | cons r rs ih =>
    intro fuel widthCount last rest hwalk hf
    obtain ⟨f, rfl⟩ : ∃ f, fuel = f + 1 := ⟨fuel - 1, by simp at hf; omega⟩
    obtain ⟨h1, h2, h3⟩ := hwalk
    simp only [encodeTileRuns, List.cons_append, drawTileSkip, List.append_assoc]
    rw [if_neg (by omega), Byte.ofNat_val h2, List.drop_left]
    exact ih f _ last rest h3 (by simp only [List.length_cons] at hf; omega)

/-- A walk of a row above the destination consumes exactly the bytes of one
well-formed encoded row and stores nothing. -/
theorem drawTileRow_skip (map : gPixelMap) (drawPointX : Int) (mask : Bool) (row : Int)
    (t : TileRow) (rest : List Byte) (hrow : row < 0) (hwf : t.wellFormed) :
    drawTileRow map drawPointX mask row (encodeTileRow t ++ rest)
      = ⟨[], 0, rest, Status.done⟩ := by
  unfold drawTileRow
  rw [if_neg (by omega)]
  unfold encodeTileRow
  rw [List.append_assoc, List.singleton_append]
  apply drawTileSkip_runs _ _ _ _ _ hwf
  have := length_encodeTileRuns_ge t.runs
  simp only [List.length_append, List.length_cons]
  omega

theorem drawTileRows_skip (map : gPixelMap) (drawPointX : Int) (mask : Bool) :
    ∀ (ts : List TileRow) (n : Nat) (row : Int) (rest : List Byte),
      (∀ t ∈ ts, t.wellFormed) → row + ts.length ≤ 0 →
      drawTileRows map drawPointX mask (ts.length + n) row (encodeTileRows ts ++ rest)
        = drawTileRows map drawPointX mask n (row + ts.length) rest := by
  intro ts
  induction ts with
  | nil => intro n row rest _ _; simp [encodeTileRows]
  | cons t ts ih =>
    intro n row rest hwf hrow
    simp only [List.length_cons] at hrow
    push_cast at hrow
    have e : (t :: ts).length + n = (ts.length + n) + 1 := by
      simp only [List.length_cons]; omega
    have e2 : row + 1 + (ts.length : Int) = row + ((t :: ts).length : Int) := by
      simp only [List.length_cons]; push_cast; ring
    rw [e, ← e2]
    simp only [drawTileRows, encodeTileRows, List.append_assoc]
    rw [drawTileRow_skip map drawPointX mask row t _ (by omega)
      (hwf t (List.mem_cons_self _ _))]
    simp only [List.nil_append]
    rw [ih n (row + 1) rest (fun u hu => hwf u (List.mem_cons_of_mem _ hu)) (by omega)]

/-! ## C18: the bytes `unpackImage` writes -/

theorem mem_memcpy_addr (d : Int) (bs : List Byte) (a : Int) :
    a ∈ (memcpy d bs).map Prod.fst ↔ ∃ j : Nat, j < bs.length ∧ a = d + j := by
  rw [List.mem_map]
  constructor
  · rintro ⟨w, hw, rfl⟩
    obtain ⟨i, hi, hwi⟩ := mem_memcpy_iff.mp hw
    exact ⟨i, (List.getElem?_eq_some_iff.mp hi).1, hwi⟩
  · rintro ⟨j, hj, rfl⟩
    exact ⟨(d + j, bs[j]), mem_memcpy_iff.mpr ⟨j, List.getElem?_eq_getElem hj, rfl⟩, rfl⟩

theorem mem_rowsWrites_addr (S : Int) (B : Nat) :
    ∀ (es : List (List Byte)) (d a : Int), (∀ e ∈ es, e.length = B) →
      (a ∈ (rowsWrites S d es).map Prod.fst ↔
        ∃ r j : Nat, r < es.length ∧ j < B ∧ a = d + r * S + j) := by
  intro es
  induction es with
  | nil => intro d a _; simp [rowsWrites]
  | cons e es ih =>
    intro d a hlen
    have he : e.length = B := hlen e (List.mem_cons_self _ _)
    have hes : ∀ x ∈ es, x.length = B := fun x hx => hlen x (List.mem_cons_of_mem _ hx)
    simp only [rowsWrites, List.map_append, List.mem_append, mem_memcpy_addr, ih (d + S) a hes,
      he, List.length_cons]
    have e1 : ∀ r : Nat, d + ((r + 1 : Nat) : Int) * S = d + S + r * S := by
      intro r; push_cast; ring
    constructor
    · rintro (⟨j, hj, ha⟩ | ⟨r, j, hr, hj, ha⟩)
      · exact ⟨0, j, by omega, hj, by rw [ha]; simp⟩
      · exact ⟨r + 1, j, by omega, hj, by rw [e1]; exact ha⟩
    · rintro ⟨r, j, hr, hj, ha⟩
      cases r with
      | zero => exact Or.inl ⟨j, hj, by rw [ha]; simp⟩
      | succ r =>
        rw [e1] at ha
        exact Or.inr ⟨r, j, by omega, hj, ha⟩

/-- C18, as stated, fails for odd widths: with width 1 on a destination of
stride 2 and one row, the well-formed stream `1, 7, 8` (two literal bytes, the
row padded to the even budget 2) makes `unpackImage` store two bytes, and
column index `width = 1` of row 0 does not keep its prior value 0. -/
theorem unpackImage_odd_width_counterexample :
    ¬ ((unpackImage ⟨⟨2, 1⟩, fun _ => 0⟩ 1 1 (encodeRows [[.lit [7, 8]]])).writes.length
          = 1 * 1 ∧
        applyWrites (fun _ => 0)
          (unpackImage ⟨⟨2, 1⟩, fun _ => 0⟩ 1 1 (encodeRows [[.lit [7, 8]]])).writes
          (0 * 2 + 1) = (fun _ : Int => (0 : Byte)) (0 * 2 + 1)) := by
  decide

/-- C18, amended. For every width in `0..32766`, stride `S = map.size.x` in
`0..32767`, `rowCount <= 32767` and every well-formed stream, `unpackImage`
writes exactly `B * rowCount` destination bytes, `B = (width + 1) & ~1` being the
width rounded up to even: the bytes at `r * S + j` for `r < rowCount` and
`j < B`, that is columns `[0, B)` of every row; every other destination byte
keeps its prior value. -/
theorem unpackImage_writes_padded_rows (map : gPixelMap) (width : Int)
    (gss : List (List CtlGroup)) (tail : List Byte)
    (hw0 : 0 ≤ width) (hw : width ≤ 32766)
    (hs0 : 0 ≤ map.size.x) (hs : map.size.x ≤ 32767)
    (hn : gss.length ≤ 32767)
    (hwf : ∀ gs ∈ gss, rowWellFormed (width + width % 2) gs) :
    (((unpackImage map width gss.length (encodeRows gss ++ tail)).writes.length : Int)
      = (width + width % 2) * gss.length) ∧
    (∀ a : Int,
      a ∈ (unpackImage map width gss.length (encodeRows gss ++ tail)).writes.map Prod.fst ↔
        ∃ r j : Nat, r < gss.length ∧ (j : Int) < width + width % 2 ∧
          a = r * map.size.x + j) ∧
    (∀ (m : Mem) (a : Int),
      (¬ ∃ r j : Nat, r < gss.length ∧ (j : Int) < width + width % 2 ∧
          a = r * map.size.x + j) →
      applyWrites m (unpackImage map width gss.length (encodeRows gss ++ tail)).writes a
        = m a) := by
  obtain ⟨j0, h⟩ := unpackImage_groups map width gss tail hw0 hw hs0 hs hn hwf
  obtain ⟨B, hB⟩ : ∃ B : Nat, (B : Int) = width + width % 2 :=
    ⟨(width + width % 2).toNat, by omega⟩
  have hlenI : ∀ e ∈ gss.map expandGroups, (e.length : Int) = width + width % 2 := by
    intro e he
    obtain ⟨gs, hgs, rfl⟩ := List.mem_map.mp he
    exact (hwf gs hgs).2
  have hlenN : ∀ e ∈ gss.map expandGroups, e.length = B := by
    intro e he
    have := hlenI e he
    omega
  have haddr : ∀ a : Int,
      a ∈ (unpackImage map width gss.length (encodeRows gss ++ tail)).writes.map Prod.fst ↔
        ∃ r j : Nat, r < gss.length ∧ (j : Int) < width + width % 2 ∧
          a = r * map.size.x + j := by
    intro a
    rw [h]
    simp only
    rw [mem_rowsWrites_addr map.size.x B (gss.map expandGroups) 0 a hlenN]
    simp only [List.length_map, Int.zero_add]
    constructor
    · rintro ⟨r, j, hr, hj, ha⟩
      exact ⟨r, j, hr, by omega, ha⟩
    · rintro ⟨r, j, hr, hj, ha⟩
      exact ⟨r, j, hr, by omega, ha⟩
  refine ⟨?_, haddr, ?_⟩
  · rw [h]
    have := rowsWrites_length map.size.x (width + width % 2) (gss.map expandGroups) 0 hlenI
    simpa using this
  · intro m a hout
    apply applyWrites_of_not_mem
    intro w hw1 ha
    exact hout ((haddr a).mp (List.mem_map.mpr ⟨w, hw1, ha⟩))

/-- C18 amended, witness: width 3 (budget 4) on stride 5, two rows: eight bytes
are written. -/
theorem unpackImage_writes_padded_rows_witness :
    ((unpackImage ⟨⟨5, 2⟩, fun _ => 0⟩ 3
        ([[.lit [1, 2], .rep 3 2], [.nop, .rep 4 4]] : List (List CtlGroup)).length
        (encodeRows [[.lit [1, 2], .rep 3 2], [.nop, .rep 4 4]] ++ [])).writes.length : Int)
      = (3 + 3 % 2) * ([[.lit [1, 2], .rep 3 2], [.nop, .rep 4 4]] :
          List (List CtlGroup)).length :=
  (unpackImage_writes_padded_rows ⟨⟨5, 2⟩, fun _ => 0⟩ 3
    [[.lit [1, 2], .rep 3 2], [.nop, .rep 4 4]] [] (by decide) (by decide) (by decide)
    (by decide) (by decide) (by decide)).1

/-! ## C21: bounds of the dirty rectangle -/

/-- C21, as stated, fails: on a 6 x 4 destination a tile at `x = 10`, `y = 2`,
height 2 passes the bounding test (`x - 64 < 6`) and its rectangle has
`rectX = 10`, which is not `<= W = 6`. -/
theorem drawTile_rect_clamp_counterexample :
    ¬ (∀ rc : Rect, (drawTile ⟨⟨6, 4⟩, fun _ => 0⟩ 10 2 2 [64, 64] false).rect = some rc →
        (0 ≤ rc.rectX ∧ rc.rectX ≤ 6) ∧ (0 ≤ rc.rectX2 ∧ rc.rectX2 ≤ 6) ∧
        (0 ≤ rc.rectY ∧ rc.rectY ≤ 4) ∧ (0 ≤ rc.rectY2 ∧ rc.rectY2 ≤ 4)) := by
  intro h
  have := h ⟨10, 0, 6, 2⟩ (by decide)
  simp only at this
  omega

/-- C21, amended. Whenever `drawTile` computes its dirty rectangle for a
destination of size `W x H` (`W, H >= 0`), each edge is clamped on its own side:
`0 <= rectX`, `0 <= rectX2 <= W`, `0 <= rectY <= H` and `rectY2 <= H`;
`rectX <= W` holds when `x <= W`, and `0 <= rectY2` when `y >= 0` (`x`, `y`
the anchor narrowed to 16 bits). -/
theorem drawTile_rect_clamped (map : gPixelMap) (x y height : Int) (srcData : List Byte)
    (mask : Bool) (hW : 0 ≤ map.size.x) (hH : 0 ≤ map.size.y) :
    ∀ rc : Rect, (drawTile map x y height srcData mask).rect = some rc →
      0 ≤ rc.rectX ∧ (0 ≤ rc.rectX2 ∧ rc.rectX2 ≤ map.size.x) ∧
      (0 ≤ rc.rectY ∧ rc.rectY ≤ map.size.y) ∧ rc.rectY2 ≤ map.size.y ∧
      (toInt16 x ≤ map.size.x → rc.rectX ≤ map.size.x) ∧
      (0 ≤ toInt16 y → 0 ≤ rc.rectY2) := by
  intro rc hrc
  have hr := toInt16_range y
  have hl := toInt32_sub_add (toInt16 y) height hr.1 hr.2
  unfold drawTile at hrc
  simp only at hrc
  split at hrc
  · exact Option.noConfusion hrc
  · split at hrc
    · exact Option.noConfusion hrc
    · split at hrc
      · exact Option.noConfusion hrc
      · rename_i h1 h2 h3
        simp only [Option.some.injEq] at hrc
        rw [hl] at hrc
        rw [← hrc]
        simp only [SAGA_ISOTILE_WIDTH] at h1 h2 ⊢
        refine ⟨le_max_right _ _, ⟨le_min (by omega) hW, min_le_right _ _⟩,
          ⟨le_max_right _ _, max_le (by omega) hH⟩, min_le_right _ _, ?_, ?_⟩
        · intro hx; exact max_le hx hW
        · intro hy; exact le_min hy hH

/-- C21 amended, witness: the tile at (2, 2) of height 2 on a 6 x 4 destination. -/
theorem drawTile_rect_clamped_witness :
    0 ≤ (⟨2, 0, 6, 2⟩ : Rect).rectX ∧
      (0 ≤ (⟨2, 0, 6, 2⟩ : Rect).rectX2 ∧
        (⟨2, 0, 6, 2⟩ : Rect).rectX2 ≤ (⟨⟨6, 4⟩, fun _ => 0⟩ : gPixelMap).size.x) ∧
      (0 ≤ (⟨2, 0, 6, 2⟩ : Rect).rectY ∧
        (⟨2, 0, 6, 2⟩ : Rect).rectY ≤ (⟨⟨6, 4⟩, fun _ => 0⟩ : gPixelMap).size.y) ∧
      (⟨2, 0, 6, 2⟩ : Rect).rectY2 ≤ (⟨⟨6, 4⟩, fun _ => 0⟩ : gPixelMap).size.y ∧
      (toInt16 2 ≤ (⟨⟨6, 4⟩, fun _ => 0⟩ : gPixelMap).size.x →
        (⟨2, 0, 6, 2⟩ : Rect).rectX ≤ (⟨⟨6, 4⟩, fun _ => 0⟩ : gPixelMap).size.x) ∧
      (0 ≤ toInt16 2 → 0 ≤ (⟨2, 0, 6, 2⟩ : Rect).rectY2) :=
  drawTile_rect_clamped ⟨⟨6, 4⟩, fun _ => 0⟩ 2 2 2 [64, 64] false (by decide) (by decide)
    ⟨2, 0, 6, 2⟩ (by decide)

/-! ## C22: what the dirty rectangle is -/

/-- C22, as stated, fails: on a 6 x 4 destination the tile at (2, 2) of height
2 whose two rows hold only a background run of 64 stores nothing, yet its
rectangle is columns `[2, 6)`, rows `[0, 2)`, which is not degenerate. -/
theorem drawTile_rect_union_counterexample :
    ¬ ((drawTile ⟨⟨6, 4⟩, fun _ => 0⟩ 2 2 2 [64, 64] false).writes = [] →
        ∀ rc : Rect, (drawTile ⟨⟨6, 4⟩, fun _ => 0⟩ 2 2 2 [64, 64] false).rect = some rc →
          rc.rectX2 ≤ rc.rectX ∨ rc.rectY2 ≤ rc.rectY) := by
  intro h
  have := h (by decide) ⟨2, 0, 6, 2⟩ (by decide)
  simp only at this
  omega

/-- C22, amended. The dirty rectangle `drawTile` computes, whenever the call
is not skipped by its bounding tests, is the tile's box (columns `[x, x + 64)`,
rows `[y - height, y)`) clamped one edge at a time: `rectX = max x 0`,
`rectY = max (y - height) 0`, `rectX2 = min (x + 64) W`, `rectY2 = min y H`.  It
is the same for every tile stream and mask flag, whatever was written. -/
theorem drawTile_rect_is_clamped_box (map : gPixelMap) (x y height : Int)
    (srcData : List Byte) (mask : Bool)
    (h1 : ¬ toInt16 x + SAGA_ISOTILE_WIDTH < 0)
    (h2 : ¬ toInt16 x - SAGA_ISOTILE_WIDTH ≥ map.size.x)
    (h3 : ¬ toInt32 (toInt16 y - height) ≥ map.size.y) :
    (drawTile map x y height srcData mask).rect
      = some ⟨max (toInt16 x) 0, max (toInt32 (toInt16 y - height)) 0,
          min (toInt16 x + SAGA_ISOTILE_WIDTH) map.size.x, min (toInt16 y) map.size.y⟩ := by
  have hr := toInt16_range y
  have hl := toInt32_sub_add (toInt16 y) height hr.1 hr.2
  unfold drawTile
  simp only
  rw [if_neg h1, if_neg h2, if_neg h3, hl]

/-- C22 amended, witness: the background-only tile of the counterexample. -/
theorem drawTile_rect_is_clamped_box_witness :
    (drawTile ⟨⟨6, 4⟩, fun _ => 0⟩ 2 2 2 [64, 64] false).rect
      = some ⟨max (toInt16 2) 0, max (toInt32 (toInt16 2 - 2)) 0,
          min (toInt16 2 + SAGA_ISOTILE_WIDTH) (⟨⟨6, 4⟩, fun _ => 0⟩ : gPixelMap).size.x,
          min (toInt16 2) (⟨⟨6, 4⟩, fun _ => 0⟩ : gPixelMap).size.y⟩ :=
  drawTile_rect_is_clamped_box ⟨⟨6, 4⟩, fun _ => 0⟩ 2 2 2 [64, 64] false
    (by decide) (by decide) (by decide)

/-! ## C23: `unpackImage` with a non-positive dimension -/

theorem unpackImageRows_nonpositive (B rowMod : Int) (hB : B ≤ 0) (heven : B % 2 = 0) :
    ∀ (n : Nat) (dest : Int) (s : List Byte),
      (unpackImageRows B rowMod n dest s).writes = [] ∧
      (unpackImageRows B rowMod n dest s).rest = s ∧
      (unpackImageRows B rowMod n dest s).status = Status.done := by
  intro n
  induction n with
  | zero => intro dest s; simp [unpackImageRows]
  | succ n ih =>
    intro dest s
    simp only [unpackImageRows]
    rw [unpackImageRow_done B s.length 0 dest s (by omega)]
    simp only
    rw [if_neg (by omega)]
    obtain ⟨h1, h2, h3⟩ := ih (dest + rowMod) s
    exact ⟨by rw [h1]; rfl, h2, h3⟩

theorem unpackImageRows_writes_ne_nil (B rowMod : Int) (n : Nat) (dest : Int) (s : List Byte)
    (h : (unpackImageRow B (s.length + 1) 0 dest s).writes ≠ []) :
    (unpackImageRows B rowMod (n + 1) dest s).writes ≠ [] := by
  simp only [unpackImageRows]
  split
  · intro hnil
    exact h (List.append_eq_nil.mp hnil).1
  · exact h

/-- C23, as stated, fails: `unpackImage` has no precondition check, and a
negative `rowCount` makes `while (rowCount--)` run until the 16-bit counter
wraps to 0.  With width 2, `rowCount = -1` and the stream `1, 7, 8` the first
iteration stores 7 and 8 at indices 0 and 1 and consumes the three bytes. -/
theorem unpackImage_nonpositive_counterexample :
    ¬ (((-1 : Int) ≤ 0 ∨ (2 : Int) ≤ 0) →
        (unpackImage ⟨⟨2, 1⟩, fun _ => 0⟩ 2 (-1) [1, 7, 8]).writes = [] ∧
        (unpackImage ⟨⟨2, 1⟩, fun _ => 0⟩ 2 (-1) [1, 7, 8]).rest = [1, 7, 8]) := by
  intro h
  have h1 := (h (Or.inl (by decide))).1
  have e : ((-1 : Int) % 65536).toNat = 65534 + 1 := by decide
  have hb : toInt16 ((2 : Int) + 1 - (2 + 1) % 2) = 2 := by decide
  simp only [unpackImage, e, hb] at h1
  exact unpackImageRows_writes_ne_nil _ _ _ _ _ (by decide) h1

/-- C23, amended. `unpackImage` checks no precondition.  For every call with
`rowCount = 0`, or with `width <= 0` (a 16-bit value), it stores no destination
byte and consumes no source byte: the row loop does not run, or every row's
byte budget `(width + 1) & ~1` is non-positive and its decoding loop ends at
once.  (A negative `rowCount` with a positive `width` decodes rows.) -/
theorem unpackImage_nonpositive_noop (map : gPixelMap) (width rowCount : Int)
    (srcData : List Byte) (hw : -32768 ≤ width)
    (h : rowCount = 0 ∨ width ≤ 0) :
    (unpackImage map width rowCount srcData).writes = [] ∧
    (unpackImage map width rowCount srcData).rest = srcData ∧
    (unpackImage map width rowCount srcData).status = Status.done := by
  rcases h with h | h
  · subst h
    simp [unpackImage, unpackImageRows]
  · simp only [unpackImage]
    exact unpackImageRows_nonpositive _ _ (by simp only [toInt16]; omega)
      (by simp only [toInt16]; omega) _ _ _

/-- C23, amended, witness: width 0 and three rows on the stream `1, 7, 8`. -/
theorem unpackImage_nonpositive_noop_witness :
    (unpackImage ⟨⟨2, 1⟩, fun _ => 0⟩ 0 3 [1, 7, 8]).writes = [] ∧
    (unpackImage ⟨⟨2, 1⟩, fun _ => 0⟩ 0 3 [1, 7, 8]).rest = [1, 7, 8] ∧
    (unpackImage ⟨⟨2, 1⟩, fun _ => 0⟩ 0 3 [1, 7, 8]).status = Status.done :=
  unpackImage_nonpositive_noop ⟨⟨2, 1⟩, fun _ => 0⟩ 0 3 [1, 7, 8] (by decide)
    (Or.inr (by decide))

/-! ## Stores of well-formed tile rows -/

theorem tile_clamp_visible (W col s fg : Int) (hfg : 0 ≤ fg)
    (hinv : col = s ∨ (W ≤ col ∧ col ≤ s)) :
    (tileSpan W (tileColLeft col fg) fg (tileCount col fg)).toNat
        = (min (s + fg) W - max s 0).toNat ∧
    (0 < tileSpan W (tileColLeft col fg) fg (tileCount col fg) →
      col = s ∧ s + tileCount col fg = max s 0) ∧
    0 ≤ tileCount col fg ∧
    0 ≤ tileSpan W (tileColLeft col fg) fg (tileCount col fg) ∧
    tileCount col fg + tileSpan W (tileColLeft col fg) fg (tileCount col fg) ≤ fg ∧
    (tileColLeft col fg + tileSpan W (tileColLeft col fg) fg (tileCount col fg) = s + fg ∨
      (W ≤ tileColLeft col fg + tileSpan W (tileColLeft col fg) fg (tileCount col fg) ∧
        tileColLeft col fg + tileSpan W (tileColLeft col fg) fg (tileCount col fg) ≤ s + fg)) := by
  simp only [tileSpan, tileColLeft, tileCount]
  split_ifs <;> omega

theorem drawTileRun_step (W : Int) (mask : Bool) (fuel : Nat) (widthCount col dp : Int)
    (bg : Byte) (lits tail : List Byte)
    (hwc : widthCount + bg.val < SAGA_ISOTILE_WIDTH) (hlen : lits.length ≤ 255) :
    drawTileRun W mask (fuel + 1) widthCount col dp
        (bg :: Byte.ofNat lits.length :: (lits ++ tail))
      = ⟨(if mask then
            memset (dp + bg.val + tileCount (col + bg.val) lits.length) 0
              (tileSpan W (tileColLeft (col + bg.val) lits.length) lits.length
                (tileCount (col + bg.val) lits.length)).toNat
          else
            memcpy (dp + bg.val + tileCount (col + bg.val) lits.length)
              ((lits.drop (tileCount (col + bg.val) lits.length).toNat).take
                (tileSpan W (tileColLeft (col + bg.val) lits.length) lits.length
                  (tileCount (col + bg.val) lits.length)).toNat))
          ++ (drawTileRun W mask fuel (widthCount + bg.val + lits.length)
                (tileColLeft (col + bg.val) lits.length
                  + tileSpan W (tileColLeft (col + bg.val) lits.length) lits.length
                      (tileCount (col + bg.val) lits.length))
                (dp + bg.val + lits.length) tail).writes,
          (drawTileRun W mask fuel (widthCount + bg.val + lits.length)
                (tileColLeft (col + bg.val) lits.length
                  + tileSpan W (tileColLeft (col + bg.val) lits.length) lits.length
                      (tileCount (col + bg.val) lits.length))
                (dp + bg.val + lits.length) tail).dest,
          (drawTileRun W mask fuel (widthCount + bg.val + lits.length)
                (tileColLeft (col + bg.val) lits.length
                  + tileSpan W (tileColLeft (col + bg.val) lits.length) lits.length
                      (tileCount (col + bg.val) lits.length))
                (dp + bg.val + lits.length) tail).rest,
          (drawTileRun W mask fuel (widthCount + bg.val + lits.length)
                (tileColLeft (col + bg.val) lits.length
                  + tileSpan W (tileColLeft (col + bg.val) lits.length) lits.length
                      (tileCount (col + bg.val) lits.length))
                (dp + bg.val + lits.length) tail).status⟩ := by
  have hfg : ((Byte.ofNat lits.length).val : Int) = lits.length := by
    rw [Byte.ofNat_val hlen]
  have hfgn : (Byte.ofNat lits.length).val = lits.length := Byte.ofNat_val hlen
  obtain ⟨_, _, hc0, hn0, hfit, _⟩ := tile_clamp_visible W (col + bg.val) (col + bg.val)
    lits.length (by omega) (Or.inl rfl)
  have hcl : (tileCount (col + bg.val) lits.length).toNat ≤ lits.length := by omega
  have hnl : (tileSpan W (tileColLeft (col + bg.val) lits.length) lits.length
      (tileCount (col + bg.val) lits.length)).toNat
      ≤ (lits.drop (tileCount (col + bg.val) lits.length).toNat).length := by
    rw [List.length_drop]; omega
  simp only [drawTileRun]
  rw [if_neg (by omega)]
  simp only [hfg, hfgn, List.drop_left]
  cases mask with
  | true => simp only [if_true]
  | false =>
    simp only [Bool.false_eq_true, if_false]
    rw [List.drop_append_of_le_length hcl, if_neg (by rw [List.length_append]; omega),
      List.take_append_of_le_length hnl]

theorem drawTileRun_runs (W : Int) (mask : Bool) (base : Int) :
    ∀ (rs : List (Byte × List Byte)) (fuel : Nat) (widthCount col pos : Int) (last : Byte)
      (rest : List Byte),
      tileRunsWalk widthCount rs last → rs.length < fuel →
      (col = pos ∨ (W ≤ col ∧ col ≤ pos)) →
      (drawTileRun W mask fuel widthCount col (base + pos)
          (encodeTileRuns rs ++ last :: rest)).writes = rowVisible W base mask pos rs ∧
      (drawTileRun W mask fuel widthCount col (base + pos)
          (encodeTileRuns rs ++ last :: rest)).rest = rest ∧
      (drawTileRun W mask fuel widthCount col (base + pos)
          (encodeTileRuns rs ++ last :: rest)).status = Status.done := by
  intro rs
  induction rs with
  | nil =>
    intro fuel widthCount col pos last rest hwalk hf _
    obtain ⟨f, rfl⟩ : ∃ f, fuel = f + 1 := ⟨fuel - 1, by simp at hf; omega⟩
    simp only [tileRunsWalk] at hwalk
    simp only [encodeTileRuns, List.nil_append, drawTileRun]
    rw [if_pos hwalk]
    exact ⟨rfl, rfl, rfl⟩
  | cons r rs ih =>
    intro fuel widthCount col pos last rest hwalk hf hinv
    obtain ⟨f, rfl⟩ : ∃ f, fuel = f + 1 := ⟨fuel - 1, by simp at hf; omega⟩
    simp only [tileRunsWalk] at hwalk
    obtain ⟨hwc, hlen, hwalk2⟩ := hwalk
    obtain ⟨hn, hpos, hc0, hn0, hfit, hinv2⟩ := tile_clamp_visible W (col + r.1.val)
      (pos + r.1.val) r.2.length (by omega) (by omega)
    have e : base + pos + (r.1.val : Int) + (r.2.length : Int)
        = base + (pos + r.1.val + r.2.length) := by ring
    simp only [encodeTileRuns, List.cons_append, List.append_assoc]
    rw [drawTileRun_step W mask f widthCount col (base + pos) r.1 r.2 _ hwc hlen, e]
    obtain ⟨h1, h2, h3⟩ := ih f (widthCount + r.1.val + r.2.length) _
      (pos + r.1.val + r.2.length) last rest hwalk2
      (by simp only [List.length_cons] at hf; omega) hinv2
    refine ⟨?_, h2, h3⟩
    simp only [h1, rowVisible, runVisible, hn]
    congr 1
    by_cases hz : 0 < tileSpan W (tileColLeft (col + r.1.val) r.2.length) r.2.length
        (tileCount (col + r.1.val) r.2.length)
    · obtain ⟨_, hlo⟩ := hpos hz
      have e1 : base + pos + (r.1.val : Int) + tileCount (col + r.1.val) r.2.length
          = base + max (pos + r.1.val) 0 := by omega
      have e2 : (tileCount (col + r.1.val) r.2.length).toNat
          = (max (pos + r.1.val) 0 - (pos + r.1.val)).toNat := by omega
      rw [e1, e2]
    · have hz2 : (min (pos + r.1.val + r.2.length) W - max (pos + r.1.val) 0).toNat = 0 := by
        omega
      rw [hz2]
      cases mask <;> simp [memset, memcpy]

theorem drawTileRow_runs (map : gPixelMap) (drawPointX : Int) (mask : Bool) (row : Int)
    (t : TileRow) (rest : List Byte) (hrow : 0 ≤ row) (hwf : t.wellFormed) :
    (drawTileRow map drawPointX mask row (encodeTileRow t ++ rest)).writes
        = rowVisible map.size.x (row * map.size.x) mask drawPointX t.runs ∧
    (drawTileRow map drawPointX mask row (encodeTileRow t ++ rest)).rest = rest ∧
    (drawTileRow map drawPointX mask row (encodeTileRow t ++ rest)).status = Status.done := by
  unfold drawTileRow
  rw [if_pos (by omega)]
  unfold encodeTileRow
  rw [List.append_assoc, List.singleton_append,
    show drawPointX + row * map.size.x = row * map.size.x + drawPointX by ring]
  apply drawTileRun_runs _ _ _ _ _ _ _ _ _ _ hwf _ (Or.inl rfl)
  have := length_encodeTileRuns_ge t.runs
  simp only [List.length_append, List.length_cons]
  omega

theorem drawTileRows_runs (map : gPixelMap) (drawPointX : Int) (mask : Bool) :
    ∀ (ts : List TileRow) (row : Int) (rest : List Byte),
      (∀ t ∈ ts, t.wellFormed) →
      (drawTileRows map drawPointX mask ts.length row (encodeTileRows ts ++ rest)).writes
          = tileVisible map.size.x mask drawPointX row ts ∧
      (drawTileRows map drawPointX mask ts.length row (encodeTileRows ts ++ rest)).rest
          = rest ∧
      (drawTileRows map drawPointX mask ts.length row (encodeTileRows ts ++ rest)).status
          = Status.done := by
  intro ts
  induction ts with
  | nil => intro row rest _; simp [drawTileRows, encodeTileRows, tileVisible]
  | cons t ts ih =>
    intro row rest hwf
    have hwt := hwf t (List.mem_cons_self _ _)
    obtain ⟨h1, h2, h3⟩ := ih (row + 1) rest (fun u hu => hwf u (List.mem_cons_of_mem _ hu))
    simp only [List.length_cons, drawTileRows, encodeTileRows, List.append_assoc, tileVisible]
    by_cases hrow : 0 ≤ row
    · obtain ⟨g1, g2, g3⟩ := drawTileRow_runs map drawPointX mask row t
        (encodeTileRows ts ++ rest) hrow hwt
      rw [g3]
      simp only [g1, g2, if_pos (show row ≥ 0 from hrow)]
      exact ⟨by rw [h1], h2, h3⟩
    · rw [drawTileRow_skip map drawPointX mask row t _ (by omega) hwt]
      simp only [List.nil_append, if_neg (show ¬ row ≥ 0 from hrow)]
      exact ⟨h1, h2, h3⟩

theorem drawTile_runs (map : gPixelMap) (x y height : Int) (ts : List TileRow)
    (rest : List Byte) (mask : Bool)
    (hwf : ∀ t ∈ ts, t.wellFormed)
    (h1 : ¬ toInt16 x + SAGA_ISOTILE_WIDTH < 0)
    (h2 : ¬ toInt16 x - SAGA_ISOTILE_WIDTH ≥ map.size.x)
    (h3 : ¬ toInt32 (toInt16 y - height) ≥ map.size.y)
    (hrows : ts.length = (min (toInt16 y) map.size.y - toInt32 (toInt16 y - height)).toNat) :
    (drawTile map x y height (encodeTileRows ts ++ rest) mask).writes
        = tileVisible map.size.x mask (toInt16 x) (toInt32 (toInt16 y - height)) ts ∧
    (drawTile map x y height (encodeTileRows ts ++ rest) mask).rest = rest ∧
    (drawTile map x y height (encodeTileRows ts ++ rest) mask).status = Status.done := by
  have hl := toInt32_sub_add (toInt16 y) height (toInt16_range y).1 (toInt16_range y).2
  simp only [drawTile]
  rw [if_neg h1, if_neg h2, if_neg h3]
  simp only [hl, ← hrows]
  exact drawTileRows_runs map (toInt16 x) mask ts _ rest hwf

theorem mem_runVisible (W base : Int) (mask : Bool) (s : Int) (lits : List Byte) (w : Write) :
    w ∈ runVisible W base mask s lits ↔
      ∃ c : Int, max s 0 ≤ c ∧ c < min (s + lits.length) W ∧ w.1 = base + c ∧
        (if mask then w.2 = 0 else lits[(c - s).toNat]? = some w.2) := by
  unfold runVisible
  cases mask with
  | true =>
    simp only [if_true]
    rw [mem_memset_iff]
    constructor
    · rintro ⟨i, hi, rfl⟩
      exact ⟨max s 0 + i, by omega, by omega, by simp only; ring, rfl⟩
    · rintro ⟨c, h1, h2, h3, h4⟩
      refine ⟨(c - max s 0).toNat, by omega, Prod.ext ?_ h4⟩
      simp only [h3]; omega
  | false =>
    simp only [Bool.false_eq_true, if_false]
    rw [mem_memcpy_iff]
    constructor
    · rintro ⟨i, hi, hw⟩
      rw [List.getElem?_take] at hi
      split at hi
      · rename_i hlt
        rw [List.getElem?_drop] at hi
        refine ⟨max s 0 + i, by omega, by omega, by rw [hw]; ring, ?_⟩
        have e : (max s 0 + (i : Int) - s).toNat = (max s 0 - s).toNat + i := by omega
        rw [e]; exact hi
      · exact Option.noConfusion hi
    · rintro ⟨c, h1, h2, h3, h4⟩
      refine ⟨(c - max s 0).toNat, ?_, by rw [h3]; omega⟩
      rw [List.getElem?_take, if_pos (by omega), List.getElem?_drop]
      have e : (max s 0 - s).toNat + (c - max s 0).toNat = (c - s).toNat := by omega
      rw [e]; exact h4

theorem mem_rowVisible (W base : Int) (mask : Bool) :
    ∀ (rs : List (Byte × List Byte)) (pos : Int) (w : Write),
      w ∈ rowVisible W base mask pos rs ↔
        ∃ (j : Nat) (r : Byte × List Byte), rs[j]? = some r ∧
          w ∈ runVisible W base mask (pos + runStart rs j) r.2 := by
  intro rs
  induction rs with
  | nil => intro pos w; simp [rowVisible]
  | cons r rs ih =>
    intro pos w
    simp only [rowVisible, List.mem_append, ih]
    constructor
    · rintro (h | ⟨j, r2, hj, h⟩)
      · exact ⟨0, r, by simp, h⟩
      · refine ⟨j + 1, r2, by simpa using hj, ?_⟩
        have e : pos + runStart (r :: rs) (j + 1)
            = pos + r.1.val + r.2.length + runStart rs j := by
          simp only [runStart]; ring
        rw [e]; exact h
    · rintro ⟨j, r2, hj, h⟩
      cases j with
      | zero =>
        left
        simp only [List.getElem?_cons_zero, Option.some.injEq] at hj
        subst hj
        exact h
      | succ j =>
        right
        have e : pos + runStart (r :: rs) (j + 1)
            = pos + r.1.val + r.2.length + runStart rs j := by
          simp only [runStart]; ring
        rw [e] at h
        exact ⟨j, r2, by simpa using hj, h⟩

theorem mem_tileVisible (W : Int) (mask : Bool) (x : Int) :
    ∀ (ts : List TileRow) (row : Int) (w : Write),
      w ∈ tileVisible W mask x row ts ↔
        ∃ (i : Nat) (t : TileRow), ts[i]? = some t ∧ 0 ≤ row + i ∧
          w ∈ rowVisible W ((row + i) * W) mask x t.runs := by
  intro ts
  induction ts with
  | nil => intro row w; simp [tileVisible]
  | cons t ts ih =>
    intro row w
    simp only [tileVisible, List.mem_append, ih]
    have e : ∀ i : Nat, row + ((i + 1 : Nat) : Int) = row + 1 + i := by
      intro i; push_cast; ring
    constructor
    · rintro (h | ⟨i, t2, hi, h0, h⟩)
      · split at h
        · rename_i hrow
          exact ⟨0, t, by simp, by simpa using hrow, by simpa using h⟩
        · simp at h
      · exact ⟨i + 1, t2, by simpa using hi, by rw [e]; exact h0, by rw [e]; exact h⟩
    · rintro ⟨i, t2, hi, h0, h⟩
      cases i with
      | zero =>
        left
        simp only [List.getElem?_cons_zero, Option.some.injEq] at hi
        subst hi
        simp only [Nat.cast_zero, Int.add_zero] at h0 h
        rw [if_pos (show row ≥ 0 from h0)]
        exact h
      | succ i =>
        right
        rw [e] at h0 h
        exact ⟨i, t2, by simpa using hi, h0, h⟩

theorem mem_tileVisible_pixel (W : Int) (mask : Bool) (x row : Int) (ts : List TileRow)
    (w : Write) :
    w ∈ tileVisible W mask x row ts ↔
      ∃ (i j : Nat) (t : TileRow) (r : Byte × List Byte) (c : Int),
        ts[i]? = some t ∧ t.runs[j]? = some r ∧ 0 ≤ row + i ∧
        max (x + runStart t.runs j) 0 ≤ c ∧
        c < min (x + runStart t.runs j + r.2.length) W ∧
        w.1 = (row + i) * W + c ∧
        (if mask then w.2 = 0
          else r.2[(c - (x + runStart t.runs j)).toNat]? = some w.2) := by
  rw [mem_tileVisible]
  constructor
  · rintro ⟨i, t, hi, h0, h⟩
    obtain ⟨j, r, hj, h⟩ := (mem_rowVisible W _ mask t.runs x w).mp h
    obtain ⟨c, h1, h2, h3, h4⟩ := (mem_runVisible W _ mask _ r.2 w).mp h
    exact ⟨i, j, t, r, c, hi, hj, h0, h1, h2, h3, h4⟩
  · rintro ⟨i, j, t, r, c, hi, hj, h0, h1, h2, h3, h4⟩
    exact ⟨i, t, hi, h0, (mem_rowVisible W _ mask t.runs x w).mpr
      ⟨j, r, hj, (mem_runVisible W _ mask _ r.2 w).mpr ⟨c, h1, h2, h3, h4⟩⟩⟩

theorem pairwise_memcpy (d : Int) (bs : List Byte) :
    List.Pairwise (fun a b : Write => a.1 < b.1) (memcpy d bs) := by
  induction bs generalizing d with
  | nil => exact List.Pairwise.nil
  | cons b bs ih =>
    simp only [memcpy]
    rw [List.pairwise_cons]
    refine ⟨fun w hw => ?_, ih _⟩
    have := (mem_memcpy hw).1
    simp only
    omega

theorem pairwise_runVisible (W base : Int) (mask : Bool) (s : Int) (lits : List Byte) :
    List.Pairwise (fun a b : Write => a.1 < b.1) (runVisible W base mask s lits) := by
  unfold runVisible
  split
  · exact pairwise_memcpy _ _
  · exact pairwise_memcpy _ _

theorem rowVisible_bounds (W base : Int) (mask : Bool) :
    ∀ (rs : List (Byte × List Byte)) (pos : Int),
      ∀ w ∈ rowVisible W base mask pos rs, base + max pos 0 ≤ w.1 ∧ w.1 < base + W := by
  intro rs
  induction rs with
  | nil => intro pos w hw; simp [rowVisible] at hw
  | cons r rs ih =>
    intro pos w hw
    simp only [rowVisible, List.mem_append] at hw
    rcases hw with hw | hw
    · obtain ⟨c, h1, h2, h3, _⟩ := (mem_runVisible W base mask _ r.2 w).mp hw
      omega
    · have := ih _ w hw
      omega

theorem pairwise_rowVisible (W base : Int) (mask : Bool) :
    ∀ (rs : List (Byte × List Byte)) (pos : Int),
      List.Pairwise (fun a b : Write => a.1 < b.1) (rowVisible W base mask pos rs) := by
  intro rs
  induction rs with
  | nil => intro pos; exact List.Pairwise.nil
  | cons r rs ih =>
    intro pos
    simp only [rowVisible]
    rw [List.pairwise_append]
    refine ⟨pairwise_runVisible _ _ _ _ _, ih _, ?_⟩
    intro a ha b hb
    obtain ⟨c, h1, h2, h3, _⟩ := (mem_runVisible W base mask _ r.2 a).mp ha
    have := rowVisible_bounds W base mask rs _ b hb
    omega

theorem tileVisible_bounds (W : Int) (mask : Bool) (x : Int) (hW : 0 ≤ W) :
    ∀ (ts : List TileRow) (row : Int),
      ∀ w ∈ tileVisible W mask x row ts, row * W ≤ w.1 := by
  intro ts row w hw
  obtain ⟨i, t, _, h0, h⟩ := (mem_tileVisible W mask x ts row w).mp hw
  have hb := rowVisible_bounds W _ mask t.runs x w h
  have h1 : row * W ≤ (row + i) * W := mul_le_mul_of_nonneg_right (by omega) hW
  omega

theorem pairwise_tileVisible (W : Int) (mask : Bool) (x : Int) (hW : 0 ≤ W) :
    ∀ (ts : List TileRow) (row : Int),
      List.Pairwise (fun a b : Write => a.1 < b.1) (tileVisible W mask x row ts) := by
  intro ts
  induction ts with
  | nil => intro row; exact List.Pairwise.nil
  | cons t ts ih =>
    intro row
    simp only [tileVisible]
    rw [List.pairwise_append]
    refine ⟨?_, ih _, ?_⟩
    · split
      · exact pairwise_rowVisible _ _ _ _ _
      · exact List.Pairwise.nil
    · intro a ha b hb
      split at ha
      · have h1 := rowVisible_bounds W _ mask t.runs x a ha
        have h2 := tileVisible_bounds W mask x hW ts (row + 1) b hb
        have e : (row + 1) * W = row * W + W := by ring
        omega
      · simp at ha

theorem pairwise_lt_unique :
    ∀ (ws : List Write), List.Pairwise (fun a b : Write => a.1 < b.1) ws →
      ∀ w1 ∈ ws, ∀ w2 ∈ ws, w1.1 = w2.1 → w1.2 = w2.2 := by
  intro ws
  induction ws with
  | nil => intro _ w1 h1; simp at h1
  | cons a ws ih =>
    intro hp w1 h1 w2 h2 he
    rw [List.pairwise_cons] at hp
    rcases List.mem_cons.mp h1 with h1 | h1 <;> rcases List.mem_cons.mp h2 with h2 | h2
    · rw [h1, h2]
    · have := hp.1 w2 h2; rw [← h1] at this; omega
    · have := hp.1 w1 h1; rw [← h2] at this; omega
    · exact ih hp.2 w1 h1 w2 h2 he

/-! ## C24: clipping of a foreground run -/

/-- C24. For a stream of well-formed tile rows and a call not skipped by the
bounding test, `drawTile` stores, for every destination row `r >= 0` it walks
and every foreground run of that row with `n` literal bytes whose start column
is `s = x + (all run lengths before it in the row, its own background run
included)`, exactly the columns `c` with `max s 0 <= c < min (s + n) W`; pixel
`(r, c)` ends up holding the run's literal byte number `c - s`, or 0 when `mask`
is set; nothing else is stored; and every row's bytes are consumed in full
whatever is clipped, so that the stream is left after the last row.  (`x`, `y`
are the anchor narrowed to 16 bits, the first row is `y - height`.) -/
theorem drawTile_run_clipping (map : gPixelMap) (x y height : Int) (ts : List TileRow)
    (rest : List Byte) (mask : Bool)
    (hW : 0 ≤ map.size.x)
    (hwf : ∀ t ∈ ts, t.wellFormed)
    (h1 : ¬ toInt16 x + SAGA_ISOTILE_WIDTH < 0)
    (h2 : ¬ toInt16 x - SAGA_ISOTILE_WIDTH ≥ map.size.x)
    (h3 : ¬ toInt32 (toInt16 y - height) ≥ map.size.y)
    (hrows : ts.length = (min (toInt16 y) map.size.y - toInt32 (toInt16 y - height)).toNat) :
    ((drawTile map x y height (encodeTileRows ts ++ rest) mask).rest = rest ∧
      (drawTile map x y height (encodeTileRows ts ++ rest) mask).status = Status.done) ∧
    (∀ w : Write, w ∈ (drawTile map x y height (encodeTileRows ts ++ rest) mask).writes ↔
      ∃ (i j : Nat) (t : TileRow) (r : Byte × List Byte) (c : Int),
        ts[i]? = some t ∧ t.runs[j]? = some r ∧ 0 ≤ toInt32 (toInt16 y - height) + i ∧
        max (toInt16 x + runStart t.runs j) 0 ≤ c ∧
        c < min (toInt16 x + runStart t.runs j + r.2.length) map.size.x ∧
        w.1 = (toInt32 (toInt16 y - height) + i) * map.size.x + c ∧
        (if mask then w.2 = 0
          else r.2[(c - (toInt16 x + runStart t.runs j)).toNat]? = some w.2)) ∧
    (∀ (i j : Nat) (t : TileRow) (r : Byte × List Byte) (c : Int),
      ts[i]? = some t → t.runs[j]? = some r → 0 ≤ toInt32 (toInt16 y - height) + i →
      max (toInt16 x + runStart t.runs j) 0 ≤ c →
      c < min (toInt16 x + runStart t.runs j + r.2.length) map.size.x →
      applyWrites map.data (drawTile map x y height (encodeTileRows ts ++ rest) mask).writes
          ((toInt32 (toInt16 y - height) + i) * map.size.x + c)
        = if mask then 0 else r.2.getD (c - (toInt16 x + runStart t.runs j)).toNat 0) := by
  obtain ⟨hw, hr, hs⟩ := drawTile_runs map x y height ts rest mask hwf h1 h2 h3 hrows
  refine ⟨⟨hr, hs⟩, ?_, ?_⟩
  · intro w
    rw [hw]
    exact mem_tileVisible_pixel _ _ _ _ _ _
  · intro i j t r c hi hj h0 hlo hhi
    rw [hw]
    have hlt : (c - (toInt16 x + runStart t.runs j)).toNat < r.2.length := by omega
    have hmem : ((toInt32 (toInt16 y - height) + i) * map.size.x + c,
        if mask then (0 : Byte)
          else r.2.getD (c - (toInt16 x + runStart t.runs j)).toNat 0)
        ∈ tileVisible map.size.x mask (toInt16 x) (toInt32 (toInt16 y - height)) ts := by
      rw [mem_tileVisible_pixel]
      refine ⟨i, j, t, r, c, hi, hj, h0, hlo, hhi, rfl, ?_⟩
      cases mask with
      | true => simp
      | false =>
        simp only [Bool.false_eq_true, if_false]
        rw [List.getD_eq_getElem?_getD, List.getElem?_eq_getElem hlt]
        rfl
    apply applyWrites_of_mem_unique _ _ _ _ hmem
    intro w2 hw2 ha
    exact pairwise_lt_unique _ (pairwise_tileVisible _ mask _ hW ts _) w2 hw2 _ hmem ha

/-- C24, witness: a 4 x 2 destination filled with 9, one tile row made of a
foreground run `5, 6, 7` after a background run of 0, drawn at `x = -1` on row
0: the run starts at column -1, its columns 0 and 1 are visible and receive
literal bytes number 1 and 2; the whole row is consumed. -/
theorem drawTile_run_clipping_witness :
    ((drawTile ⟨⟨4, 2⟩, fun _ => 9⟩ (-1) 1 1
        (encodeTileRows [⟨[(0, [5, 6, 7])], 61⟩] ++ [1, 2]) false).rest = [1, 2] ∧
      (drawTile ⟨⟨4, 2⟩, fun _ => 9⟩ (-1) 1 1
        (encodeTileRows [⟨[(0, [5, 6, 7])], 61⟩] ++ [1, 2]) false).status = Status.done) ∧
    applyWrites (fun _ => 9)
        (drawTile ⟨⟨4, 2⟩, fun _ => 9⟩ (-1) 1 1
          (encodeTileRows [⟨[(0, [5, 6, 7])], 61⟩] ++ [1, 2]) false).writes
        ((toInt32 (toInt16 1 - 1) + (0 : Nat)) * 4 + 1) = 7 :=
  ⟨(drawTile_run_clipping ⟨⟨4, 2⟩, fun _ => 9⟩ (-1) 1 1 [⟨[(0, [5, 6, 7])], 61⟩] [1, 2] false
      (by decide) (by decide) (by decide) (by decide) (by decide) (by decide)).1,
   ((drawTile_run_clipping ⟨⟨4, 2⟩, fun _ => 9⟩ (-1) 1 1 [⟨[(0, [5, 6, 7])], 61⟩] [1, 2] false
      (by decide) (by decide) (by decide) (by decide) (by decide) (by decide)).2.2
      0 0 ⟨[(0, [5, 6, 7])], 61⟩ (0, [5, 6, 7]) 1 (by decide) (by decide) (by decide)
      (by decide) (by decide)).trans (by decide)⟩

/-! ## C25: source bytes consumed by a row -/

theorem expandGroups_pos_of_last :
    ∀ (gs : List CtlGroup), (∀ g ∈ gs, g.valid) → gs ≠ [] →
      gs.getLast? ≠ some CtlGroup.nop → 0 < (expandGroups gs).length := by
  intro gs
  induction gs with
  | nil => intro _ h; exact absurd rfl h
  | cons g gs ih =>
    intro hv _ hl
    cases gs with
    | nil =>
      have hg := hv g (List.mem_cons_self _ _)
      cases g with
      | nop => simp at hl
      | lit bs =>
        simp only [CtlGroup.valid] at hg
        simp only [expandGroups, CtlGroup.expand, List.append_nil]; omega
      | rep v n =>
        simp only [CtlGroup.valid] at hg
        simp only [expandGroups, CtlGroup.expand, List.append_nil, List.length_replicate]; omega
    | cons g2 gs =>
      rw [List.getLast?_cons_cons] at hl
      have := ih (fun x hx => hv x (List.mem_cons_of_mem _ hx)) (by simp) hl
      rw [expandGroups, List.length_append]
      omega

theorem getLast?_tail_ne_nop (g : CtlGroup) (gs : List CtlGroup)
    (hl : (g :: gs).getLast? ≠ some CtlGroup.nop) : gs.getLast? ≠ some CtlGroup.nop := by
  cases gs with
  | nil => simp
  | cons g2 gs => rwa [List.getLast?_cons_cons] at hl

theorem unpackImageRow_groups_exact (B : Int) (hB : B ≤ 32767) :
    ∀ (gs : List CtlGroup) (fuel : Nat) (k dest : Int) (tail : List Byte),
      (∀ g ∈ gs, g.valid) → gs.getLast? ≠ some CtlGroup.nop →
      0 ≤ k → k + (expandGroups gs).length = B → gs.length < fuel →
      unpackImageRow B fuel k dest (encodeGroups gs ++ tail)
        = ⟨memcpy dest (expandGroups gs), dest + (expandGroups gs).length, tail, .done⟩ := by
  intro gs
  induction gs with
  | nil =>
    intro fuel k dest tail _ _ hk0 hk hf
    obtain ⟨f, rfl⟩ : ∃ f, fuel = f + 1 := ⟨fuel - 1, by simp at hf; omega⟩
    simp only [expandGroups, List.length_nil] at hk
    rw [encodeGroups, List.nil_append, unpackImageRow_done _ _ _ _ _ (by omega)]
    simp [expandGroups, memcpy]
  | cons g gs ih =>
    intro fuel k dest tail hv hl hk0 hk hf
    obtain ⟨f, rfl⟩ : ∃ f, fuel = f + 1 := ⟨fuel - 1, by simp at hf; omega⟩
    have hg := hv g (List.mem_cons_self _ _)
    have hvs : ∀ x ∈ gs, x.valid := fun x hx => hv x (List.mem_cons_of_mem _ hx)
    have hf2 : gs.length < f := by simp only [List.length_cons] at hf; omega
    have hls := getLast?_tail_ne_nop g gs hl
    have hpos := expandGroups_pos_of_last (g :: gs) hv (by simp) hl
    have hkB : k < B := by omega
    simp only [expandGroups, List.length_append] at hk
    push_cast at hk
    simp only [encodeGroups, List.append_assoc]
    cases g with
    | nop =>
      simp only [CtlGroup.expand, List.length_nil] at hk
      rw [unpackImageRow_nop _ _ _ _ _ hkB, ih f k dest tail hvs hls hk0 (by omega) hf2]
      simp [expandGroups, CtlGroup.expand]
    | lit bs =>
      simp only [CtlGroup.expand] at hk
      rw [unpackImageRow_lit _ _ _ _ _ _ hg hkB hk0 (by omega),
        ih f (k + bs.length) (dest + bs.length) tail hvs hls (by omega) (by omega) hf2]
      simp only [expandGroups, CtlGroup.expand, memcpy_append, List.length_append]
      push_cast
      rw [Int.add_assoc]
    | rep v n =>
      simp only [CtlGroup.expand, List.length_replicate] at hk
      rw [unpackImageRow_rep _ _ _ _ _ _ _ hg hkB hk0 (by omega),
        ih f (k + n) (dest + n) tail hvs hls (by omega) (by omega) hf2]
      simp only [expandGroups, CtlGroup.expand, memcpy_append, List.length_append,
        List.length_replicate]
      push_cast
      rw [Int.add_assoc]

theorem unpackImageRows_groups_exact (B rowMod : Int) (hB : B ≤ 32767) (heven : B % 2 = 0) :
    ∀ (gss : List (List CtlGroup)) (dest : Int) (tail : List Byte),
      (∀ gs ∈ gss, rowWellFormed B gs ∧ gs.getLast? ≠ some CtlGroup.nop) →
      (unpackImageRows B rowMod gss.length dest (encodeRows gss ++ tail)).rest = tail ∧
      (unpackImageRows B rowMod gss.length dest (encodeRows gss ++ tail)).status
        = Status.done := by
  intro gss
  induction gss with
  | nil => intro dest tail _; simp [unpackImageRows, encodeRows]
  | cons gs gss ih =>
    intro dest tail hwf
    obtain ⟨⟨hv, hlen⟩, hl⟩ := hwf gs (List.mem_cons_self _ _)
    have hrest : ∀ x ∈ gss, rowWellFormed B x ∧ x.getLast? ≠ some CtlGroup.nop :=
      fun x hx => hwf x (List.mem_cons_of_mem _ hx)
    have hfuel : gs.length < (encodeGroups gs ++ (encodeRows gss ++ tail)).length + 1 := by
      have := length_encodeGroups_ge gs
      simp only [List.length_append] at *
      omega
    have hrow := unpackImageRow_groups_exact B hB gs _ 0 dest (encodeRows gss ++ tail)
      hv hl (le_refl 0) (by omega) hfuel
    simp only [List.length_cons, unpackImageRows, encodeRows, List.append_assoc]
    rw [hrow]
    simp only
    rw [if_neg (by omega)]
    exact ih _ tail hrest

/-- C25, as stated, fails: `bytecount = (width + 1) & ~1` is always even, so the
statement `if (bytecount & 1) srcData++` never skips a byte.  With width 1 and
one row, the well-formed stream `1, 7, 8` (two literal bytes, the row padded to
the budget 2) followed by `99, 98` is consumed up to `99`: three bytes, the bytes
of the control group, not four. -/
theorem unpackImage_pad_skip_counterexample :
    ¬ ((encodeRows [[.lit [7, 8]]] ++ [99, 98]).length
        - (unpackImage ⟨⟨2, 1⟩, fun _ => 0⟩ 1 1 (encodeRows [[.lit [7, 8]]] ++ [99, 98])).rest.length
        = (encodeRows [[.lit [7, 8]]]).length + 1) := by
  decide

/-- C25, amended. For every width in `0..32766`, odd or even, and every stream of
well-formed rows (valid control groups whose expansions total the padded byte
budget `B = (width + 1) & ~1`, none ending in a no-op control byte),
`unpackImage` consumes exactly the bytes of the rows' control groups and skips
no further source byte: what follows them is left unread. -/
theorem unpackImage_consumes_groups (map : gPixelMap) (width : Int)
    (gss : List (List CtlGroup)) (tail : List Byte)
    (hw0 : 0 ≤ width) (hw : width ≤ 32766) (hn : gss.length ≤ 32767)
    (hwf : ∀ gs ∈ gss, rowWellFormed (width + width % 2) gs ∧
      gs.getLast? ≠ some CtlGroup.nop) :
    (unpackImage map width gss.length (encodeRows gss ++ tail)).rest = tail ∧
    (unpackImage map width gss.length (encodeRows gss ++ tail)).status = Status.done := by
  have hbc : toInt16 ((width + 1) - (width + 1) % 2) = width + width % 2 := by
    simp only [toInt16]; omega
  have hcnt : ((gss.length : Int) % 65536).toNat = gss.length := by omega
  simp only [unpackImage, hbc, hcnt]
  exact unpackImageRows_groups_exact _ _ (by omega) (by omega) gss 0 tail hwf

/-- C25, amended, witness: width 1, one row `1, 7, 8`, followed by `99, 98`. -/
theorem unpackImage_consumes_groups_witness :
    (unpackImage ⟨⟨2, 1⟩, fun _ => 0⟩ 1 ([[CtlGroup.lit [7, 8]]] : List (List CtlGroup)).length
      (encodeRows [[.lit [7, 8]]] ++ [99, 98])).rest = [99, 98] ∧
    (unpackImage ⟨⟨2, 1⟩, fun _ => 0⟩ 1 ([[CtlGroup.lit [7, 8]]] : List (List CtlGroup)).length
      (encodeRows [[.lit [7, 8]]] ++ [99, 98])).status = Status.done :=
  unpackImage_consumes_groups ⟨⟨2, 1⟩, fun _ => 0⟩ 1 [[.lit [7, 8]]] [99, 98]
    (by decide) (by decide) (by decide) (by decide)

/-! ## C26: `compositePixelsRvs` is a horizontal mirror -/

theorem hflip_data_rev (s : gPixelMap) (r c : Nat) (hc : (c : Int) < s.size.x) :
    (hflip s).data (r * s.size.x + c) = s.data (r * s.size.x + (s.size.x - 1 - c)) := by
  have h1 : ((r : Int) * s.size.x + c) / s.size.x = r := by
    rw [Int.add_comm, Int.add_mul_ediv_right _ _ (by omega),
      Int.ediv_eq_zero_of_lt (by omega) (by omega)]
    simp
  have h2 : ((r : Int) * s.size.x + c) % s.size.x = c := by
    rw [Int.add_comm, Int.add_mul_emod_self, Int.emod_eq_of_lt (by omega) (by omega)]
  simp only [hflip, h1, h2]

theorem mem_compositePixels_hflip (compMap sprMap : gPixelMap) (xpos ypos : Int)
    (lookup : Byte → Byte) (hsw : 0 ≤ sprMap.size.x)
    (hrm1 : toInt16 (compMap.size.x - sprMap.size.x) = compMap.size.x - sprMap.size.x)
    (hrm2 : toInt16 (compMap.size.x + sprMap.size.x) = compMap.size.x + sprMap.size.x) :
    ∀ w : Write, w ∈ compositePixelsRvs compMap sprMap xpos ypos lookup ↔
      w ∈ compositePixels compMap (hflip sprMap) (xpos - sprMap.size.x) ypos lookup := by
  have hfwd := mem_compositePixels compMap (hflip sprMap) (xpos - sprMap.size.x) ypos lookup
    hsw hrm1
  have hrvs := mem_compositePixelsRvs compMap sprMap xpos ypos lookup hsw hrm2
  intro w
  rw [hfwd, hrvs]
  constructor
  · rintro ⟨r, c, hr, hc, hne, hw⟩
    refine ⟨r, c, hr, hc, ?_, ?_⟩
    · show (hflip sprMap).data (r * sprMap.size.x + c) ≠ 0
      rw [hflip_data_rev sprMap r c hc]; exact hne
    · show w = ((ypos + r) * compMap.size.x + (xpos - sprMap.size.x + c),
        lookup ((hflip sprMap).data (r * sprMap.size.x + c)))
      rw [hflip_data_rev sprMap r c hc]; exact hw
  · rintro ⟨r, c, hr, hc, hne, hw⟩
    have hc2 : (c : Int) < sprMap.size.x := hc
    have hne2 : (hflip sprMap).data (r * sprMap.size.x + c) ≠ 0 := hne
    have hw2 : w = ((ypos + r) * compMap.size.x + (xpos - sprMap.size.x + c),
        lookup ((hflip sprMap).data (r * sprMap.size.x + c))) := hw
    rw [hflip_data_rev sprMap r c hc2] at hne2 hw2
    exact ⟨r, c, hr, hc2, hne2, hw2⟩

/-- C26, as stated, fails when `dw + sw` exceeds 32767, because
`compositePixelsRvs` keeps `rowMod = dw + sw` in an `int16`.  A 32767 x 1
destination filled with 9 and the 1 x 1 sprite `5` at placement (1, 0), column
`[0, 1)` and row `[0, 1)`, identity lookup: `compositePixels` on the flipped
sprite at (0, 0) sets destination pixel (0, 0) to 5, `compositePixelsRvs` leaves
it at 9 (its store goes to index 65536). -/
theorem compositePixelsRvs_mirror_counterexample :
    ¬ (applyWrites (fun _ => 9)
          (compositePixelsRvs ⟨⟨32767, 1⟩, fun _ => 9⟩ ⟨⟨1, 1⟩, fun _ => 5⟩ 1 0 (fun b => b)) 0
        = applyWrites (fun _ => 9)
          (compositePixels ⟨⟨32767, 1⟩, fun _ => 9⟩ (hflip ⟨⟨1, 1⟩, fun _ => 5⟩) (1 - 1) 0
            (fun b => b)) 0) := by
  decide

/-- C26, amended. For every destination of width `dw`, sprite `S` of size
`sw x sh` with `0 <= sw` and `dw + sw <= 32767`, lookup table and `(xpos, ypos)`
such that columns `[xpos - sw, xpos)` lie inside the destination,
`compositePixelsRvs(dest, S, xpos, ypos, lookup)` leaves the same destination as
`compositePixels(dest, hflip(S), xpos - sw, ypos, lookup)`; a non-zero sprite
pixel (row `r`, column `c`) lands, through the lookup table, at destination
`(ypos + r, xpos - 1 - c)`. -/
theorem compositePixelsRvs_is_mirror (compMap sprMap : gPixelMap) (xpos ypos : Int)
    (lookup : Byte → Byte)
    (hsw : 0 ≤ sprMap.size.x) (hdw : compMap.size.x + sprMap.size.x ≤ 32767)
    (hx0 : 0 ≤ xpos - sprMap.size.x) (hx1 : xpos ≤ compMap.size.x) :
    (∀ a : Int,
      applyWrites compMap.data (compositePixelsRvs compMap sprMap xpos ypos lookup) a
        = applyWrites compMap.data
          (compositePixels compMap (hflip sprMap) (xpos - sprMap.size.x) ypos lookup) a) ∧
    (∀ r c : Nat, (r : Int) < sprMap.size.y → (c : Int) < sprMap.size.x →
      sprMap.data (r * sprMap.size.x + c) ≠ 0 →
      applyWrites compMap.data (compositePixelsRvs compMap sprMap xpos ypos lookup)
          ((ypos + r) * compMap.size.x + (xpos - 1 - c))
        = lookup (sprMap.data (r * sprMap.size.x + c))) := by
  have hrm1 : toInt16 (compMap.size.x - sprMap.size.x) = compMap.size.x - sprMap.size.x := by
    simp only [toInt16]; omega
  have hrm2 : toInt16 (compMap.size.x + sprMap.size.x) = compMap.size.x + sprMap.size.x := by
    simp only [toInt16]; omega
  have hrvs := mem_compositePixelsRvs compMap sprMap xpos ypos lookup hsw hrm2
  have huniq : ∀ w1 ∈ compositePixelsRvs compMap sprMap xpos ypos lookup,
      ∀ w2 ∈ compositePixelsRvs compMap sprMap xpos ypos lookup, w1.1 = w2.1 → w1.2 = w2.2 := by
    intro w1 hw1 w2 hw2 h
    obtain ⟨r1, c1, _, hc1, _, rfl⟩ := (hrvs w1).mp hw1
    obtain ⟨r2, c2, _, hc2, _, rfl⟩ := (hrvs w2).mp hw2
    have := stride_addr_inj compMap.size.x (xpos - sprMap.size.x + c1)
      (xpos - sprMap.size.x + c2) (ypos + r1) (ypos + r2) (by omega) (by omega)
      (by omega) (by omega) h
    obtain ⟨h1, h2⟩ := this
    have hr : r1 = r2 := by omega
    have hc : c1 = c2 := by omega
    subst hr; subst hc; rfl
  refine ⟨?_, ?_⟩
  · exact applyWrites_eq_of_same_mem _ _ _
      (mem_compositePixels_hflip compMap sprMap xpos ypos lookup hsw hrm1 hrm2) huniq
  · intro r c hr hc hne
    obtain ⟨c2, hc2⟩ : ∃ c2 : Nat, (c2 : Int) = sprMap.size.x - 1 - c :=
      ⟨(sprMap.size.x - 1 - c).toNat, by omega⟩
    have hidx : sprMap.size.x - 1 - (c2 : Int) = c := by omega
    apply applyWrites_of_mem_unique
    · rw [hrvs]
      refine ⟨r, c2, hr, by omega, ?_, ?_⟩
      · rw [hidx]; exact hne
      · rw [hidx]
        congr 1
        omega
    · intro w hw ha
      exact huniq w hw _ ((hrvs _).mpr ⟨r, c2, hr, by omega, by rw [hidx]; exact hne, rfl⟩)
        (by rw [ha]; simp only; omega) |>.trans (by rw [hidx])

/-- C26, amended, witness: the 2 x 2 sprite `1 2 / 3 4` at placement (2, 1) on a
4 x 4 destination filled with 9, identity lookup. -/
theorem compositePixelsRvs_is_mirror_witness :
    (∀ a : Int,
      applyWrites (fun _ => 9) (compositePixelsRvs ⟨⟨4, 4⟩, fun _ => 9⟩
          ⟨⟨2, 2⟩, fun i => [1, 2, 3, 4].getD i.toNat 0⟩ 2 1 (fun b => b)) a
        = applyWrites (fun _ => 9)
          (compositePixels ⟨⟨4, 4⟩, fun _ => 9⟩
            (hflip ⟨⟨2, 2⟩, fun i => [1, 2, 3, 4].getD i.toNat 0⟩) (2 - 2) 1 (fun b => b)) a) ∧
    (∀ r c : Nat, (r : Int) < 2 → (c : Int) < 2 →
      (fun i : Int => [1, 2, 3, 4].getD i.toNat (0 : Byte)) (r * 2 + c) ≠ 0 →
      applyWrites (fun _ => 9) (compositePixelsRvs ⟨⟨4, 4⟩, fun _ => 9⟩
          ⟨⟨2, 2⟩, fun i => [1, 2, 3, 4].getD i.toNat 0⟩ 2 1 (fun b => b))
          ((1 + r) * 4 + (2 - 1 - c))
        = (fun b : Byte => b) ((fun i : Int => [1, 2, 3, 4].getD i.toNat (0 : Byte)) (r * 2 + c))) :=
  compositePixelsRvs_is_mirror ⟨⟨4, 4⟩, fun _ => 9⟩
    ⟨⟨2, 2⟩, fun i => [1, 2, 3, 4].getD i.toNat 0⟩ 2 1 (fun b => b)
    (by decide) (by decide) (by decide) (by decide)

/-! ## C27: `unpackSprite` ends past the buffer -/

theorem length_memcpy (d : Int) (bs : List Byte) : (memcpy d bs).length = bs.length := by
  induction bs generalizing d with
  | nil => rfl
  | cons b bs ih => simp only [memcpy, List.length_cons, ih]

theorem unpackSpriteLoop_done_length :
    ∀ (fuel : Nat) (dst bytes : Int) (s : List Byte),
      (unpackSpriteLoop fuel dst bytes s).status = Status.done →
      bytes < ((unpackSpriteLoop fuel dst bytes s).writes.length : Int) := by
  intro fuel
  induction fuel with
  | zero => intro _ _ _ h; simp [unpackSpriteLoop] at h
  | succ fuel ih =>
    intro dst bytes s h
    unfold unpackSpriteLoop at h ⊢
    split at h
    · simp at h
    · rename_i t s1
      simp only at h ⊢
      split at h
      · rename_i hneg
        rw [if_pos hneg]
        simp only [memset, length_memcpy, List.length_replicate]
        omega
      · rename_i hneg
        rw [if_neg hneg]
        split at h
        · simp at h
        · rename_i f s2
          split at h
          · simp at h
          · rename_i hlen
            rw [if_neg hlen]
            simp only at h ⊢
            have := ih _ _ _ h
            simp only [List.length_append, memset, length_memcpy, List.length_replicate,
              List.length_take]
            have hmin : min f.val s2.length = f.val := by omega
            rw [hmin]
            push_cast
            omega

theorem unpackSpriteLoop_contiguous :
    ∀ (fuel : Nat) (dst bytes : Int) (s : List Byte),
      ∃ bs : List Byte, (unpackSpriteLoop fuel dst bytes s).writes = memcpy dst bs := by
  intro fuel
  induction fuel with
  | zero => intro dst _ _; exact ⟨[], rfl⟩
  | succ fuel ih =>
    intro dst bytes s
    unfold unpackSpriteLoop
    split
    · exact ⟨[], rfl⟩
    · rename_i t s1
      simp only
      split
      · exact ⟨List.replicate t.val 0, rfl⟩
      · split
        · exact ⟨List.replicate t.val 0, rfl⟩
        · rename_i f s2
          split
          · refine ⟨List.replicate t.val 0 ++ s2, ?_⟩
            simp only [memset, memcpy_append, List.length_replicate]
          · obtain ⟨bs, hbs⟩ := ih (dst + t.val + f.val) (bytes - t.val - f.val)
              (s2.drop f.val)
            rename_i hlen
            refine ⟨List.replicate t.val 0 ++ (s2.take f.val ++ bs), ?_⟩
            simp only [hbs, memset, memcpy_append, List.length_replicate, List.length_take,
              List.append_assoc]
            have hmin : min f.val s2.length = f.val := by omega
            rw [hmin]

/-- C27. For every destination and every source stream on which `unpackSprite`
terminates, the number of bytes it has written (zero-filled plus copied) is
strictly greater than `width * height`; the bytes are written contiguously from
index 0, so when `width * height >= 0` one of them is written at index
`width * height`, the first byte past a buffer of exactly that size. -/
theorem unpackSprite_done_overshoots (map : gPixelMap) (sprData : List Byte)
    (hdone : (unpackSprite map sprData).status = Status.done) :
    map.size.x * map.size.y < ((unpackSprite map sprData).writes.length : Int) ∧
    (0 ≤ map.size.x * map.size.y →
      ∃ w ∈ (unpackSprite map sprData).writes, w.1 = map.size.x * map.size.y) := by
  have hlen := unpackSpriteLoop_done_length _ _ _ _ hdone
  obtain ⟨bs, hbs⟩ := unpackSpriteLoop_contiguous (sprData.length + 1) 0
    (map.size.x * map.size.y) sprData
  refine ⟨hlen, fun hnn => ?_⟩
  unfold unpackSprite at hlen ⊢
  rw [hbs] at hlen ⊢
  rw [length_memcpy] at hlen
  obtain ⟨j, hj⟩ : ∃ j : Nat, (j : Int) = map.size.x * map.size.y :=
    ⟨(map.size.x * map.size.y).toNat, by omega⟩
  have hjlt : j < bs.length := by omega
  exact ⟨(0 + (j : Int), bs[j]),
    mem_memcpy_iff.mpr ⟨j, List.getElem?_eq_getElem hjlt, rfl⟩, by simp [hj]⟩

/-- C27, witness: a 2 x 1 destination and the stream `0, 2, 5, 6, 1`: three
bytes are written, the last at index 2. -/
theorem unpackSprite_done_overshoots_witness :
    (⟨⟨2, 1⟩, fun _ => 0⟩ : gPixelMap).size.x * (⟨⟨2, 1⟩, fun _ => 0⟩ : gPixelMap).size.y
      < ((unpackSprite ⟨⟨2, 1⟩, fun _ => 0⟩ [0, 2, 5, 6, 1]).writes.length : Int) ∧
    (0 ≤ (⟨⟨2, 1⟩, fun _ => 0⟩ : gPixelMap).size.x * (⟨⟨2, 1⟩, fun _ => 0⟩ : gPixelMap).size.y →
      ∃ w ∈ (unpackSprite ⟨⟨2, 1⟩, fun _ => 0⟩ [0, 2, 5, 6, 1]).writes,
        w.1 = (⟨⟨2, 1⟩, fun _ => 0⟩ : gPixelMap).size.x
          * (⟨⟨2, 1⟩, fun _ => 0⟩ : gPixelMap).size.y) :=
  unpackSprite_done_overshoots ⟨⟨2, 1⟩, fun _ => 0⟩ [0, 2, 5, 6, 1] (by decide)

/-! ## C28: `TBlit` -/

theorem mem_tBlitRow_writes (srcData : Mem) :
    ∀ (n : Nat) (srcPtr dstPtr : Int) (w : Write),
      w ∈ (tBlitRow srcData n srcPtr dstPtr).writes ↔
        ∃ i : Nat, i < n ∧ srcData (srcPtr + i) ≠ 0 ∧
          w = (dstPtr + i, srcData (srcPtr + i)) := by
  intro n
  induction n with
  | zero => intro srcPtr dstPtr w; simp [tBlitRow]
  | succ n ih =>
    intro srcPtr dstPtr w
    simp only [tBlitRow, List.mem_append, ih]
    have e : ∀ i : Nat, srcPtr + ((i + 1 : Nat) : Int) = srcPtr + 1 + i := by
      intro i; push_cast; ring
    have e2 : ∀ i : Nat, dstPtr + ((i + 1 : Nat) : Int) = dstPtr + 1 + i := by
      intro i; push_cast; ring
    constructor
    · rintro (h | ⟨i, hi, hne, hw⟩)
      · split at h
        · simp at h
        · rename_i hc
          simp only [List.mem_singleton] at h
          exact ⟨0, by omega, by simpa using hc, by simpa using h⟩
      · exact ⟨i + 1, by omega, by rw [e]; exact hne, by rw [e, e2]; exact hw⟩
    · rintro ⟨i, hi, hne, hw⟩
      cases i with
      | zero =>
        left
        simp only [Nat.cast_zero, Int.add_zero] at hne hw
        rw [if_neg hne, hw]
        simp
      | succ i =>
        right
        rw [e] at hne hw
        rw [e2] at hw
        exact ⟨i, by omega, hne, hw⟩

theorem mem_tBlitRow_reads (srcData : Mem) :
    ∀ (n : Nat) (srcPtr dstPtr : Int) (a : Int),
      a ∈ (tBlitRow srcData n srcPtr dstPtr).reads ↔ ∃ i : Nat, i < n ∧ a = srcPtr + i := by
  intro n
  induction n with
  | zero => intro srcPtr dstPtr a; simp [tBlitRow]
  | succ n ih =>
    intro srcPtr dstPtr a
    simp only [tBlitRow, List.mem_cons, ih]
    constructor
    · rintro (h | ⟨i, hi, ha⟩)
      · exact ⟨0, by omega, by simpa using h⟩
      · exact ⟨i + 1, by omega, by rw [ha]; push_cast; ring⟩
    · rintro ⟨i, hi, ha⟩
      cases i with
      | zero => left; simpa using ha
      | succ i => right; exact ⟨i, by omega, by rw [ha]; push_cast; ring⟩

theorem mem_tBlitRows_writes (srcData : Mem) (w : Nat) (srcMod dstMod : Int) :
    ∀ (n : Nat) (srcPtr dstPtr : Int) (x : Write),
      x ∈ (tBlitRows srcData w srcMod dstMod n srcPtr dstPtr).writes ↔
        ∃ r c : Nat, r < n ∧ c < w ∧ srcData (srcPtr + r * (w + srcMod) + c) ≠ 0 ∧
          x = (dstPtr + r * (w + dstMod) + c, srcData (srcPtr + r * (w + srcMod) + c)) := by
  intro n
  induction n with
  | zero => intro srcPtr dstPtr x; simp [tBlitRows]
  | succ n ih =>
    intro srcPtr dstPtr x
    simp only [tBlitRows, List.mem_append, ih, mem_tBlitRow_writes]
    have e : ∀ r : Nat, srcPtr + ((r + 1 : Nat) : Int) * ((w : Int) + srcMod)
        = srcPtr + w + srcMod + r * (w + srcMod) := by
      intro r; push_cast; ring
    have e2 : ∀ r : Nat, dstPtr + ((r + 1 : Nat) : Int) * ((w : Int) + dstMod)
        = dstPtr + w + dstMod + r * (w + dstMod) := by
      intro r; push_cast; ring
    constructor
    · rintro (⟨c, hc, hne, hw⟩ | ⟨r, c, hr, hc, hne, hw⟩)
      · refine ⟨0, c, by omega, hc, ?_, ?_⟩
        · simpa using hne
        · simpa using hw
      · exact ⟨r + 1, c, by omega, hc, by rw [e]; exact hne, by rw [e, e2]; exact hw⟩
    · rintro ⟨r, c, hr, hc, hne, hw⟩
      cases r with
      | zero =>
        left
        refine ⟨c, hc, ?_, ?_⟩
        · simpa using hne
        · simpa using hw
      | succ r =>
        right
        rw [e] at hne hw
        rw [e2] at hw
        exact ⟨r, c, by omega, hc, hne, hw⟩

theorem mem_tBlitRows_reads (srcData : Mem) (w : Nat) (srcMod dstMod : Int) :
    ∀ (n : Nat) (srcPtr dstPtr : Int) (a : Int),
      a ∈ (tBlitRows srcData w srcMod dstMod n srcPtr dstPtr).reads ↔
        ∃ r c : Nat, r < n ∧ c < w ∧ a = srcPtr + r * (w + srcMod) + c := by
  intro n
  induction n with
  | zero => intro srcPtr dstPtr a; simp [tBlitRows]
  | succ n ih =>
    intro srcPtr dstPtr a
    simp only [tBlitRows, List.mem_append, ih, mem_tBlitRow_reads]
    have e : ∀ r : Nat, srcPtr + ((r + 1 : Nat) : Int) * ((w : Int) + srcMod)
        = srcPtr + w + srcMod + r * (w + srcMod) := by
      intro r; push_cast; ring
    constructor
    · rintro (⟨c, hc, ha⟩ | ⟨r, c, hr, hc, ha⟩)
      · exact ⟨0, c, by omega, hc, by simpa using ha⟩
      · exact ⟨r + 1, c, by omega, hc, by rw [e]; exact ha⟩
    · rintro ⟨r, c, hr, hc, ha⟩
      cases r with
      | zero => left; exact ⟨c, hc, by simpa using ha⟩
      | succ r => right; rw [e] at ha; exact ⟨r, c, by omega, hc, ha⟩

theorem TBlit_eq (dstMap srcMap : gPixelMap) (xpos ypos : Int)
    (hsw0 : 0 ≤ srcMap.size.x) (hsw : srcMap.size.x ≤ 32767)
    (hsh0 : 0 ≤ srcMap.size.y) (hsh : srcMap.size.y ≤ 32767)
    (hdw0 : 0 ≤ dstMap.size.x) (hdw : dstMap.size.x ≤ 32767)
    (hdh0 : 0 ≤ dstMap.size.y) (hdh : dstMap.size.y ≤ 32767)
    (hx0 : -32768 ≤ xpos) (hx : xpos ≤ 32767) (hy0 : -32768 ≤ ypos) (hy : ypos ≤ 32767) :
    TBlit dstMap srcMap xpos ypos
      = if min (srcMap.size.x - max (-xpos) 0) (dstMap.size.x - (xpos + max (-xpos) 0)) < 0 ∨
            min (srcMap.size.y - max (-ypos) 0) (dstMap.size.y - (ypos + max (-ypos) 0)) < 0
        then ⟨[], []⟩
        else tBlitRows srcMap.data
          (min (srcMap.size.x - max (-xpos) 0) (dstMap.size.x - (xpos + max (-xpos) 0))).toNat
          (srcMap.size.x
            - min (srcMap.size.x - max (-xpos) 0) (dstMap.size.x - (xpos + max (-xpos) 0)))
          (dstMap.size.x
            - min (srcMap.size.x - max (-xpos) 0) (dstMap.size.x - (xpos + max (-xpos) 0)))
          (min (srcMap.size.y - max (-ypos) 0) (dstMap.size.y - (ypos + max (-ypos) 0))).toNat
          (max (-ypos) 0 * srcMap.size.x + max (-xpos) 0)
          (xpos + max (-xpos) 0 + (ypos + max (-ypos) 0) * dstMap.size.x) := by
  have hh1 : (if ypos < 0 then toInt16 (srcMap.size.y + ypos) else srcMap.size.y)
      = srcMap.size.y - max (-ypos) 0 := by
    split_ifs <;> first | omega | (simp only [toInt16]; omega)
  have hw1 : (if xpos < 0 then toInt16 (srcMap.size.x + xpos) else srcMap.size.x)
      = srcMap.size.x - max (-xpos) 0 := by
    split_ifs <;> first | omega | (simp only [toInt16]; omega)
  have hy1 : (if ypos < 0 then (0 : Int) else ypos) = ypos + max (-ypos) 0 := by
    split_ifs <;> omega
  have hx1 : (if xpos < 0 then (0 : Int) else xpos) = xpos + max (-xpos) 0 := by
    split_ifs <;> omega
  have ho : (if xpos < 0 then (if ypos < 0 then 0 - ypos * srcMap.size.x else 0) - xpos
        else (if ypos < 0 then 0 - ypos * srcMap.size.x else 0))
      = max (-ypos) 0 * srcMap.size.x + max (-xpos) 0 := by
    have e1 : (if ypos < 0 then 0 - ypos * srcMap.size.x else 0)
        = max (-ypos) 0 * srcMap.size.x := by
      split_ifs with h
      · rw [max_eq_left (by omega)]; ring
      · rw [max_eq_right (by omega)]; ring
    rw [e1]
    split_ifs <;> omega
  have hw2 : (if srcMap.size.x - max (-xpos) 0 > dstMap.size.x - (xpos + max (-xpos) 0)
        then toInt16 (dstMap.size.x - (xpos + max (-xpos) 0))
        else srcMap.size.x - max (-xpos) 0)
      = min (srcMap.size.x - max (-xpos) 0) (dstMap.size.x - (xpos + max (-xpos) 0)) := by
    split_ifs <;> first | omega | (simp only [toInt16]; omega)
  have hh2 : (if srcMap.size.y - max (-ypos) 0 > dstMap.size.y - (ypos + max (-ypos) 0)
        then toInt16 (dstMap.size.y - (ypos + max (-ypos) 0))
        else srcMap.size.y - max (-ypos) 0)
      = min (srcMap.size.y - max (-ypos) 0) (dstMap.size.y - (ypos + max (-ypos) 0)) := by
    split_ifs <;> first | omega | (simp only [toInt16]; omega)
  simp only [TBlit, hh1, hw1, hy1, hx1, ho, hw2, hh2]
  split_ifs with hret
  · rfl
  · have hm1 : toInt16 (dstMap.size.x
        - min (srcMap.size.x - max (-xpos) 0) (dstMap.size.x - (xpos + max (-xpos) 0)))
        = dstMap.size.x
          - min (srcMap.size.x - max (-xpos) 0) (dstMap.size.x - (xpos + max (-xpos) 0)) := by
      simp only [toInt16]; omega
    have hm2 : toInt16 (srcMap.size.x
        - min (srcMap.size.x - max (-xpos) 0) (dstMap.size.x - (xpos + max (-xpos) 0)))
        = srcMap.size.x
          - min (srcMap.size.x - max (-xpos) 0) (dstMap.size.x - (xpos + max (-xpos) 0)) := by
      simp only [toInt16]; omega
    rw [hm1, hm2]

theorem mem_TBlit_writes (dstMap srcMap : gPixelMap) (xpos ypos : Int)
    (hsw0 : 0 ≤ srcMap.size.x) (hsw : srcMap.size.x ≤ 32767)
    (hsh0 : 0 ≤ srcMap.size.y) (hsh : srcMap.size.y ≤ 32767)
    (hdw0 : 0 ≤ dstMap.size.x) (hdw : dstMap.size.x ≤ 32767)
    (hdh0 : 0 ≤ dstMap.size.y) (hdh : dstMap.size.y ≤ 32767)
    (hx0 : -32768 ≤ xpos) (hx : xpos ≤ 32767) (hy0 : -32768 ≤ ypos) (hy : ypos ≤ 32767)
    (x : Write) :
    x ∈ (TBlit dstMap srcMap xpos ypos).writes ↔
      ∃ dx dy : Int, (0 ≤ dx ∧ dx < dstMap.size.x) ∧ (0 ≤ dy ∧ dy < dstMap.size.y) ∧
        (0 ≤ dx - xpos ∧ dx - xpos < srcMap.size.x) ∧
        (0 ≤ dy - ypos ∧ dy - ypos < srcMap.size.y) ∧
        srcMap.data ((dy - ypos) * srcMap.size.x + (dx - xpos)) ≠ 0 ∧
        x = (dy * dstMap.size.x + dx,
              srcMap.data ((dy - ypos) * srcMap.size.x + (dx - xpos))) := by
  rw [TBlit_eq dstMap srcMap xpos ypos hsw0 hsw hsh0 hsh hdw0 hdw hdh0 hdh hx0 hx hy0 hy]
  split_ifs with hret
  · simp only [List.not_mem_nil, false_iff]
    rintro ⟨dx, dy, h1, h2, h3, h4, _, _⟩
    omega
  · rw [mem_tBlitRows_writes]
    have hwn : 0 ≤ min (srcMap.size.x - max (-xpos) 0)
        (dstMap.size.x - (xpos + max (-xpos) 0)) := by omega
    have hhn : 0 ≤ min (srcMap.size.y - max (-ypos) 0)
        (dstMap.size.y - (ypos + max (-ypos) 0)) := by omega
    simp only [Int.toNat_of_nonneg hwn]
    have es : ∀ r c : Int, max (-ypos) 0 * srcMap.size.x + max (-xpos) 0
          + r * (min (srcMap.size.x - max (-xpos) 0) (dstMap.size.x - (xpos + max (-xpos) 0))
            + (srcMap.size.x - min (srcMap.size.x - max (-xpos) 0)
                (dstMap.size.x - (xpos + max (-xpos) 0)))) + c
        = (max (-ypos) 0 + r) * srcMap.size.x + (max (-xpos) 0 + c) := by
      intro r c; ring
    have ed : ∀ r c : Int, xpos + max (-xpos) 0 + (ypos + max (-ypos) 0) * dstMap.size.x
          + r * (min (srcMap.size.x - max (-xpos) 0) (dstMap.size.x - (xpos + max (-xpos) 0))
            + (dstMap.size.x - min (srcMap.size.x - max (-xpos) 0)
                (dstMap.size.x - (xpos + max (-xpos) 0)))) + c
        = (ypos + max (-ypos) 0 + r) * dstMap.size.x + (xpos + max (-xpos) 0 + c) := by
      intro r c; ring
    simp only [es, ed]
    constructor
    · rintro ⟨r, c, hr, hc, hne, hw⟩
      refine ⟨xpos + max (-xpos) 0 + c, ypos + max (-ypos) 0 + r, by omega, by omega,
        by omega, by omega, ?_, ?_⟩
      · have e1 : ypos + max (-ypos) 0 + (r : Int) - ypos = max (-ypos) 0 + r := by ring
        have e2 : xpos + max (-xpos) 0 + (c : Int) - xpos = max (-xpos) 0 + c := by ring
        rw [e1, e2]; exact hne
      · have e1 : ypos + max (-ypos) 0 + (r : Int) - ypos = max (-ypos) 0 + r := by ring
        have e2 : xpos + max (-xpos) 0 + (c : Int) - xpos = max (-xpos) 0 + c := by ring
        rw [e1, e2]; exact hw
    · rintro ⟨dx, dy, h1, h2, h3, h4, hne, hw⟩
      obtain ⟨c, hc⟩ : ∃ c : Nat, (c : Int) = dx - xpos - max (-xpos) 0 :=
        ⟨(dx - xpos - max (-xpos) 0).toNat, by omega⟩
      obtain ⟨r, hr⟩ : ∃ r : Nat, (r : Int) = dy - ypos - max (-ypos) 0 :=
        ⟨(dy - ypos - max (-ypos) 0).toNat, by omega⟩
      have e1 : max (-ypos) 0 + (r : Int) = dy - ypos := by omega
      have e2 : max (-xpos) 0 + (c : Int) = dx - xpos := by omega
      have e3 : ypos + max (-ypos) 0 + (r : Int) = dy := by omega
      have e4 : xpos + max (-xpos) 0 + (c : Int) = dx := by omega
      refine ⟨r, c, by omega, by omega, ?_, ?_⟩
      · rw [e1, e2]; exact hne
      · rw [e1, e2, e3, e4]; exact hw

theorem mem_TBlit_reads (dstMap srcMap : gPixelMap) (xpos ypos : Int)
    (hsw0 : 0 ≤ srcMap.size.x) (hsw : srcMap.size.x ≤ 32767)
    (hsh0 : 0 ≤ srcMap.size.y) (hsh : srcMap.size.y ≤ 32767)
    (hdw0 : 0 ≤ dstMap.size.x) (hdw : dstMap.size.x ≤ 32767)
    (hdh0 : 0 ≤ dstMap.size.y) (hdh : dstMap.size.y ≤ 32767)
    (hx0 : -32768 ≤ xpos) (hx : xpos ≤ 32767) (hy0 : -32768 ≤ ypos) (hy : ypos ≤ 32767)
    (a : Int) (ha : a ∈ (TBlit dstMap srcMap xpos ypos).reads) :
    ∃ sx sy : Int, (0 ≤ sx ∧ sx < srcMap.size.x) ∧ (0 ≤ sy ∧ sy < srcMap.size.y) ∧
      a = sy * srcMap.size.x + sx := by
  rw [TBlit_eq dstMap srcMap xpos ypos hsw0 hsw hsh0 hsh hdw0 hdw hdh0 hdh hx0 hx hy0 hy] at ha
  split_ifs at ha with hret
  · simp at ha
  · rw [mem_tBlitRows_reads] at ha
    have hwn : 0 ≤ min (srcMap.size.x - max (-xpos) 0)
        (dstMap.size.x - (xpos + max (-xpos) 0)) := by omega
    simp only [Int.toNat_of_nonneg hwn] at ha
    obtain ⟨r, c, hr, hc, ha⟩ := ha
    refine ⟨max (-xpos) 0 + c, max (-ypos) 0 + r, by omega, by omega, ?_⟩
    rw [ha]; ring

theorem index_in_buffer (W H x y : Int) (hx0 : 0 ≤ x) (hx : x < W) (hy0 : 0 ≤ y) (hy : y < H) :
    0 ≤ y * W + x ∧ y * W + x < W * H := by
  have h1 : 0 ≤ y * W := mul_nonneg hy0 (by omega)
  have h2 : (y + 1) * W ≤ H * W := mul_le_mul_of_nonneg_right (by omega) (by omega)
  have e1 : (y + 1) * W = y * W + W := by ring
  have e2 : H * W = W * H := by ring
  omega

/-- C28. For every destination of size `dw x dh`, source of size `sw x sh` (sizes
in `0..32767`) and placement `(xpos, ypos)` in 16-bit range, negative and
off-screen placements included, `TBlit` yields a destination in which pixel
`(dx, dy)` equals source pixel `(dx - xpos, dy - ypos)` when that coordinate
lies inside the source and the source pixel is non-zero, and equals its prior
value otherwise; every store goes to a pixel of the `dw x dh` destination and
every read comes from a pixel of the `sw x sh` source. -/
theorem TBlit_clipped_keyed_copy (dstMap srcMap : gPixelMap) (xpos ypos : Int)
    (hsw0 : 0 ≤ srcMap.size.x) (hsw : srcMap.size.x ≤ 32767)
    (hsh0 : 0 ≤ srcMap.size.y) (hsh : srcMap.size.y ≤ 32767)
    (hdw0 : 0 ≤ dstMap.size.x) (hdw : dstMap.size.x ≤ 32767)
    (hdh0 : 0 ≤ dstMap.size.y) (hdh : dstMap.size.y ≤ 32767)
    (hx0 : -32768 ≤ xpos) (hx : xpos ≤ 32767) (hy0 : -32768 ≤ ypos) (hy : ypos ≤ 32767) :
    (∀ dx dy : Int, 0 ≤ dx → dx < dstMap.size.x → 0 ≤ dy → dy < dstMap.size.y →
      applyWrites dstMap.data (TBlit dstMap srcMap xpos ypos).writes (dy * dstMap.size.x + dx)
        = if (0 ≤ dx - xpos ∧ dx - xpos < srcMap.size.x) ∧
              (0 ≤ dy - ypos ∧ dy - ypos < srcMap.size.y) ∧
              srcMap.data ((dy - ypos) * srcMap.size.x + (dx - xpos)) ≠ 0
          then srcMap.data ((dy - ypos) * srcMap.size.x + (dx - xpos))
          else dstMap.data (dy * dstMap.size.x + dx)) ∧
    (∀ w ∈ (TBlit dstMap srcMap xpos ypos).writes,
      (∃ dx dy : Int, (0 ≤ dx ∧ dx < dstMap.size.x) ∧ (0 ≤ dy ∧ dy < dstMap.size.y) ∧
        w.1 = dy * dstMap.size.x + dx) ∧
      0 ≤ w.1 ∧ w.1 < dstMap.size.x * dstMap.size.y) ∧
    (∀ a ∈ (TBlit dstMap srcMap xpos ypos).reads,
      (∃ sx sy : Int, (0 ≤ sx ∧ sx < srcMap.size.x) ∧ (0 ≤ sy ∧ sy < srcMap.size.y) ∧
        a = sy * srcMap.size.x + sx) ∧
      0 ≤ a ∧ a < srcMap.size.x * srcMap.size.y) := by
  have hchar := mem_TBlit_writes dstMap srcMap xpos ypos hsw0 hsw hsh0 hsh hdw0 hdw hdh0 hdh
    hx0 hx hy0 hy
  refine ⟨?_, ?_, ?_⟩
  · intro dx dy hdx0 hdx hdy0 hdy
    split_ifs with hc
    · obtain ⟨h3, h4, hne⟩ := hc
      apply applyWrites_of_mem_unique
      · exact (hchar _).mpr ⟨dx, dy, ⟨hdx0, hdx⟩, ⟨hdy0, hdy⟩, h3, h4, hne, rfl⟩
      · intro w hw ha
        obtain ⟨dx2, dy2, h1, h2, _, _, _, rfl⟩ := (hchar w).mp hw
        obtain ⟨rfl, rfl⟩ := stride_addr_inj dstMap.size.x dx2 dx dy2 dy h1.1 h1.2 hdx0 hdx ha
        rfl
    · apply applyWrites_of_not_mem
      intro w hw ha
      obtain ⟨dx2, dy2, h1, h2, h3, h4, hne, rfl⟩ := (hchar w).mp hw
      obtain ⟨rfl, rfl⟩ := stride_addr_inj dstMap.size.x dx2 dx dy2 dy h1.1 h1.2 hdx0 hdx ha
      exact hc ⟨h3, h4, hne⟩
  · intro w hw
    obtain ⟨dx, dy, h1, h2, _, _, _, rfl⟩ := (hchar w).mp hw
    exact ⟨⟨dx, dy, h1, h2, rfl⟩, index_in_buffer _ _ _ _ h1.1 h1.2 h2.1 h2.2⟩
  · intro a ha
    obtain ⟨sx, sy, h1, h2, rfl⟩ := mem_TBlit_reads dstMap srcMap xpos ypos hsw0 hsw hsh0 hsh
      hdw0 hdw hdh0 hdh hx0 hx hy0 hy a ha
    exact ⟨⟨sx, sy, h1, h2, rfl⟩, index_in_buffer _ _ _ _ h1.1 h1.2 h2.1 h2.2⟩

/-- C28, witness: the 2 x 2 source `1 0 / 3 4` placed at (-1, 0) on a 3 x 2
destination filled with 9: source column 0 is off screen, source pixel (1, 1),
value 4, lands on destination pixel (0, 1), index 3, and destination pixel
(1, 1), index 4, keeps its 9. -/
theorem TBlit_clipped_keyed_copy_witness :
    applyWrites (fun _ => 9)
        (TBlit ⟨⟨3, 2⟩, fun _ => 9⟩ ⟨⟨2, 2⟩, fun i => [1, 0, 3, 4].getD i.toNat 0⟩ (-1) 0).writes
        (1 * 3 + 0) = 4 ∧
    applyWrites (fun _ => 9)
        (TBlit ⟨⟨3, 2⟩, fun _ => 9⟩ ⟨⟨2, 2⟩, fun i => [1, 0, 3, 4].getD i.toNat 0⟩ (-1) 0).writes
        (1 * 3 + 1) = 9 :=
  ⟨((TBlit_clipped_keyed_copy ⟨⟨3, 2⟩, fun _ => 9⟩
      ⟨⟨2, 2⟩, fun i => [1, 0, 3, 4].getD i.toNat 0⟩ (-1) 0
      (by decide) (by decide) (by decide) (by decide) (by decide) (by decide) (by decide)
      (by decide) (by decide) (by decide) (by decide) (by decide)).1 0 1
      (by decide) (by decide) (by decide) (by decide)).trans (by decide),
   ((TBlit_clipped_keyed_copy ⟨⟨3, 2⟩, fun _ => 9⟩
      ⟨⟨2, 2⟩, fun i => [1, 0, 3, 4].getD i.toNat 0⟩ (-1) 0
      (by decide) (by decide) (by decide) (by decide) (by decide) (by decide) (by decide)
      (by decide) (by decide) (by decide) (by decide) (by decide)).1 1 1
      (by decide) (by decide) (by decide) (by decide)).trans (by decide)⟩

/-! ## C29: stores of a well-formed tile lie in the dirty rectangle -/

theorem rowVisible_fit_bounds (W base : Int) (mask : Bool) :
    ∀ (rs : List (Byte × List Byte)) (widthCount pos : Int), tileRunsFit widthCount rs →
      ∀ w ∈ rowVisible W base mask pos rs,
        base + max pos 0 ≤ w.1 ∧
        w.1 < base + min (pos + (SAGA_ISOTILE_WIDTH - widthCount)) W := by
  intro rs
  induction rs with
  | nil => intro _ pos _ w hw; simp [rowVisible] at hw
  | cons r rs ih =>
    intro widthCount pos hfit w hw
    simp only [tileRunsFit] at hfit
    simp only [rowVisible, List.mem_append] at hw
    rcases hw with hw | hw
    · obtain ⟨c, h1, h2, h3, _⟩ := (mem_runVisible W base mask _ r.2 w).mp hw
      omega
    · have := ih _ _ hfit.2 w hw
      omega

/-- C29. For every tile stream of well-formed rows in which no foreground run
extends past tile offset 64, and every call of `drawTile` not skipped by the
bounding test, the dirty rectangle is
`(max x 0, max (y - height) 0, min (x + 64) W, min y H)` and every pixel `(r, c)`
that `drawTile` writes lies inside it: `max x 0 <= c < min (x + 64) W` and
`max (y - height) 0 <= r < min y H`.  (`x`, `y` are the anchor narrowed to 16
bits.) -/
theorem drawTile_writes_in_rect (map : gPixelMap) (x y height : Int) (ts : List TileRow)
    (rest : List Byte) (mask : Bool)
    (hwf : ∀ t ∈ ts, t.wellFormed) (hfit : ∀ t ∈ ts, tileRunsFit 0 t.runs)
    (h1 : ¬ toInt16 x + SAGA_ISOTILE_WIDTH < 0)
    (h2 : ¬ toInt16 x - SAGA_ISOTILE_WIDTH ≥ map.size.x)
    (h3 : ¬ toInt32 (toInt16 y - height) ≥ map.size.y)
    (hrows : ts.length = (min (toInt16 y) map.size.y - toInt32 (toInt16 y - height)).toNat) :
    (drawTile map x y height (encodeTileRows ts ++ rest) mask).rect
        = some ⟨max (toInt16 x) 0, max (toInt32 (toInt16 y - height)) 0,
            min (toInt16 x + SAGA_ISOTILE_WIDTH) map.size.x, min (toInt16 y) map.size.y⟩ ∧
    (∀ w ∈ (drawTile map x y height (encodeTileRows ts ++ rest) mask).writes,
      ∃ r c : Int, w.1 = r * map.size.x + c ∧
        (max (toInt16 x) 0 ≤ c ∧ c < min (toInt16 x + SAGA_ISOTILE_WIDTH) map.size.x) ∧
        (max (toInt32 (toInt16 y - height)) 0 ≤ r ∧ r < min (toInt16 y) map.size.y)) := by
  have hl := toInt32_sub_add (toInt16 y) height (toInt16_range y).1 (toInt16_range y).2
  refine ⟨?_, ?_⟩
  · simp only [drawTile]
    rw [if_neg h1, if_neg h2, if_neg h3]
    simp only [hl]
  · intro w hw
    rw [(drawTile_runs map x y height ts rest mask hwf h1 h2 h3 hrows).1] at hw
    obtain ⟨i, t, hi, h0, h⟩ := (mem_tileVisible _ mask _ ts _ w).mp hw
    have hb := rowVisible_fit_bounds _ _ mask t.runs 0 (toInt16 x)
      (hfit t (List.getElem?_mem hi)) w h
    have hilt : i < ts.length := by
      by_contra hge
      rw [List.getElem?_eq_none (by omega)] at hi
      exact Option.noConfusion hi
    refine ⟨toInt32 (toInt16 y - height) + i,
      w.1 - (toInt32 (toInt16 y - height) + i) * map.size.x, by ring, ?_, ?_⟩
    · simp only [SAGA_ISOTILE_WIDTH] at hb ⊢
      omega
    · omega

/-- C29, witness: a 4 x 2 destination, one tile row holding a run of three
literal bytes and a closing background run of 61, drawn at `x = -1` on row 0. -/
theorem drawTile_writes_in_rect_witness :
    (drawTile ⟨⟨4, 2⟩, fun _ => 9⟩ (-1) 1 1
        (encodeTileRows [⟨[(0, [5, 6, 7])], 61⟩] ++ []) false).rect
        = some ⟨max (toInt16 (-1)) 0, max (toInt32 (toInt16 1 - 1)) 0,
            min (toInt16 (-1) + SAGA_ISOTILE_WIDTH) 4, min (toInt16 1) 2⟩ ∧
    (∀ w ∈ (drawTile ⟨⟨4, 2⟩, fun _ => 9⟩ (-1) 1 1
        (encodeTileRows [⟨[(0, [5, 6, 7])], 61⟩] ++ []) false).writes,
      ∃ r c : Int, w.1 = r * 4 + c ∧
        (max (toInt16 (-1)) 0 ≤ c ∧ c < min (toInt16 (-1) + SAGA_ISOTILE_WIDTH) 4) ∧
        (max (toInt32 (toInt16 1 - 1)) 0 ≤ r ∧ r < min (toInt16 1) 2)) :=
  drawTile_writes_in_rect ⟨⟨4, 2⟩, fun _ => 9⟩ (-1) 1 1 [⟨[(0, [5, 6, 7])], 61⟩] [] false
    (by decide) (by decide) (by decide) (by decide) (by decide) (by decide)

/-! ## C30: `maskTile` reads no literal byte -/

theorem encodeTileRows_append (ts us : List TileRow) :
    encodeTileRows (ts ++ us) = encodeTileRows ts ++ encodeTileRows us := by
  induction ts with
  | nil => rfl
  | cons t ts ih =>
    rw [List.cons_append]
    simp only [encodeTileRows]
    rw [ih, List.append_assoc]

theorem rowVisible_mask_sameRuns (W base : Int) :
    ∀ (rs1 rs2 : List (Byte × List Byte)) (pos : Int),
      List.Forall₂ (fun r1 r2 : Byte × List Byte => r1.1 = r2.1 ∧ r1.2.length = r2.2.length)
        rs1 rs2 →
      rowVisible W base true pos rs1 = rowVisible W base true pos rs2 := by
  intro rs1 rs2 pos h
  induction h generalizing pos with
  | nil => rfl
  | cons hr _ ih =>
    simp only [rowVisible, runVisible, if_true, hr.1, hr.2, ih]

theorem tileVisible_mask_sameRuns (W x : Int) :
    ∀ (ts1 ts2 : List TileRow) (row : Int), List.Forall₂ sameRuns ts1 ts2 →
      tileVisible W true x row ts1 = tileVisible W true x row ts2 := by
  intro ts1 ts2 row h
  induction h generalizing row with
  | nil => rfl
  | cons ht _ ih =>
    simp only [tileVisible, ih, rowVisible_mask_sameRuns W _ _ _ x ht.2]

theorem tileRunsWalk_sameRuns :
    ∀ (rs1 rs2 : List (Byte × List Byte)) (widthCount : Int) (last : Byte),
      List.Forall₂ (fun r1 r2 : Byte × List Byte => r1.1 = r2.1 ∧ r1.2.length = r2.2.length)
        rs1 rs2 →
      tileRunsWalk widthCount rs1 last → tileRunsWalk widthCount rs2 last := by
  intro rs1 rs2 widthCount last h
  induction h generalizing widthCount with
  | nil => exact id
  | cons hr _ ih =>
    intro hw
    simp only [tileRunsWalk] at hw ⊢
    rw [← hr.1, ← hr.2]
    exact ⟨hw.1, hw.2.1, ih _ hw.2.2⟩

theorem wellFormed_sameRuns :
    ∀ (ts1 ts2 : List TileRow), List.Forall₂ sameRuns ts1 ts2 →
      (∀ t ∈ ts1, t.wellFormed) → ∀ t ∈ ts2, t.wellFormed := by
  intro ts1 ts2 h
  induction h with
  | nil => intro _ t ht; simp at ht
  | cons hs _ ih =>
    intro hw t ht
    rcases List.mem_cons.mp ht with ht | ht
    · subst ht
      have := hw _ (List.mem_cons_self _ _)
      unfold TileRow.wellFormed at this ⊢
      rw [← hs.1]
      exact tileRunsWalk_sameRuns _ _ _ _ hs.2 this
    · exact ih (fun u hu => hw u (List.mem_cons_of_mem _ hu)) t ht

theorem maskTile_writes_take (map : gPixelMap) (x y height : Int) (ts : List TileRow)
    (rest : List Byte) (hwf : ∀ t ∈ ts, t.wellFormed)
    (h1 : ¬ toInt16 x + SAGA_ISOTILE_WIDTH < 0)
    (h2 : ¬ toInt16 x - SAGA_ISOTILE_WIDTH ≥ map.size.x)
    (h3 : ¬ toInt32 (toInt16 y - height) ≥ map.size.y)
    (hrows : (min (toInt16 y) map.size.y - toInt32 (toInt16 y - height)).toNat ≤ ts.length) :
    (maskTile map x y height (encodeTileRows ts ++ rest)).writes
      = tileVisible map.size.x true (toInt16 x) (toInt32 (toInt16 y - height))
          (ts.take (min (toInt16 y) map.size.y - toInt32 (toInt16 y - height)).toNat) := by
  have e : encodeTileRows ts ++ rest
      = encodeTileRows
          (ts.take (min (toInt16 y) map.size.y - toInt32 (toInt16 y - height)).toNat)
        ++ (encodeTileRows
              (ts.drop (min (toInt16 y) map.size.y - toInt32 (toInt16 y - height)).toNat)
            ++ rest) := by
    rw [← List.append_assoc, ← encodeTileRows_append, List.take_append_drop]
  unfold maskTile
  rw [e]
  exact (drawTile_runs map x y height _ _ true
    (fun t ht => hwf t (List.mem_of_mem_take ht)) h1 h2 h3
    (by rw [List.length_take]; omega)).1

/-- C30. For every destination, `x`, `y`, `height` and any two tile streams of
well-formed rows with the same run-length bytes (the same background lengths
and the same numbers of literal bytes, run by run) but arbitrary literal bytes
inside the foreground runs, and arbitrary bytes after the rows, `maskTile`
issues the same stores and leaves identical destination buffers.  The streams
hold at least the rows that `maskTile` walks. -/
theorem maskTile_ignores_literals (map : gPixelMap) (x y height : Int)
    (ts1 ts2 : List TileRow) (rest1 rest2 : List Byte)
    (hwf : ∀ t ∈ ts1, t.wellFormed) (hsame : List.Forall₂ sameRuns ts1 ts2)
    (hrows : (min (toInt16 y) map.size.y - toInt32 (toInt16 y - height)).toNat ≤ ts1.length) :
    (maskTile map x y height (encodeTileRows ts1 ++ rest1)).writes
        = (maskTile map x y height (encodeTileRows ts2 ++ rest2)).writes ∧
    (∀ a : Int,
      applyWrites map.data (maskTile map x y height (encodeTileRows ts1 ++ rest1)).writes a
        = applyWrites map.data
            (maskTile map x y height (encodeTileRows ts2 ++ rest2)).writes a) := by
  have hw : (maskTile map x y height (encodeTileRows ts1 ++ rest1)).writes
      = (maskTile map x y height (encodeTileRows ts2 ++ rest2)).writes := by
    by_cases h1 : toInt16 x + SAGA_ISOTILE_WIDTH < 0
    · simp only [maskTile, drawTile]
      rw [if_pos h1, if_pos h1]
    by_cases h2 : toInt16 x - SAGA_ISOTILE_WIDTH ≥ map.size.x
    · simp only [maskTile, drawTile]
      rw [if_neg h1, if_pos h2, if_neg h1, if_pos h2]
    by_cases h3 : toInt32 (toInt16 y - height) ≥ map.size.y
    · simp only [maskTile, drawTile]
      rw [if_neg h1, if_neg h2, if_pos h3, if_neg h1, if_neg h2, if_pos h3]
    rw [maskTile_writes_take map x y height ts1 rest1 hwf h1 h2 h3 hrows,
      maskTile_writes_take map x y height ts2 rest2 (wellFormed_sameRuns _ _ hsame hwf)
        h1 h2 h3 (by rw [← hsame.length_eq]; exact hrows)]
    exact tileVisible_mask_sameRuns _ _ _ _ _ (List.forall₂_take _ hsame)
  exact ⟨hw, fun a => by rw [hw]⟩

/-- C30, witness: on a 4 x 2 destination filled with 9, the rows `0, 3, 5, 6, 7, 61`
and `0, 3, 1, 1, 2, 61` (same run lengths, different literal bytes). -/
theorem maskTile_ignores_literals_witness :
    (maskTile ⟨⟨4, 2⟩, fun _ => 9⟩ (-1) 1 1
        (encodeTileRows [⟨[(0, [5, 6, 7])], 61⟩] ++ [1, 2])).writes
        = (maskTile ⟨⟨4, 2⟩, fun _ => 9⟩ (-1) 1 1
            (encodeTileRows [⟨[(0, [1, 1, 2])], 61⟩] ++ [3])).writes ∧
    (∀ a : Int,
      applyWrites (fun _ => 9) (maskTile ⟨⟨4, 2⟩, fun _ => 9⟩ (-1) 1 1
          (encodeTileRows [⟨[(0, [5, 6, 7])], 61⟩] ++ [1, 2])).writes a
        = applyWrites (fun _ => 9)
            (maskTile ⟨⟨4, 2⟩, fun _ => 9⟩ (-1) 1 1
              (encodeTileRows [⟨[(0, [1, 1, 2])], 61⟩] ++ [3])).writes a) :=
  maskTile_ignores_literals ⟨⟨4, 2⟩, fun _ => 9⟩ (-1) 1 1
    [⟨[(0, [5, 6, 7])], 61⟩] [⟨[(0, [1, 1, 2])], 61⟩] [1, 2] [3]
    (by decide)
    (List.Forall₂.cons ⟨rfl, List.Forall₂.cons ⟨rfl, rfl⟩ List.Forall₂.nil⟩ List.Forall₂.nil)
    (by decide)

/-! ## Placement of the rows of a tile -/

theorem drawTile_runs_pixels (map : gPixelMap) (x y height : Int) (ts : List TileRow)
    (rest : List Byte) (mask : Bool)
    (hW : 0 ≤ map.size.x)
    (hwf : ∀ t ∈ ts, t.wellFormed)
    (h1 : ¬ toInt16 x + SAGA_ISOTILE_WIDTH < 0)
    (h2 : ¬ toInt16 x - SAGA_ISOTILE_WIDTH ≥ map.size.x)
    (h3 : ¬ toInt32 (toInt16 y - height) ≥ map.size.y)
    (hrows : ts.length = (min (toInt16 y) map.size.y - toInt32 (toInt16 y - height)).toNat) :
    (∀ w : Write, w ∈ (drawTile map x y height (encodeTileRows ts ++ rest) mask).writes ↔
      ∃ (i j : Nat) (t : TileRow) (r : Byte × List Byte) (c : Int),
        ts[i]? = some t ∧ t.runs[j]? = some r ∧ 0 ≤ toInt32 (toInt16 y - height) + i ∧
        max (toInt16 x + runStart t.runs j) 0 ≤ c ∧
        c < min (toInt16 x + runStart t.runs j + r.2.length) map.size.x ∧
        w.1 = (toInt32 (toInt16 y - height) + i) * map.size.x + c ∧
        (if mask then w.2 = 0
          else r.2[(c - (toInt16 x + runStart t.runs j)).toNat]? = some w.2)) ∧
    (∀ (i j : Nat) (t : TileRow) (r : Byte × List Byte) (c : Int),
      ts[i]? = some t → t.runs[j]? = some r → 0 ≤ toInt32 (toInt16 y - height) + i →
      max (toInt16 x + runStart t.runs j) 0 ≤ c →
      c < min (toInt16 x + runStart t.runs j + r.2.length) map.size.x →
      applyWrites map.data (drawTile map x y height (encodeTileRows ts ++ rest) mask).writes
          ((toInt32 (toInt16 y - height) + i) * map.size.x + c)
        = if mask then 0 else r.2.getD (c - (toInt16 x + runStart t.runs j)).toNat 0) := by
  obtain ⟨hw, _, _⟩ := drawTile_runs map x y height ts rest mask hwf h1 h2 h3 hrows
  refine ⟨?_, ?_⟩
  · intro w
    rw [hw]
    exact mem_tileVisible_pixel _ _ _ _ _ _
  · intro i j t r c hi hj h0 hlo hhi
    rw [hw]
    have hlt : (c - (toInt16 x + runStart t.runs j)).toNat < r.2.length := by omega
    have hmem : ((toInt32 (toInt16 y - height) + i) * map.size.x + c,
        if mask then (0 : Byte)
          else r.2.getD (c - (toInt16 x + runStart t.runs j)).toNat 0)
        ∈ tileVisible map.size.x mask (toInt16 x) (toInt32 (toInt16 y - height)) ts := by
      rw [mem_tileVisible_pixel]
      refine ⟨i, j, t, r, c, hi, hj, h0, hlo, hhi, rfl, ?_⟩
      cases mask with
      | true => simp
      | false =>
        simp only [Bool.false_eq_true, if_false]
        rw [List.getD_eq_getElem?_getD, List.getElem?_eq_getElem hlt]
        rfl
    apply applyWrites_of_mem_unique _ _ _ _ hmem
    intro w2 hw2 ha
    exact pairwise_lt_unique _ (pairwise_tileVisible _ mask _ hW ts _) w2 hw2 _ hmem ha

/-! ## C16: rows above the destination -/

/-- C16. For every tile stream that starts with `k > 0` well-formed encoded
rows and every `y` (the anchor as narrowed to 16 bits) and `height` with
`y - height = -k`, `drawTile` stores exactly
what it stores when given the stream without those `k` rows and `height - k` at
the same `(x, y)`, so both leave the same destination: each row above the
destination is walked over its own bytes only and stores nothing.  When the
stream goes on with the well-formed rows `k .. k + min y H - 1` that the walk
still covers, encoded row `i` lands on destination row `y - height + i` for
every `i >= k` and rows `i < k` land nowhere: the stores are exactly, for each
foreground run of such a row, the columns `max s 0 <= c < min (s + n) W` of
that destination row, holding literal byte `c - s` (0 under `mask`), and the
stream is consumed up to the end of the last row. -/
theorem drawTile_rows_above (map : gPixelMap) (x y height : Int) (ts : List TileRow)
    (rest : List Byte) (mask : Bool)
    (hwf : ∀ t ∈ ts, t.wellFormed) (hk : 0 < ts.length)
    (hy : toInt16 y - height = -(ts.length : Int))
    (hk32 : (ts.length : Int) ≤ 2147483648) :
    (drawTile map x y height (encodeTileRows ts ++ rest) mask).writes
        = (drawTile map x y (height - ts.length) rest mask).writes ∧
    (∀ a : Int,
      applyWrites map.data (drawTile map x y height (encodeTileRows ts ++ rest) mask).writes a
        = applyWrites map.data (drawTile map x y (height - ts.length) rest mask).writes a) ∧
    (∀ (row : Int) (t : TileRow) (tail : List Byte), row < 0 → t ∈ ts →
      drawTileRow map (toInt16 x) mask row (encodeTileRow t ++ tail)
        = ⟨[], 0, tail, Status.done⟩) ∧
    (∀ (below : List TileRow) (tail : List Byte),
      rest = encodeTileRows below ++ tail → (∀ t ∈ below, t.wellFormed) →
      (below.length : Int) = min (toInt16 y) map.size.y → 0 ≤ map.size.x →
      ¬ toInt16 x + SAGA_ISOTILE_WIDTH < 0 → ¬ toInt16 x - SAGA_ISOTILE_WIDTH ≥ map.size.x →
      ((drawTile map x y height (encodeTileRows ts ++ rest) mask).rest = tail ∧
        (drawTile map x y height (encodeTileRows ts ++ rest) mask).status = Status.done) ∧
      (∀ w : Write, w ∈ (drawTile map x y height (encodeTileRows ts ++ rest) mask).writes ↔
        ∃ (i j : Nat) (t : TileRow) (r : Byte × List Byte) (c : Int),
          (ts ++ below)[i]? = some t ∧ t.runs[j]? = some r ∧ ts.length ≤ i ∧
          max (toInt16 x + runStart t.runs j) 0 ≤ c ∧
          c < min (toInt16 x + runStart t.runs j + r.2.length) map.size.x ∧
          w.1 = (toInt16 y - height + i) * map.size.x + c ∧
          (if mask then w.2 = 0
            else r.2[(c - (toInt16 x + runStart t.runs j)).toNat]? = some w.2)) ∧
      (∀ (i j : Nat) (t : TileRow) (r : Byte × List Byte) (c : Int),
        (ts ++ below)[i]? = some t → t.runs[j]? = some r → ts.length ≤ i →
        max (toInt16 x + runStart t.runs j) 0 ≤ c →
        c < min (toInt16 x + runStart t.runs j + r.2.length) map.size.x →
        applyWrites map.data
            (drawTile map x y height (encodeTileRows ts ++ rest) mask).writes
            ((toInt16 y - height + i) * map.size.x + c)
          = if mask then 0 else r.2.getD (c - (toInt16 x + runStart t.runs j)).toNat 0)) := by
  have hd1 : toInt32 (toInt16 y - height) = -(ts.length : Int) := by
    rw [hy]; simp only [toInt32]; omega
  have hmain : (drawTile map x y height (encodeTileRows ts ++ rest) mask).writes
      = (drawTile map x y (height - ts.length) rest mask).writes := by
    have hr := toInt16_range y
    have hd2 : toInt32 (toInt16 y - (height - ts.length)) = 0 := by
      have : toInt16 y - (height - ts.length) = 0 := by omega
      rw [this]; rfl
    have hl1 := toInt32_sub_add (toInt16 y) height hr.1 hr.2
    have hl2 := toInt32_sub_add (toInt16 y) (height - ts.length) hr.1 hr.2
    have hmin : min (toInt16 y) map.size.y ≤ map.size.y := min_le_right _ _
    unfold drawTile
    simp only
    by_cases h1 : toInt16 x + SAGA_ISOTILE_WIDTH < 0
    · simp only [if_pos h1]
    · by_cases h2 : toInt16 x - SAGA_ISOTILE_WIDTH ≥ map.size.x
      · simp only [if_neg h1, if_pos h2]
      · simp only [if_neg h1, if_neg h2]
        rw [hl1, hl2, hd1, hd2]
        by_cases hH : 0 < map.size.y
        · rw [if_neg (by omega), if_neg (by omega)]
          simp only
          by_cases hlow : 0 ≤ min (toInt16 y) map.size.y
          · obtain ⟨n, hn⟩ : ∃ n : Nat, (n : Int) = min (toInt16 y) map.size.y :=
              ⟨(min (toInt16 y) map.size.y).toNat, by omega⟩
            have e1 : (min (toInt16 y) map.size.y - -(ts.length : Int)).toNat
                = ts.length + n := by omega
            have e2 : (min (toInt16 y) map.size.y - 0).toNat = n := by omega
            rw [e1, e2, drawTileRows_skip map _ mask ts n _ rest hwf (by omega)]
            have e3 : -(ts.length : Int) + ts.length = 0 := by omega
            rw [e3]
          · rw [drawTileRows_no_writes, drawTileRows_no_writes]
            · intro r h1 h2; omega
            · intro r h1 h2; omega
        · rw [if_pos (show (0 : Int) ≥ map.size.y by omega)]
          by_cases hH2 : -(ts.length : Int) ≥ map.size.y
          · rw [if_pos hH2]
          · rw [if_neg hH2]
            simp only
            apply drawTileRows_no_writes
            intro r h1 h2
            omega
  refine ⟨hmain, fun a => by rw [hmain], ?_, ?_⟩
  · intro row t tail hrow ht
    exact drawTileRow_skip map _ mask row t tail hrow (hwf t ht)
  · intro below tail hrest hwfb hlen hW h1 h2
    have hstream : encodeTileRows ts ++ rest = encodeTileRows (ts ++ below) ++ tail := by
      rw [hrest, encodeTileRows_append, List.append_assoc]
    have hwfa : ∀ t ∈ ts ++ below, t.wellFormed := by
      intro t ht
      rcases List.mem_append.mp ht with ht | ht
      · exact hwf t ht
      · exact hwfb t ht
    have h3 : ¬ toInt32 (toInt16 y - height) ≥ map.size.y := by
      rw [hd1]; omega
    have hrows : (ts ++ below).length
        = (min (toInt16 y) map.size.y - toInt32 (toInt16 y - height)).toNat := by
      rw [hd1, List.length_append]; omega
    have hrow : ∀ i : Nat, toInt32 (toInt16 y - height) + (i : Int) = toInt16 y - height + i := by
      intro i; rw [hd1, hy]
    obtain ⟨_, hr, hs⟩ := drawTile_runs map x y height (ts ++ below) tail mask hwfa h1 h2 h3 hrows
    obtain ⟨hmem, hpix⟩ := drawTile_runs_pixels map x y height (ts ++ below) tail mask hW hwfa
      h1 h2 h3 hrows
    rw [hstream]
    refine ⟨⟨hr, hs⟩, ?_, ?_⟩
    · intro w
      rw [hmem w]
      constructor
      · rintro ⟨i, j, t, r, c, hi, hj, h0, hlo, hhi, ha, hv⟩
        rw [hrow i] at ha
        exact ⟨i, j, t, r, c, hi, hj, by rw [hd1] at h0; omega, hlo, hhi, ha, hv⟩
      · rintro ⟨i, j, t, r, c, hi, hj, h0, hlo, hhi, ha, hv⟩
        rw [← hrow i] at ha
        exact ⟨i, j, t, r, c, hi, hj, by rw [hd1]; omega, hlo, hhi, ha, hv⟩
    · intro i j t r c hi hj h0 hlo hhi
      rw [← hrow i]
      exact hpix i j t r c hi hj (by rw [hd1]; omega) hlo hhi

/-- C16, witness: a 6 x 4 destination, a tile of height 3 with `y = 1` whose
first two encoded rows lie above the destination; encoded row 2, a run `7, 8, 9`
after one background pixel, lands on destination row 0, and its literal
number 1 is at column 4, index 4. -/
theorem drawTile_rows_above_witness :
    (drawTile ⟨⟨6, 4⟩, fun _ => 0⟩ 2 1 3
        (encodeTileRows [⟨[(1, [5])], 70⟩, ⟨[], 64⟩] ++ [1, 3, 7, 8, 9, 60]) false).writes
      = (drawTile ⟨⟨6, 4⟩, fun _ => 0⟩ 2 1
          (3 - ([⟨[(1, [5])], 70⟩, ⟨[], 64⟩] : List TileRow).length)
          [1, 3, 7, 8, 9, 60] false).writes ∧
    applyWrites (fun _ => 0)
        (drawTile ⟨⟨6, 4⟩, fun _ => 0⟩ 2 1 3
          (encodeTileRows [⟨[(1, [5])], 70⟩, ⟨[], 64⟩] ++ [1, 3, 7, 8, 9, 60]) false).writes
        ((toInt16 1 - 3 + (2 : Nat)) * 6 + 4) = 8 :=
  ⟨(drawTile_rows_above ⟨⟨6, 4⟩, fun _ => 0⟩ 2 1 3 [⟨[(1, [5])], 70⟩, ⟨[], 64⟩]
      [1, 3, 7, 8, 9, 60] false (by decide) (by decide) (by decide) (by decide)).1,
   (((drawTile_rows_above ⟨⟨6, 4⟩, fun _ => 0⟩ 2 1 3 [⟨[(1, [5])], 70⟩, ⟨[], 64⟩]
      [1, 3, 7, 8, 9, 60] false (by decide) (by decide) (by decide) (by decide)).2.2.2
      [⟨[(1, [7, 8, 9])], 60⟩] [] (by decide) (by decide) (by decide) (by decide) (by decide)
      (by decide)).2.2 2 0 ⟨[(1, [7, 8, 9])], 60⟩ (1, [7, 8, 9]) 4 (by decide) (by decide)
      (by decide) (by decide) (by decide)).trans (by decide)⟩

end Saga2
